import Mathlib

/-!
# Event store (`evtstore/store.go`): framing, block builder, rotation, listing

A shallow embedding of the append-only event store.  Byte slices are lists of
bytes, unsigned machine integers are natural numbers reduced modulo `2 ^ w` at
every place where the Go code converts or adds, `int`/`int64` are integers.
-/

namespace Evtstore

/-! ## Bytes and `encoding/binary` little-endian helpers -/

/-- One octet. -/
abbrev Byte := Fin 256

/-- A byte slice. -/
abbrev Bytes := List Byte

/-- Conversion of a number to a byte, keeping the low 8 bits. -/
def byteOf (n : Nat) : Byte := ⟨n % 256, Nat.mod_lt _ (by decide)⟩

/-- The `k` low-order bytes of `n`, least significant first. -/
def putLE : Nat → Nat → Bytes
  | 0, _ => []
  | k + 1, n => byteOf n :: putLE k (n / 256)

/-- The number whose little-endian digits are the given bytes. -/
def getLE : Bytes → Nat
  | [] => 0
  | b :: bs => b.val + 256 * getLE bs

/-- `binary.LittleEndian.PutUint16` into a 2-byte window. -/
def putUint16 (n : Nat) : Bytes := putLE 2 n

/-- `binary.LittleEndian.PutUint32` into a 4-byte window. -/
def putUint32 (n : Nat) : Bytes := putLE 4 n

/-- `binary.LittleEndian.PutUint64` into an 8-byte window. -/
def putUint64 (n : Nat) : Bytes := putLE 8 n

/-- `binary.LittleEndian.Uint16`: panics (`none`) on fewer than 2 bytes. -/
def uint16 (b : Bytes) : Option Nat :=
  if b.length < 2 then none else some (getLE (b.take 2))

/-- `binary.LittleEndian.Uint32`: panics (`none`) on fewer than 4 bytes. -/
def uint32 (b : Bytes) : Option Nat :=
  if b.length < 4 then none else some (getLE (b.take 4))

/-- `binary.LittleEndian.Uint64`: panics (`none`) on fewer than 8 bytes. -/
def uint64 (b : Bytes) : Option Nat :=
  if b.length < 8 then none else some (getLE (b.take 8))

/-- Go slice expression `b[lo:]`; panics (`none`) when `lo > len(b)`. -/
def sliceFrom (b : Bytes) (lo : Nat) : Option Bytes :=
  if lo ≤ b.length then some (b.drop lo) else none

/-- Go slice expression `b[lo:hi]` on a slice whose capacity equals its
length; panics (`none`) when `lo > hi` or `hi > len(b)`. -/
def slice (b : Bytes) (lo hi : Nat) : Option Bytes :=
  if lo ≤ hi ∧ hi ≤ b.length then some ((b.take hi).drop lo) else none

/-! ## Constants -/

def fileHeaderSize : Nat := 7
def blockHeaderSize : Nat := 18
def blockIdSize : Nat := 20
def entryHeaderSize : Nat := 8

/-! ## Event entries: `size(4)|timestamp(4)|body` -/

/-- `EventEntry.EventCTS`. -/
def EventEntry.EventCTS (entry : Bytes) : Option Nat :=
  (sliceFrom entry 4).bind uint32

/-- `EventEntry.EventBody`. -/
def EventEntry.EventBody (entry : Bytes) : Option Bytes :=
  sliceFrom entry 8

/-- `EventEntries.Next`: the first entry and the remaining entries.  The sum
`size+entryHeaderSize` is computed in `uint32`.  `none` is a panic. -/
def EventEntries.Next (entries : Bytes) : Option (Bytes × Bytes) :=
  if entries.length < entryHeaderSize then none
  else
    match uint32 entries with
    | none => none
    | some size =>
      let k := (size + entryHeaderSize) % 2 ^ 32
      if k ≤ entries.length then some (entries.take k, entries.drop k) else none

/-! ## Event blocks:
`compressedSize(4)|uncompressedSize(4)|count(2)|minTimestamp(4)|maxTimestamp(4)|body` -/

def EventBlock.CompressedSize (blk : Bytes) : Option Nat := uint32 blk
def EventBlock.UncompressedSize (blk : Bytes) : Option Nat := (sliceFrom blk 4).bind uint32
def EventBlock.EntriesCount (blk : Bytes) : Option Nat := (sliceFrom blk 8).bind uint16
def EventBlock.MinCTS (blk : Bytes) : Option Nat := (sliceFrom blk 10).bind uint32
def EventBlock.MaxCTS (blk : Bytes) : Option Nat := (sliceFrom blk 14).bind uint32
def EventBlock.CompressedEventEntries (blk : Bytes) : Option Bytes := sliceFrom blk 18

/-- The LZ4 block codec, an external collaborator.  `compress src` is the
content of the destination buffer up to the length `CompressDefault` returns;
`decompress src n` is the content of a fresh `n`-byte destination buffer after
`DecompressSafe`. -/
structure Lz4 where
  compress : Bytes → Bytes
  decompress : Bytes → Nat → Bytes

/-- `EventBlock.EventEntries`: decompress the payload into a buffer of
`UncompressedSize()` bytes. -/
def EventBlock.EventEntries (lz : Lz4) (blk : Bytes) : Option Bytes :=
  match EventBlock.UncompressedSize blk, EventBlock.CompressedEventEntries blk with
  | some n, some c => some (lz.decompress c n)
  | _, _ => none

/-- The 18 header bytes `saveBlock` fills in (store.go lines 293-297). -/
def blockHeader (compressedSize : Nat) (entriesCount minCTS maxCTS : Nat) (blockBody : Bytes) :
    Bytes :=
  putUint32 (compressedSize % 2 ^ 32) ++ putUint32 (blockBody.length % 2 ^ 32)
    ++ putUint16 (entriesCount % 2 ^ 16) ++ putUint32 minCTS ++ putUint32 maxCTS

/-- The bytes `saveBlock` passes to its two `file.Write` calls, in order. -/
def saveBlockBytes (lz : Lz4) (entriesCount minCTS maxCTS : Nat) (blockBody : Bytes) : Bytes :=
  blockHeader (lz.compress blockBody).length entriesCount minCTS maxCTS blockBody
    ++ lz.compress blockBody

/-- What `flushOnce` appends to the block body for one accepted event
(store.go lines 256-260): `uint32(len(body))`, the compressed timestamp, the body. -/
def appendEntry (blockBody : Bytes) (eventCTS : Nat) (eventBody : Bytes) : Bytes :=
  blockBody ++ putUint32 (eventBody.length % 2 ^ 32) ++ putUint32 eventCTS ++ eventBody

/-- The block body after appending a sequence of `(cts, body)` events in order. -/
def appendEntries (blockBody : Bytes) : List (Nat × Bytes) → Bytes
  | [] => blockBody
  | e :: es => appendEntries (appendEntry blockBody e.1 e.2) es

/-- Call `EventEntries.Next` `n` times, collecting `(EventCTS, EventBody)` of
each entry; returns the decoded entries and the remainder. -/
def nextEntries : Nat → Bytes → Option (List (Nat × Bytes) × Bytes)
  | 0, entries => some ([], entries)
  | n + 1, entries =>
    match EventEntries.Next entries with
    | none => none
    | some (entry, rest) =>
      match EventEntry.EventCTS entry, EventEntry.EventBody entry, nextEntries n rest with
      | some cts, some body, some (es, r) => some ((cts, body) :: es, r)
      | _, _, _ => none

/-- The bytes of one encoded entry. -/
def entryBytes (eventCTS : Nat) (eventBody : Bytes) : Bytes :=
  putUint32 (eventBody.length % 2 ^ 32) ++ (putUint32 eventCTS ++ eventBody)

/-- Concatenation of the encoded entries. -/
def entriesBytes : List (Nat × Bytes) → Bytes
  | [] => []
  | e :: es => entryBytes e.1 e.2 ++ entriesBytes es

/-! ## Time

A `time.Time` is the number of nanoseconds since the Unix epoch (an unbounded
integer), a `time.Duration` is an `int64` count of nanoseconds. -/

/-- Nanoseconds per second. -/
def nsPerSec : Int := 1000000000

/-- `time.Hour` in nanoseconds. -/
def Hour : Int := 3600 * nsPerSec

/-- `Time.Unix()`: whole seconds since the epoch, rounded down. -/
def Unix (t : Int) : Int := t / nsPerSec

/-- `time.Unix(sec, 0)`. -/
def timeUnix (sec : Int) : Int := sec * nsPerSec

/-- The zero `time.Time` (January 1, year 1, 00:00:00 UTC), the value of
`Store.currentTime` in a store made by `NewStore`. -/
def zeroTime : Int := timeUnix (-62135596800)

/-- `Time.Sub`: the duration `t-u`, saturated to the `int64` range. -/
def Sub (t u : Int) : Int :=
  if t - u > 9223372036854775807 then 9223372036854775807
  else if t - u < -9223372036854775808 then -9223372036854775808
  else t - u

/-- Go integer division `a / b` for a positive constant `b`: truncation toward zero. -/
def goDiv (a b : Int) : Int := if 0 ≤ a then a / b else -((-a) / b)

/-- Wrap an integer into the `int64` range (Go arithmetic on `int`). -/
def wrapInt (x : Int) : Int := (x + 9223372036854775808) % 18446744073709551616 - 9223372036854775808

/-- Modelled from the spec: `timeutil.Compress` is not part of the sources at
hand; section 4.2 gives `cts = u32(t - base_time)` in seconds. -/
def Compress (baseTime ts : Int) : Nat := ((Unix ts - Unix baseTime) % 4294967296).toNat

/-- Modelled from the spec: `timeutil.Decompress` is not part of the sources
at hand; section 4.2 says decompression is the inverse of compression, the
base time plus `cts` seconds. -/
def Decompress (baseTime : Int) (cts : Nat) : Int := baseTime + (cts : Int) * nsPerSec

/-! ## External collaborators -/

/-- A file name: a Go string, that is a byte sequence. -/
abbrev Name := Bytes

/-- The collaborators the store calls but does not implement: the LZ4 codec,
the scene discriminator, and the formatting and parsing of file names with
the layout `200601021504` in the store's time zone.

* `sceneOf seen body` tells whether `SceneOf(body)` returns a non-nil scene
  for a discriminator instance that has been asked about the bodies `seen`
  (in order) since `NewDiscrminator()` made it;
* `format sec` is `time.Unix(sec, 0).Format(filenamePattern)`;
* `parse name` is `time.ParseInLocation(filenamePattern, name, CST)`, giving
  the Unix second of the parsed time, or `none` on error. -/
structure Env where
  lz : Lz4
  sceneOf : List Bytes → Bytes → Bool
  format : Int → Name
  parse : Name → Option Int

/-! ## File system

The directory is the list `ReadDir` returns (name and content of each file).
Every fallible operation consults `faults`: the head tells whether this
operation fails (`true`), an exhausted list means no further failure.  A
failing operation has no effect on the directory. -/

structure Fs where
  dir : List (Name × Bytes)
  faults : List Bool

/-- Consume one entry of the failure oracle. -/
def Fs.tick (fs : Fs) : Bool × Fs :=
  match fs.faults with
  | [] => (false, fs)
  | b :: rest => (b, { fs with faults := rest })

/-- Lexicographic comparison of names, `a < b`. -/
def nameLt : Name → Name → Bool
  | [], [] => false
  | [], _ :: _ => true
  | _ :: _, [] => false
  | a :: as, b :: bs => if a.val < b.val then true else if b.val < a.val then false else nameLt as bs

/-- Tells whether the directory has a file of this name. -/
def dirHas (dir : List (Name × Bytes)) (name : Name) : Bool :=
  dir.any (fun f => f.1 == name)

/-- Content of the file of this name. -/
def dirGet : List (Name × Bytes) → Name → Option Bytes
  | [], _ => none
  | f :: rest, name => if f.1 = name then some f.2 else dirGet rest name

/-- Add an empty file, keeping the listing ordered by name. -/
def dirCreate : List (Name × Bytes) → Name → List (Name × Bytes)
  | [], name => [(name, [])]
  | f :: rest, name => if nameLt name f.1 then (name, []) :: f :: rest else f :: dirCreate rest name

/-- Append bytes to the file of this name (no visible effect if it is gone). -/
def dirAppend : List (Name × Bytes) → Name → Bytes → List (Name × Bytes)
  | [], _, _ => []
  | f :: rest, name, b =>
    if f.1 = name then (f.1, f.2 ++ b) :: rest else f :: dirAppend rest name b

/-- An open file: its name and whether `Close` has been called on it. -/
structure File where
  name : Name
  closed : Bool
deriving DecidableEq, Repr

/-- `fs.OpenFile(name, O_CREATE|O_WRONLY|O_APPEND, 0666)`: opens the file,
creating it empty if it does not exist.  Returns `none` on error. -/
def openCreateAppend (fs : Fs) (name : Name) : Option File × Fs :=
  match fs.tick with
  | (true, fs1) => (none, fs1)
  | (false, fs1) =>
    if dirHas fs1.dir name then (some ⟨name, false⟩, fs1)
    else (some ⟨name, false⟩, { fs1 with dir := dirCreate fs1.dir name })

/-- `fs.OpenFile(name, O_WRONLY|O_APPEND, 0666)`: opens an existing file. -/
def openAppend (fs : Fs) (name : Name) : Option File × Fs :=
  match fs.tick with
  | (true, fs1) => (none, fs1)
  | (false, fs1) => if dirHas fs1.dir name then (some ⟨name, false⟩, fs1) else (none, fs1)

/-- `file.Write(b)` on a file opened with `O_APPEND`; `true` is success. -/
def fileWrite (fs : Fs) (file : File) (b : Bytes) : Bool × Fs :=
  if file.closed then (false, fs)
  else
    match fs.tick with
    | (true, fs1) => (false, fs1)
    | (false, fs1) => (true, { fs1 with dir := dirAppend fs1.dir file.name b })

/-- `file.Close()`; `true` is success. -/
def fileClose (fs : Fs) (file : File) : Bool × Fs :=
  if file.closed then (false, fs)
  else
    match fs.tick with
    | (true, fs1) => (false, fs1)
    | (false, fs1) => (true, fs1)

/-! ## The store -/

structure Config where
  BlockEntriesCountLimit : Nat
  BlockSizeLimit : Int
  MaximumFlushInterval : Int
  KeepFilesCount : Int
deriving DecidableEq, Repr

def defaultConfig : Config :=
  { BlockEntriesCountLimit := 65535 - 1
    BlockSizeLimit := 1024 * 1024
    MaximumFlushInterval := 1 * nsPerSec
    KeepFilesCount := 24 }

structure evtInput where
  eventTS : Int
  eventBody : Bytes
deriving DecidableEq, Repr

/-- The writer's state.  The content of the channel `inputQueue` is passed
separately to the functions that receive from it; `compressionBuf` is scratch
space and `RootDir` is the one directory `Fs` describes.  `currentFile` is
`none` for a nil file; `currentDiscr` is `none` for a nil discriminator and
otherwise the bodies the instance has been asked about. -/
structure Store where
  Config : Config
  currentFile : Option File
  currentTime : Int
  currentWindow : Int
  currentDiscr : Option (List Bytes)

/-- `NewStore`. -/
def NewStore : Store :=
  { Config := defaultConfig
    currentFile := none
    currentTime := zeroTime
    currentWindow := 0
    currentDiscr := none }

/-- How a call ended: normally without error, with a returned error, or by a
panic. -/
inductive Outcome where
  | ok
  | err
  | panic
deriving DecidableEq, Repr

/-- `Store.saveBlock`: compress the body and write header and payload to the
current file. -/
def saveBlock (env : Env) (store : Store) (fs : Fs) (entriesCount minCTS maxCTS : Nat)
    (blockBody : Bytes) : Outcome × Fs :=
  match store.currentFile with
  | none => (Outcome.panic, fs)
  | some file =>
    let compressed := env.lz.compress blockBody
    match fileWrite fs file
        (blockHeader compressed.length entriesCount minCTS maxCTS blockBody) with
    | (false, fs1) => (Outcome.err, fs1)
    | (true, fs1) =>
      match fileWrite fs1 file compressed with
      | (false, fs2) => (Outcome.err, fs2)
      | (true, fs2) => (Outcome.ok, fs2)

/-- The 7-byte file header `switchFile` writes for a window start. -/
def fileHeader (currentTime : Int) : Bytes :=
  [0xD1, 0xD1, 1] ++ putUint32 ((Unix currentTime) % 4294967296).toNat

/-- Lines 322-341 of `switchFile`: open the file of the window the store has
just moved to, writing the file header when the creating open succeeds. -/
def openWindowFile (env : Env) (store : Store) (fs : Fs) : Bool × Store × Fs :=
  let fileName := env.format (Unix store.currentTime)
  match openCreateAppend fs fileName with
  | (none, fs2) =>
    match openAppend fs2 fileName with
    | (none, fs3) => (false, store, fs3)
    | (some file, fs3) => (true, { store with currentFile := some file }, fs3)
  | (some file, fs2) =>
    match fileWrite fs2 file (fileHeader store.currentTime) with
    | (false, fs3) => (false, store, fs3)
    | (true, fs3) => (true, { store with currentFile := some file }, fs3)

/-- Lines 315-319 of `switchFile`: close the current file if there is one. -/
def closeCurrent (store : Store) (fs : Fs) : Bool × Fs :=
  match store.currentFile with
  | none => (true, fs)
  | some file => fileClose fs file

/-- `Store.switchFile`; `true` is a nil error. -/
def switchFile (env : Env) (store : Store) (fs : Fs) (ts : Int) : Bool × Store × Fs :=
  let window := goDiv (Unix ts) 3600
  if window = store.currentWindow then (true, store, fs)
  else
    let store1 := { store with currentDiscr := some [] }
    match closeCurrent store1 fs with
    | (false, fs1) => (false, store1, fs1)
    | (true, fs1) =>
      openWindowFile env
        { store1 with
          currentFile := store1.currentFile.map (fun f => { f with closed := true })
          currentWindow := window
          currentTime := timeUnix (window * 3600) } fs1

/-! ## The block builder -/

/-- One call of `saveBlock` as `flushOnce` makes it: the file that was current,
the four arguments, and (a record kept for the statements only, with no
influence on the run) the accepted events encoded in the body, each with the
compressed timestamp computed for it. -/
structure SaveCall where
  file : Option File
  entriesCount : Nat
  minCTS : Nat
  maxCTS : Nat
  blockBody : Bytes
  entries : List (evtInput × Nat)

/-- The local variables of `flushOnce`, with the record of the events encoded
in `blockBody` so far. -/
structure Builder where
  entriesCount : Nat
  blockBody : Bytes
  minCTS : Nat
  maxCTS : Nat
  entries : List (evtInput × Nat)

/-- The values `flushOnce` gives its locals at entry and after a forced save. -/
def Builder.init : Builder :=
  { entriesCount := 0, blockBody := [], minCTS := 4294967295, maxCTS := 0, entries := [] }

/-- The call of `saveBlock` with the builder's values. -/
def Builder.call (b : Builder) (store : Store) : SaveCall :=
  { file := store.currentFile
    entriesCount := b.entriesCount
    minCTS := b.minCTS
    maxCTS := b.maxCTS
    blockBody := b.blockBody
    entries := b.entries }

/-- Result of `flushOnce`: the two returned values, whether it panicked
instead of returning, the state left behind, and the calls of `saveBlock`
made, in order. -/
structure FlushResult where
  shouldContinue : Bool
  entriesCount : Nat
  panicked : Bool
  store : Store
  fs : Fs
  queue : List evtInput
  saved : List SaveCall

/-- The statements after the `for` loop of `flushOnce` (store.go lines 277-282). -/
def flushSave (env : Env) (store : Store) (fs : Fs) (queue : List evtInput) (b : Builder)
    (saved : List SaveCall) : FlushResult :=
  match saveBlock env store fs b.entriesCount b.minCTS b.maxCTS b.blockBody with
  | (Outcome.ok, fs1) => ⟨true, b.entriesCount, false, store, fs1, queue, saved ++ [b.call store]⟩
  | (Outcome.err, fs1) => ⟨false, b.entriesCount, false, store, fs1, queue, saved ++ [b.call store]⟩
  | (Outcome.panic, fs1) =>
    ⟨false, b.entriesCount, true, store, fs1, queue, saved ++ [b.call store]⟩

/-- The builder after one accepted event (store.go lines 248-260). -/
def Builder.add (b : Builder) (store : Store) (input : evtInput) : Builder :=
  let eventCTS := Compress store.currentTime input.eventTS
  { entriesCount := (b.entriesCount + 1) % 65536
    blockBody := appendEntry b.blockBody eventCTS input.eventBody
    minCTS := if eventCTS < b.minCTS then eventCTS
      else b.minCTS
    maxCTS := if eventCTS > b.maxCTS then eventCTS else b.maxCTS
    entries := b.entries ++ [(input, eventCTS)] }

/-- What one turn of the `for` loop of `flushOnce` does with a received
event: leave the function (`done`) or go round again (`next`). -/
inductive Turn where
  | done (r : FlushResult)
  | next (store : Store) (fs : Fs) (b : Builder) (saved : List SaveCall)

/-- Lines 240-268 of `flushOnce` for the received `input`, `queue` being what
is left in the channel. -/
def flushAccept (env : Env) (input : evtInput) (queue : List evtInput) (store : Store) (fs : Fs)
    (b : Builder) (saved : List SaveCall) : Turn :=
  match switchFile env store fs input.eventTS with
  | (false, store1, fs1) => Turn.done ⟨false, b.entriesCount, false, store1, fs1, queue, saved⟩
  | (true, store1, fs1) =>
    match store1.currentDiscr with
    | none => Turn.done ⟨false, b.entriesCount, true, store1, fs1, queue, saved⟩
    | some seen =>
      let store2 := { store1 with currentDiscr := some (seen ++ [input.eventBody]) }
      if env.sceneOf seen input.eventBody = false then Turn.next store2 fs1 b saved
      else
        let b1 := b.add store2 input
        if b1.entriesCount > store2.Config.BlockEntriesCountLimit then
          Turn.done (flushSave env store2 fs1 queue b1 saved)
        else if (b1.blockBody.length : Int) > store2.Config.BlockSizeLimit then
          Turn.done (flushSave env store2 fs1 queue b1 saved)
        else Turn.next store2 fs1 b1 saved

/-- The `case input := <-store.inputQueue` branch (lines 227-268): the forced
save of the pending block (lines 229-239), then `flushAccept`. -/
def flushTurn (env : Env) (input : evtInput) (queue : List evtInput) (store : Store) (fs : Fs)
    (b : Builder) (saved : List SaveCall) : Turn :=
  if Sub input.eventTS store.currentTime > Hour ∧ b.blockBody.length > 0 then
    match saveBlock env store fs b.entriesCount b.minCTS b.maxCTS b.blockBody with
    | (Outcome.err, fs1) =>
      Turn.done ⟨false, b.entriesCount, false, store, fs1, queue, saved ++ [b.call store]⟩
    | (Outcome.panic, fs1) =>
      Turn.done ⟨false, b.entriesCount, true, store, fs1, queue, saved ++ [b.call store]⟩
    | (Outcome.ok, fs1) =>
      flushAccept env input queue store fs1 Builder.init (saved ++ [b.call store])
  else flushAccept env input queue store fs b saved

/-- The `for` loop of `flushOnce`: each turn receives from the queue, or takes
the `default` branch when the queue is empty. -/
def flushLoop (env : Env) :
    List evtInput → Store → Fs → Builder → List SaveCall → FlushResult
  | [], store, fs, b, saved =>
    if b.blockBody.length > 0 then flushSave env store fs [] b saved
    else ⟨false, b.entriesCount, false, store, fs, [], saved⟩
  | input :: queue, store, fs, b, saved =>
    match flushTurn env input queue store fs b saved with
    | Turn.done r => r
    | Turn.next store1 fs1 b1 saved1 => flushLoop env queue store1 fs1 b1 saved1

/-- `Store.flushOnce` on a store whose input queue holds `queue`. -/
def flushOnce (env : Env) (store : Store) (fs : Fs) (queue : List evtInput) : FlushResult :=
  flushLoop env queue store fs Builder.init []

/-! ## Listing -/

/-- The 8 zero bytes `List` appends to the file name for the block id. -/
def zeros8 : Bytes := [0, 0, 0, 0, 0, 0, 0, 0]

/-- One block as `List` writes it to its result buffer: the block id, the
18-byte header read from the file, and the payload copied from the file. -/
structure Emitted where
  blockId : Bytes
  header : Bytes
  payload : Bytes
deriving DecidableEq, Repr

/-- The bytes of the `EventBlocks` buffer holding the given blocks. -/
def eventBlocksBytes : List Emitted → Bytes
  | [] => []
  | e :: es => e.blockId ++ e.header ++ e.payload ++ eventBlocksBytes es

/-- How the scan of one file by `List` ends. -/
inductive Scan where
  | goOn (readEntriesCount : Int) (out : List Emitted)
  | finished (out : List Emitted)
  | error
  | panic
  | outOfFuel
deriving DecidableEq, Repr

/-- What one turn of the inner `for` loop of `List` does. -/
inductive ScanTurn where
  | eof
  | error
  | panic
  | skipped (pos : Nat) (readEntriesCount : Int)
  | emitted (e : Emitted) (pos : Nat) (readEntriesCount : Int)
  | last (e : Emitted)
deriving DecidableEq, Repr

/-- One turn of the inner `for` loop of `List` (store.go lines 396-439) on a
file with the given content, the read position being `pos`: `eof` is the
`break` on `io.EOF`, `skipped` the `continue` after the seek over the payload,
`emitted` a block written to the buffer, `last` the early `return`. -/
def scanTurn (startTime endTime skip limit : Int) (blockIdTmpl content : Bytes)
    (baseTime : Int) (pos : Nat) (readEntriesCount : Int) : ScanTurn :=
  if content.length - pos = 0 then ScanTurn.eof
  else if content.length - pos < blockHeaderSize then ScanTurn.error
  else
    let header := (content.drop pos).take blockHeaderSize
    let pos1 := pos + blockHeaderSize
    match EventBlock.EntriesCount header, EventBlock.MinCTS header, EventBlock.MaxCTS header,
        EventBlock.CompressedSize header with
    | some count, some minCTS, some maxCTS, some compressedSize =>
      let skip1 : Bool := decide (readEntriesCount < skip)
      let read1 : Int := if skip1 then wrapInt (readEntriesCount + count) else readEntriesCount
      let skip2 : Bool := skip1 || decide (Decompress baseTime minCTS > endTime)
      let skip3 : Bool := skip2 || decide (Decompress baseTime maxCTS < startTime)
      if skip3 then ScanTurn.skipped (pos1 + compressedSize) read1
      else if blockIdTmpl.length < 20 then ScanTurn.panic
      else
        let blockId := blockIdTmpl.take 12 ++ putUint64 (pos1 % 2 ^ 64) ++ blockIdTmpl.drop 20
        if content.length - pos1 < compressedSize then ScanTurn.error
        else
          let payload := (content.drop pos1).take compressedSize
          let read2 := wrapInt (read1 + count)
          if read2 > wrapInt (skip + limit) then ScanTurn.last ⟨blockId, header, payload⟩
          else ScanTurn.emitted ⟨blockId, header, payload⟩ (pos1 + compressedSize) read2
    | _, _, _, _ => ScanTurn.panic

/-- The inner `for` loop of `List` (store.go lines 395-440).  `fuel` bounds
the number of turns. -/
def scanBlocks (startTime endTime skip limit : Int) (blockIdTmpl content : Bytes)
    (baseTime : Int) : Nat → Nat → Int → List Emitted → Scan
  | 0, _, _, _ => Scan.outOfFuel
  | fuel + 1, pos, readEntriesCount, out =>
    match scanTurn startTime endTime skip limit blockIdTmpl content baseTime pos
        readEntriesCount with
    | ScanTurn.eof => Scan.goOn readEntriesCount out
    | ScanTurn.error => Scan.error
    | ScanTurn.panic => Scan.panic
    | ScanTurn.skipped pos1 read1 =>
      scanBlocks startTime endTime skip limit blockIdTmpl content baseTime fuel pos1 read1 out
    | ScanTurn.emitted e pos1 read1 =>
      scanBlocks startTime endTime skip limit blockIdTmpl content baseTime fuel pos1 read1
        (out ++ [e])
    | ScanTurn.last e => Scan.finished (out ++ [e])

/-- How `List` ends: with a buffer holding the given blocks and a nil error,
with an error, or by a panic (`outOfFuel` is the model's own, see
`scanBlocks`). -/
inductive ListResult where
  | ok (out : List Emitted)
  | err
  | panic
  | outOfFuel
deriving DecidableEq, Repr

/-- The outer loop of `List` (store.go lines 367-441) over the directory
entries still to visit. -/
def listFiles (env : Env) (startTime endTime skip limit : Int) :
    List (Name × Bytes) → Int → List Emitted → ListResult
  | [], _, out => ListResult.ok out
  | (filename, content) :: rest, readEntriesCount, out =>
    match env.parse filename with
    | none => listFiles env startTime endTime skip limit rest readEntriesCount out
    | some sec =>
      let fileTime := timeUnix sec
      if fileTime + Hour < startTime then
        listFiles env startTime endTime skip limit rest readEntriesCount out
      else if fileTime > endTime then
        listFiles env startTime endTime skip limit rest readEntriesCount out
      else
        let blockIdTmpl : Bytes := filename ++ zeros8
        if content.length - 3 < 4 then ListResult.err
        else
          match uint32 (content.drop 3) with
          | none => ListResult.panic
          | some base =>
            match scanBlocks startTime endTime skip limit blockIdTmpl content (timeUnix base)
                (content.length + 1) fileHeaderSize readEntriesCount out with
            | Scan.goOn read1 out1 => listFiles env startTime endTime skip limit rest read1 out1
            | Scan.finished out1 => ListResult.ok out1
            | Scan.error => ListResult.err
            | Scan.panic => ListResult.panic
            | Scan.outOfFuel => ListResult.outOfFuel

/-- `Store.List` on a directory whose `ReadDir` listing is `dir` (every file
of the listing can be opened and read; reads fail only at the end of the
content). -/
def Store.list (env : Env) (dir : List (Name × Bytes)) (startTime endTime skip limit : Int) :
    ListResult :=
  listFiles env startTime endTime skip limit dir 0 []

/-- `EventBlockId.FileName`. -/
def EventBlockId.FileName (blockId : Bytes) : Option Bytes := slice blockId 0 12

/-- `EventBlockId.Offset`. -/
def EventBlockId.Offset (blockId : Bytes) : Option Nat := (sliceFrom blockId 12).bind uint64

/-! ## Decoding the result of `List`, the input queue, retention, the flush loop -/

/-- `EventBlocks.Next`: the id of the first block, the first block, and the
remaining bytes.  The sum `blockIdSize + blockHeaderSize + CompressedSize()`
is computed in `uint32`.  The slice is taken with a capacity equal to its
length.  `none` is a panic. -/
def EventBlocks.Next (blocks : Bytes) : Option (Bytes × Bytes × Bytes) :=
  if blocks.length < blockIdSize then none
  else
    match slice blocks 0 blockIdSize,
        slice blocks blockIdSize (blockIdSize + blockHeaderSize) with
    | some blockId, some blockHeader =>
      match EventBlock.CompressedSize blockHeader with
      | none => none
      | some compressedSize =>
        let next := (blockIdSize + blockHeaderSize + compressedSize) % 2 ^ 32
        match slice blocks blockIdSize next, sliceFrom blocks next with
        | some block, some rest => some (blockId, block, rest)
        | _, _ => none
    | _, _ => none

/-- Capacity of the channel `NewStore` makes for `inputQueue`. -/
def inputQueueCap : Nat := 100

/-- `Store.Add` on a store whose input queue holds `queue`: the non-blocking
send of the event stamped with `now`, the value of `timeutil.Now()`.  `true`
is a nil error, `false` the error `input queue overflow`. -/
def Store.Add (queue : List evtInput) (now : Int) (eventBody : Bytes) : Bool × List evtInput :=
  if queue.length < inputQueueCap then (true, queue ++ [⟨now, eventBody⟩]) else (false, queue)

/-- `fs.Remove(path)` of the file of this name; `true` is success. -/
def fileRemove (fs : Fs) (name : Name) : Bool × Fs :=
  match fs.tick with
  | (true, fs1) => (false, fs1)
  | (false, fs1) =>
    if dirHas fs1.dir name then
      (true, { fs1 with dir := fs1.dir.filter (fun f => decide (f.1 ≠ name)) })
    else (false, fs1)

/-- The `for` loop of `clean` (store.go lines 182-190): remove each file, an
error being logged and the loop going on. -/
def removeAll (fs : Fs) : List Name → Fs
  | [] => fs
  | name :: rest => removeAll (fileRemove fs name).2 rest

/-- `Store.clean` when the slice `ReadDir` returns has the capacity `cap`.  A
failing `ReadDir` ends it.  For a negative `KeepFilesCount` the bound of the
slice expression `files[:len(files)-KeepFilesCount]` is beyond the length: Go
checks it against the capacity, so the expression panics when the bound
exceeds `cap`, and otherwise the loop removes every file and panics at the
nil element that follows them; the deferred function recovers either panic. -/
def cleanCap (cap : Nat) (store : Store) (fs : Fs) : Fs :=
  match fs.tick with
  | (true, fs1) => fs1
  | (false, fs1) =>
    if (fs1.dir.length : Int) > store.Config.KeepFilesCount then
      if (fs1.dir.length : Int) - store.Config.KeepFilesCount > cap then fs1
      else
        removeAll fs1
          ((fs1.dir.take ((fs1.dir.length : Int) - store.Config.KeepFilesCount).toNat).map
            Prod.fst)
    else fs1

/-- `Store.clean`, the slice `ReadDir` returns being taken to have no spare
capacity (for a `KeepFilesCount` that is not negative the capacity plays no
part, see `cleanCap_eq_clean`).  A failing `ReadDir` ends it, and so does the
panic of the slice expression `files[:len(files)-KeepFilesCount]` for a
negative `KeepFilesCount`, which the deferred function recovers. -/
def clean (store : Store) (fs : Fs) : Fs :=
  match fs.tick with
  | (true, fs1) => fs1
  | (false, fs1) =>
    if (fs1.dir.length : Int) > store.Config.KeepFilesCount then
      if (fs1.dir.length : Int) - store.Config.KeepFilesCount > fs1.dir.length then fs1
      else
        removeAll fs1
          ((fs1.dir.take ((fs1.dir.length : Int) - store.Config.KeepFilesCount).toNat).map
            Prod.fst)
    else fs1

/-- Result of `flushInputQueue`: whether a panic was recovered, whether the
model ran out of fuel, the entries counted, the state left behind and the
calls of `saveBlock` made, in order. -/
structure DrainResult where
  panicked : Bool
  outOfFuel : Bool
  totalEntriesCount : Int
  store : Store
  fs : Fs
  queue : List evtInput
  saved : List SaveCall

/-- The `for` loop of `flushInputQueue` (store.go lines 211-217): call
`flushOnce` until it tells not to continue.  `fuel` bounds the number of
calls. -/
def flushRounds (env : Env) :
    Nat → Store → Fs → List evtInput → Int → List SaveCall → DrainResult
  | 0, store, fs, queue, total, saved => ⟨false, true, total, store, fs, queue, saved⟩
  | fuel + 1, store, fs, queue, total, saved =>
    if (flushOnce env store fs queue).panicked then
      ⟨true, false, total, (flushOnce env store fs queue).store,
        (flushOnce env store fs queue).fs, (flushOnce env store fs queue).queue,
        saved ++ (flushOnce env store fs queue).saved⟩
    else if (flushOnce env store fs queue).shouldContinue = false then
      ⟨false, false, total, (flushOnce env store fs queue).store,
        (flushOnce env store fs queue).fs, (flushOnce env store fs queue).queue,
        saved ++ (flushOnce env store fs queue).saved⟩
    else
      flushRounds env fuel (flushOnce env store fs queue).store
        (flushOnce env store fs queue).fs (flushOnce env store fs queue).queue
        (wrapInt (total + (flushOnce env store fs queue).entriesCount))
        (saved ++ (flushOnce env store fs queue).saved)

/-- `Store.flushInputQueue` on a store whose input queue holds `queue` and
receives nothing more during the call. -/
def flushInputQueue (env : Env) (store : Store) (fs : Fs) (queue : List evtInput) :
    DrainResult :=
  flushRounds env (queue.length + 1) store fs queue 0 []

/-! ## A concrete environment

The collaborators of the repository's tests: a discriminator that accepts
every event, file names `YYYYMMDDhhmm` at the fixed offset UTC+8, and a codec
that stores the bytes uncompressed. -/

def digit (n : Nat) : Byte := byteOf (48 + n % 10)
def digits2 (n : Nat) : Bytes := [digit (n / 10), digit n]
def digits4 (n : Nat) : Bytes := [digit (n / 1000), digit (n / 100), digit (n / 10), digit n]

/-- Year, month and day of the given day number (days since 1970-01-01). -/
def civilOfDays (days : Nat) : Nat × Nat × Nat :=
  let z := days + 719468
  let era := z / 146097
  let doe := z % 146097
  let yoe := (doe - doe / 1460 + doe / 36524 - doe / 146096) / 365
  let doy := doe - (365 * yoe + yoe / 4 - yoe / 100)
  let mp := (5 * doy + 2) / 153
  let d := doy - (153 * mp + 2) / 5 + 1
  let m := if mp < 10 then mp + 3 else mp - 9
  (yoe + era * 400 + (if m ≤ 2 then 1 else 0), m, d)

/-- Day number (days since 1970-01-01) of a date from March 1 of year 0 on. -/
def daysOfCivil (y m d : Nat) : Int :=
  let y1 := if m ≤ 2 then y - 1 else y
  let era := y1 / 400
  let yoe := y1 % 400
  let mp := (m + 9) % 12
  let doy := (153 * mp + 2) / 5 + d - 1
  let doe := yoe * 365 + yoe / 4 - yoe / 100 + doy
  ((era * 146097 + doe : Nat) : Int) - 719468

def daysIn (y m : Nat) : Nat :=
  if m = 2 then (if y % 4 = 0 ∧ (y % 100 ≠ 0 ∨ y % 400 = 0) then 29 else 28)
  else if m = 4 ∨ m = 6 ∨ m = 9 ∨ m = 11 then 30
  else 31

/-- File name of the window starting at the given Unix second, at UTC+8
(seconds before 1970 local time are not handled). -/
def cstFormat (sec : Int) : Name :=
  let t := (sec + 8 * 3600).toNat
  let ymd := civilOfDays (t / 86400)
  digits4 ymd.1 ++ digits2 ymd.2.1 ++ digits2 ymd.2.2 ++ digits2 (t % 86400 / 3600)
    ++ digits2 (t % 3600 / 60)

def num (ds : Bytes) : Nat := ds.foldl (fun acc d => 10 * acc + (d.val - 48)) 0

/-- Unix second of a 12-digit file name read at UTC+8. -/
def cstParse (name : Name) : Option Int :=
  if name.length ≠ 12 ∨ ¬ (name.all (fun b => decide (48 ≤ b.val ∧ b.val ≤ 57)) = true) then none
  else
    let y := num (name.take 4)
    let m := num ((name.drop 4).take 2)
    let d := num ((name.drop 6).take 2)
    let h := num ((name.drop 8).take 2)
    let mi := num ((name.drop 10).take 2)
    if m < 1 ∨ 12 < m ∨ d < 1 ∨ daysIn y m < d ∨ 24 ≤ h ∨ 60 ≤ mi then none
    else some (daysOfCivil y m d * 86400 + h * 3600 + mi * 60 - 8 * 3600)

/-- A codec that stores the bytes as they are. -/
def storedLz4 : Lz4 := ⟨fun src => src, fun src n => src.take n⟩

/-- The environment of the tests. -/
def testEnv : Env := ⟨storedLz4, fun _ _ => true, cstFormat, cstParse⟩

/-- ASCII bytes of a string literal made of ASCII characters. -/
def ascii (s : String) : Bytes := s.data.map (fun c => byteOf c.toNat)

/-- The blocks in the buffer when a scan ends without error or panic. -/
def Scan.out : Scan → Option (List Emitted)
  | Scan.goOn _ out => some out
  | Scan.finished out => some out
  | _ => none

/-! ## Predicates used in the statements -/

/-- The `(cts, body)` pairs of recorded events. -/
def pairs (es : List (evtInput × Nat)) : List (Nat × Bytes) :=
  es.map (fun p => (p.2, p.1.eventBody))

/-- The hour window of a timestamp as `switchFile` computes it. -/
def windowOf (ts : Int) : Int := goDiv (Unix ts) 3600

/-- A call of `saveBlock` is sound for its record when the body is the
encoding of the recorded events in order, there is at least one of them, the
count is their number modulo `2^16`, and every compressed timestamp is a
`uint32` between the two bounds of the call. -/
structure SaveCall.Sound (c : SaveCall) : Prop where
  body : c.blockBody = entriesBytes (pairs c.entries)
  nonempty : c.entries ≠ []
  count : c.entriesCount = c.entries.length % 65536
  range : ∀ p ∈ c.entries, c.minCTS ≤ p.2 ∧ p.2 ≤ c.maxCTS
  cts : ∀ p ∈ c.entries, p.2 < 2 ^ 32

/-- The same for the builder's locals between two turns of the loop. -/
structure Builder.Sound (b : Builder) : Prop where
  body : b.blockBody = entriesBytes (pairs b.entries)
  count : b.entriesCount = b.entries.length % 65536
  range : ∀ p ∈ b.entries, b.minCTS ≤ p.2 ∧ p.2 ≤ b.maxCTS
  cts : ∀ p ∈ b.entries, p.2 < 2 ^ 32

/-- The store has the file of its current window open: the state `switchFile`
leaves behind when it returns a nil error after a rotation. -/
def Store.ready (env : Env) (store : Store) : Prop :=
  store.currentTime = timeUnix (store.currentWindow * 3600) ∧
  store.currentFile = some ⟨env.format (store.currentWindow * 3600), false⟩ ∧
  store.currentDiscr ≠ none

/-- Every event of the list is in the window of the one before it (`w` for
the first) or more than one hour after the start of that window: the events
for which the guard of store.go line 229 forces the pending block out
whenever the window changes. -/
def guardedFrom : Int → List evtInput → Bool
  | _, [] => true
  | w, e :: q =>
    (decide (windowOf e.eventTS = w) || decide (Sub e.eventTS (timeUnix (w * 3600)) > Hour))
      && guardedFrom (windowOf e.eventTS) q

/-- The same with no condition on the first event. -/
def guarded : List evtInput → Bool
  | [] => true
  | e :: q => guardedFrom (windowOf e.eventTS) q

/-- The file a call of `saveBlock` writes to is the file of the window of
every event recorded for the call. -/
def SaveCall.inOwnWindow (env : Env) (c : SaveCall) : Prop :=
  ∀ p ∈ c.entries, c.file = some ⟨env.format (windowOf p.1.eventTS * 3600), false⟩

/-- The events pending in the builder all belong to the window whose file the
store has open. -/
def Builder.aligned (env : Env) (store : Store) (b : Builder) : Prop :=
  b.entries ≠ [] →
    store.ready env ∧ ∀ p ∈ b.entries, windowOf p.1.eventTS = store.currentWindow

/-- The record `e` is what `List` writes for the block whose 18-byte header
starts at offset `pos` of the file `filename` with the given content and
decoded base time: id, header and payload are taken from there, the payload
is complete, and the block's time range meets `[startTime, endTime]`. -/
structure EmittedAt (startTime endTime : Int) (filename content : Bytes) (baseTime : Int)
    (pos : Nat) (e : Emitted) : Prop where
  inFile : pos + 18 ≤ content.length
  header : e.header = (content.drop pos).take 18
  payload : ∃ csize, EventBlock.CompressedSize e.header = some csize ∧
    pos + 18 + csize ≤ content.length ∧ e.payload = (content.drop (pos + 18)).take csize
  idLen : 20 ≤ (filename ++ zeros8).length
  blockId : e.blockId = (filename ++ zeros8).take 12 ++ putUint64 ((pos + 18) % 2 ^ 64)
    ++ (filename ++ zeros8).drop 20
  minTime : ∃ lo, EventBlock.MinCTS e.header = some lo ∧ Decompress baseTime lo ≤ endTime
  maxTime : ∃ hi, EventBlock.MaxCTS e.header = some hi ∧ startTime ≤ Decompress baseTime hi

/-- The record `e` comes from a file of the directory that `List` selects by
its name. -/
def EmittedFrom (env : Env) (startTime endTime : Int) (dir : List (Name × Bytes))
    (e : Emitted) : Prop :=
  ∃ f ∈ dir, ∃ (sec : Int) (base pos : Nat),
    env.parse f.1 = some sec ∧ startTime ≤ timeUnix sec + Hour ∧ timeUnix sec ≤ endTime ∧
    uint32 (f.2.drop 3) = some base ∧ 7 ≤ pos ∧
    EmittedAt startTime endTime f.1 f.2 (timeUnix base) pos e

/-! ## Well-formed event files and the listing the spec describes -/

/-- A block as it lies in a file: its header and its payload. -/
structure FileBlock where
  header : Bytes
  payload : Bytes

/-- A file of the store: its name, the Unix second its window starts at, and
its blocks. -/
structure EventFile where
  name : Name
  sec : Nat
  blocks : List FileBlock

/-- The bytes of a sequence of blocks, one after the other. -/
def blocksBytes : List FileBlock → Bytes
  | [] => []
  | b :: bs => b.header ++ b.payload ++ blocksBytes bs

/-- The bytes of the file: the 7-byte file header, then the blocks. -/
def EventFile.content (f : EventFile) : Bytes :=
  fileHeader (timeUnix f.sec) ++ blocksBytes f.blocks

def FileBlock.count (b : FileBlock) : Nat := (EventBlock.EntriesCount b.header).getD 0
def FileBlock.minCTS (b : FileBlock) : Nat := (EventBlock.MinCTS b.header).getD 0
def FileBlock.maxCTS (b : FileBlock) : Nat := (EventBlock.MaxCTS b.header).getD 0

/-- A block is well formed when its header has 18 bytes, declares the length
of the payload that follows, and has `max_cts` within the hour of the file. -/
structure FileBlock.wf (b : FileBlock) : Prop where
  headerLen : b.header.length = 18
  size : EventBlock.CompressedSize b.header = some b.payload.length
  maxCTS : b.maxCTS ≤ 3600

/-- A file is well formed when its name has 12 bytes and parses to the window
start that its header holds, a `uint32`, and its blocks are well formed. -/
structure EventFile.wf (env : Env) (f : EventFile) : Prop where
  nameLen : f.name.length = 12
  name : env.parse f.name = some (f.sec : Int)
  sec : f.sec < 2 ^ 32
  blocks : ∀ b ∈ f.blocks, b.wf

/-- The time range `[base_time + min_cts, base_time + max_cts]` of the block
overlaps `[startTime, endTime]`. -/
def FileBlock.overlaps (baseTime startTime endTime : Int) (b : FileBlock) : Bool :=
  decide (Decompress baseTime b.minCTS ≤ endTime) &&
    decide (startTime ≤ Decompress baseTime b.maxCTS)

/-- Written from the spec (section 8, `list(start, end, 0, ∞)`): of the blocks
of one file, the first lying at offset `off`, those that overlap the range,
in the order of their offsets, each with the id `List` gives it (the file
name and, as a `uint64`, the offset at which its payload starts). -/
def selectBlocks (startTime endTime : Int) (name : Name) (baseTime : Int) :
    Nat → List FileBlock → List Emitted
  | _, [] => []
  | off, b :: bs =>
    (if b.overlaps baseTime startTime endTime then
        [⟨name ++ putUint64 ((off + 18) % 2 ^ 64), b.header, b.payload⟩]
      else [])
      ++ selectBlocks startTime endTime name baseTime (off + 18 + b.payload.length) bs

/-- Written from the spec: the overlapping blocks of all files, file after
file in the order of the listing. -/
def listSpec (startTime endTime : Int) : List EventFile → List Emitted
  | [] => []
  | f :: fs =>
    selectBlocks startTime endTime f.name (timeUnix f.sec) 7 f.blocks
      ++ listSpec startTime endTime fs

/-- Number of entries the headers of the blocks declare. -/
def blocksEntries : List FileBlock → Nat
  | [] => 0
  | b :: bs => b.count + blocksEntries bs

/-- Total number of entries in the directory. -/
def totalEntries : List EventFile → Nat
  | [] => 0
  | f :: fs => blocksEntries f.blocks + totalEntries fs

/-- The block id `a` comes before the block id `b`: its file name is smaller,
or the names are the same and its offset is smaller. -/
def idBefore (a b : Bytes) : Prop :=
  ∃ na nb oa ob, EventBlockId.FileName a = some na ∧ EventBlockId.FileName b = some nb ∧
    EventBlockId.Offset a = some oa ∧ EventBlockId.Offset b = some ob ∧
    (nameLt na nb = true ∨ (na = nb ∧ oa < ob))

/-! ## The skip and limit cursor of `List`, as the spec describes it -/

/-- Number of entries the header of an emitted block declares. -/
def Emitted.count (e : Emitted) : Nat := (EventBlock.EntriesCount e.header).getD 0

/-- All the blocks of one file, the first lying at offset `off`, in the order
of their offsets, each as `List` writes it. -/
def fileRecords (name : Name) : Nat → List FileBlock → List Emitted
  | _, [] => []
  | off, b :: bs =>
    ⟨name ++ putUint64 ((off + 18) % 2 ^ 64), b.header, b.payload⟩
      :: fileRecords name (off + 18 + b.payload.length) bs

/-- All the blocks of all files, file after file in the order of the listing. -/
def allRecords : List EventFile → List Emitted
  | [] => []
  | f :: fs => fileRecords f.name 7 f.blocks ++ allRecords fs

/-- Written from the spec (section 4.8, `skip` and `limit` count entries):
walking the blocks with `cum` entries counted so far, a block is passed over
while `cum < skip` and emitted in full otherwise; the walk stops right after
an emitted block with which the count exceeds `skip + limit`. -/
def skipLimit (skip limit : Int) : Int → List Emitted → List Emitted
  | _, [] => []
  | cum, e :: es =>
    if cum < skip then skipLimit skip limit (cum + e.count) es
    else if cum + e.count > skip + limit then [e]
    else e :: skipLimit skip limit (cum + e.count) es

/-- The count at the end of the walk of `skipLimit`, or `none` when the walk
stops early. -/
def skipLimitEnd (skip limit : Int) : Int → List Emitted → Option Int
  | cum, [] => some cum
  | cum, e :: es =>
    if cum < skip then skipLimitEnd skip limit (cum + e.count) es
    else if cum + e.count > skip + limit then none
    else skipLimitEnd skip limit (cum + e.count) es

/-- An emitted block is framed when its id has 20 bytes, its header 18, and
the header declares the length of the payload. -/
structure Emitted.framed (e : Emitted) : Prop where
  idLen : e.blockId.length = 20
  headerLen : e.header.length = 18
  size : EventBlock.CompressedSize e.header = some e.payload.length

/-- Call `EventBlocks.Next` `k` times, collecting the id and the block of
each call; returns them and the remainder. -/
def nextBlocks : Nat → Bytes → Option (List (Bytes × Bytes) × Bytes)
  | 0, blocks => some ([], blocks)
  | k + 1, blocks =>
    match EventBlocks.Next blocks with
    | none => none
    | some (blockId, block, rest) =>
      match nextBlocks k rest with
      | none => none
      | some (l, r) => some ((blockId, block) :: l, r)

/-- What the builder holds when every compressed timestamp was computed
against the start of the event's own hour window. -/
def Builder.withinHour (entries : List (evtInput × Nat)) (maxCTS : Nat) : Prop :=
  (∀ p ∈ entries,
    p.2 = Compress (timeUnix (windowOf p.1.eventTS * 3600)) p.1.eventTS ∧
    (0 ≤ Unix p.1.eventTS →
      (p.2 : Int) = Unix p.1.eventTS - Unix p.1.eventTS / 3600 * 3600 ∧ p.2 < 3600)) ∧
  ((∀ p ∈ entries, 0 ≤ Unix p.1.eventTS) → maxCTS < 3600)

/-- Concatenation of the uncompressed bodies passed to `saveBlock`, in the
order of the calls. -/
def savedBytes : List SaveCall → Bytes
  | [] => []
  | c :: cs => c.blockBody ++ savedBytes cs

/-- The events the discriminator accepts when it is asked about the queued
events in order, each with its compressed timestamp: `window` and `seen` are
the window of the discriminator at hand and the bodies it has been asked
about; an event of another window meets a new discriminator. -/
def acceptedEvents (env : Env) : Int → List Bytes → List evtInput → List (evtInput × Nat)
  | _, _, [] => []
  | window, seen, input :: queue =>
    let w := windowOf input.eventTS
    let seen0 := if w = window then seen else []
    let rest := acceptedEvents env w (seen0 ++ [input.eventBody]) queue
    if env.sceneOf seen0 input.eventBody = false then rest
    else (input, Compress (timeUnix (w * 3600)) input.eventTS) :: rest

/-- What a run of `flushOnce` without failing file operation leaves: no
panic, the store with the file of its window open (or untouched with the
queue empty), the queue shorter by `slack` when the caller is told to
continue and empty otherwise, and `bytes` the saved bodies followed by the
entries of the events still queued that the discriminator will accept. -/
def FlushResult.accountsFor (env : Env) (r : FlushResult) (queueLen slack : Nat)
    (bytes : Bytes) : Prop :=
  r.panicked = false ∧ r.fs.faults = [] ∧
  (r.store.ready env ∨ (r.store.currentFile = none ∧ r.queue = [])) ∧
  (r.shouldContinue = true → r.queue.length + slack ≤ queueLen) ∧
  (r.shouldContinue = false → r.queue = []) ∧
  savedBytes r.saved ++ entriesBytes (pairs (acceptedEvents env r.store.currentWindow
    (r.store.currentDiscr.getD []) r.queue)) = bytes

/-- The discriminator accepts every event of the queue when asked in order,
`seen` being the bodies it has been asked about before. -/
def allAccepted (env : Env) : List Bytes → List evtInput → Bool
  | _, [] => true
  | seen, e :: q => env.sceneOf seen e.eventBody && allAccepted env (seen ++ [e.eventBody]) q

/-- Total size of the entries `flushOnce` encodes for the events of the queue. -/
def encodedSize : List evtInput → Nat
  | [] => 0
  | e :: q => entryHeaderSize + e.eventBody.length + encodedSize q

/-- The entries of a queue whose events are all accepted in the window `w`. -/
def windowEntries (w : Int) (queue : List evtInput) : List (Nat × Bytes) :=
  queue.map (fun e => (Compress (timeUnix (w * 3600)) e.eventTS, e.eventBody))

/-- Number of bytes of all the files of a directory. -/
def dirBytes : List (Name × Bytes) → Nat
  | [] => 0
  | f :: rest => f.2.length + dirBytes rest

/-- Sum of `EntriesCount()` over the blocks of a result of `List`. -/
def emittedEntries : List Emitted → Nat
  | [] => 0
  | e :: es => e.count + emittedEntries es

/-- Tells whether a turn of the scan wrote a block to the buffer. -/
def ScanTurn.emits : ScanTurn → Bool
  | ScanTurn.emitted _ _ _ => true
  | ScanTurn.last _ => true
  | _ => false

/-- The blocks written so far hold no entry, or their entries were counted
from `skip` on and the count has not passed `skip + limit`. -/
def withinLimit (skip limit readEntriesCount : Int) (out : List Emitted) : Prop :=
  emittedEntries out = 0 ∨
    ((emittedEntries out : Int) + skip ≤ readEntriesCount ∧ readEntriesCount ≤ skip + limit)

/-- The count is not negative and leaves room for 65535 entries for each 18
bytes still to read, `cap` being the room at the start. -/
def countRoom (cap readEntriesCount : Int) (remaining : Nat) : Prop :=
  0 ≤ readEntriesCount ∧ 18 * readEntriesCount + 65535 * (remaining : Int) ≤ cap

/-- The block a turn of the scan writes to the buffer, if it writes one. -/
def ScanTurn.block : ScanTurn → Option Emitted
  | ScanTurn.emitted e _ _ => some e
  | ScanTurn.last e => some e
  | _ => none

/-! ## Data of the repository's tests -/

/-- A store with an open file and a directory holding that file. -/
def exampleStore : Store :=
  { NewStore with currentFile := some ⟨ascii "201701010800", false⟩ }

/-- The queue of the test `Test_rotation_happen_within_flush`: two events one
hour apart. -/
def rotationQueue : List evtInput :=
  [⟨1483228900 * nsPerSec, ascii "\x7b\"url\":\"/hello\"\x7d"⟩,
   ⟨1483232500 * nsPerSec, ascii "\x7b\"url\":\"/hello\"\x7d"⟩]

/-- Two events, the second exactly one hour after the start of the window of
the first. -/
def boundaryQueue : List evtInput :=
  [⟨1483228900 * nsPerSec, ascii "\x7b\"url\":\"/hello1\"\x7d"⟩,
   ⟨1483232400 * nsPerSec, ascii "\x7b\"url\":\"/hello2\"\x7d"⟩]

/-- The directory an earlier run of the store left behind: the file of the
window 412008 with its header and one block. -/
def earlierRunDir : List (Name × Bytes) :=
  (flushOnce testEnv NewStore ⟨[], []⟩
    [⟨1483228900 * nsPerSec, ascii "\x7b\"url\":\"/hello1\"\x7d"⟩]).fs.dir

/-- The instant the tests take for "now". -/
def today : Int := 1483228900 * nsPerSec

/-- The directory of `Test_list_time_range`: one event a day before `today`
and one at `today` flushed together, then one two minutes later. -/
def timeRangeDir : List (Name × Bytes) :=
  let r1 := flushOnce testEnv NewStore ⟨[], []⟩
    [⟨today - 24 * Hour, ascii "\x7b\"url\":\"/hello1\"\x7d"⟩, ⟨today, ascii "\x7b\"url\":\"/hello2\"\x7d"⟩]
  (flushOnce testEnv r1.store r1.fs
    [⟨today + 120 * nsPerSec, ascii "\x7b\"url\":\"/hello3\"\x7d"⟩]).fs.dir

/-- The block of the event `/hello2` as `List` returns it in that test. -/
def hello2Block : Emitted :=
  { blockId := ascii "201701010800" ++ putUint64 25
    header := putUint32 25 ++ putUint32 25 ++ putUint16 1 ++ putUint32 100 ++ putUint32 100
    payload := entryBytes 100 (ascii "\x7b\"url\":\"/hello2\"\x7d") }

/-- The files of `Test_list_time_range`, block by block. -/
def timeRangeFiles : List EventFile :=
  [ { name := ascii "201612310800", sec := 1483142400,
      blocks := [⟨putUint32 25 ++ putUint32 25 ++ putUint16 1 ++ putUint32 100 ++ putUint32 100,
        entryBytes 100 (ascii "\x7b\"url\":\"/hello1\"\x7d")⟩] },
    { name := ascii "201701010800", sec := 1483228800,
      blocks := [⟨hello2Block.header, hello2Block.payload⟩,
        ⟨putUint32 25 ++ putUint32 25 ++ putUint16 1 ++ putUint32 220 ++ putUint32 220,
          entryBytes 220 (ascii "\x7b\"url\":\"/hello3\"\x7d")⟩] } ]

/-- The directory of `Test_list_skip_and_limit`: two events flushed one after
the other into the same file (with the storing codec). -/
def skipLimitDir : List (Name × Bytes) :=
  let r1 := flushOnce testEnv NewStore ⟨[], []⟩ [⟨today, ascii "\x7b\"url\":\"/hello1\"\x7d"⟩]
  (flushOnce testEnv r1.store r1.fs [⟨today, ascii "\x7b\"url\":\"/hello2\"\x7d"⟩]).fs.dir

/-- The file of `Test_list_skip_and_limit`, block by block. -/
def skipLimitFiles : List EventFile :=
  [ { name := ascii "201701010800", sec := 1483228800,
      blocks := [⟨putUint32 25 ++ putUint32 25 ++ putUint16 1 ++ putUint32 100 ++ putUint32 100,
          entryBytes 100 (ascii "\x7b\"url\":\"/hello1\"\x7d")⟩,
        ⟨hello2Block.header, hello2Block.payload⟩] } ]

/-- A directory holding one event file and a file whose name does not parse
and sorts before it. -/
def lockDir : List (Name × Bytes) :=
  [(ascii ".lock", []), (ascii "201701010800", fileHeader (timeUnix 1483228800))]

/-- A store that keeps one file. -/
def keepOneStore : Store :=
  { NewStore with Config := { defaultConfig with KeepFilesCount := 1 } }

/-- Eight bytes whose first four declare the size `2^32 - 1`. -/
def wrapEntries : Bytes := [255, 255, 255, 255, 0, 0, 0, 0]

/-- A 20-byte id followed by an 18-byte header that declares the compressed
size `2^32 - 1`. -/
def wrapBlocks : Bytes :=
  ascii "201701010800" ++ putUint64 25 ++ [255, 255, 255, 255] ++ putUint32 1 ++ putUint16 1
    ++ putUint32 0 ++ putUint32 0

/-- A directory whose first file ends 5 bytes into a block header and whose
second file holds the block of an event of 09:01:40. -/
def tornDir : List (Name × Bytes) :=
  [(ascii "201701010800", fileHeader (timeUnix 1483228800) ++ [1, 2, 3, 4, 5]),
   (ascii "201701010900", fileHeader (timeUnix 1483232400)
      ++ (putUint32 2 ++ putUint32 2 ++ putUint16 1 ++ putUint32 100 ++ putUint32 100)
      ++ [7, 7])]

/-- A new store whose blocks are limited to one entry and 1000 bytes. -/
def smallStore : Store :=
  { NewStore with Config := { defaultConfig with BlockEntriesCountLimit := 1, BlockSizeLimit := 1000 } }

/-- A new store whose `BlockSizeLimit` is negative. -/
def negativeLimitStore : Store :=
  { NewStore with Config := { defaultConfig with BlockSizeLimit := -1 } }

/-- Three events of the hour window of the tests. -/
def threeQueue : List evtInput :=
  [⟨1483228900 * nsPerSec, ascii "a"⟩, ⟨1483228901 * nsPerSec, ascii "bc"⟩,
   ⟨1483228902 * nsPerSec, ascii "def"⟩]

/-- Two events of the hour that starts at the Unix epoch, window 0. -/
def epochQueue : List evtInput :=
  [⟨100 * nsPerSec, ascii "a"⟩, ⟨200 * nsPerSec, ascii "b"⟩]

/-- The queue of the test `Test_add_multiple`: the same body twice at the
mocked time. -/
def addMultipleQueue : List evtInput :=
  [⟨1483228900 * nsPerSec, ascii "\x7b\"url\":\"/hello\"\x7d"⟩,
   ⟨1483228900 * nsPerSec, ascii "\x7b\"url\":\"/hello\"\x7d"⟩]

/-- A store with the file of the window of the tests open and
`BlockEntriesCountLimit` at the largest value of its `uint16` field. -/
def countWrapStore : Store :=
  { Config := { defaultConfig with BlockEntriesCountLimit := 65535 }
    currentFile := some ⟨testEnv.format (412008 * 3600), false⟩
    currentTime := timeUnix (412008 * 3600)
    currentWindow := 412008
    currentDiscr := some [] }

/-- An event of the window of the tests with an empty body. -/
def emptyEvent : evtInput := ⟨1483228900 * nsPerSec, []⟩

/-- A queue of `65536` such events (`65535` and one more). -/
def countWrapQueue : List evtInput := List.replicate 65535 emptyEvent ++ [emptyEvent]

/-- A file named after the window of 08:00 whose one block holds an event
compressed to `5000` seconds after the window start. -/
def lateFile : EventFile :=
  { name := ascii "201701010800", sec := 1483228800,
    blocks := [⟨putUint32 25 ++ putUint32 25 ++ putUint16 1 ++ putUint32 5000 ++ putUint32 5000,
      entryBytes 5000 (ascii "\x7b\"url\":\"/hello1\"\x7d")⟩] }

/-- The file of the window of 08:00 with the block of `/hello2` followed by 3
bytes, the start of a block header that was never completed. -/
def tornAfterBlockDir : List (Name × Bytes) :=
  [(ascii "201701010800", fileHeader (timeUnix 1483228800)
      ++ (hello2Block.header ++ hello2Block.payload) ++ [1, 2, 3])]

/-! ## Basic facts about the little-endian helpers -/

@[simp] theorem putLE_length (k n : Nat) : (putLE k n).length = k := by
  induction k generalizing n with
  | zero => rfl
  | succ k ih => simp [putLE, ih]

theorem getLE_putLE (k n : Nat) : getLE (putLE k n) = n % 256 ^ k := by
  induction k generalizing n with
  | zero => simp [putLE, getLE, Nat.mod_one]
  | succ k ih =>
    simp only [putLE, getLE, ih, byteOf]
    rw [pow_succ, Nat.mul_comm (256 ^ k) 256, Nat.mod_mul]

theorem getLE_putLE_of_lt (k n : Nat) (h : n < 256 ^ k) : getLE (putLE k n) = n := by
  rw [getLE_putLE, Nat.mod_eq_of_lt h]

theorem getLE_lt (b : Bytes) : getLE b < 256 ^ b.length := by
  induction b with
  | nil => simp [getLE]
  | cons x xs ih =>
    simp only [getLE, List.length_cons, pow_succ]
    have := x.isLt
    omega

@[simp] theorem putUint32_length (n : Nat) : (putUint32 n).length = 4 := putLE_length 4 n
@[simp] theorem putUint16_length (n : Nat) : (putUint16 n).length = 2 := putLE_length 2 n
@[simp] theorem putUint64_length (n : Nat) : (putUint64 n).length = 8 := putLE_length 8 n

theorem uint32_putUint32_append (n : Nat) (rest : Bytes) (h : n < 2 ^ 32) :
    uint32 (putUint32 n ++ rest) = some n := by
  have h4 : (putUint32 n).length = 4 := putUint32_length n
  unfold uint32
  rw [if_neg (by simp)]
  rw [List.take_append_of_le_length (by omega), List.take_of_length_le (by omega)]
  exact congrArg some (getLE_putLE_of_lt 4 n (by simpa using h))

theorem uint16_putUint16_append (n : Nat) (rest : Bytes) (h : n < 2 ^ 16) :
    uint16 (putUint16 n ++ rest) = some n := by
  have h2 : (putUint16 n).length = 2 := putUint16_length n
  unfold uint16
  rw [if_neg (by simp)]
  rw [List.take_append_of_le_length (by omega), List.take_of_length_le (by omega)]
  exact congrArg some (getLE_putLE_of_lt 2 n (by simpa using h))

theorem uint64_putUint64_append (n : Nat) (rest : Bytes) (h : n < 2 ^ 64) :
    uint64 (putUint64 n ++ rest) = some n := by
  have h8 : (putUint64 n).length = 8 := putUint64_length n
  unfold uint64
  rw [if_neg (by simp)]
  rw [List.take_append_of_le_length (by omega), List.take_of_length_le (by omega)]
  exact congrArg some (getLE_putLE_of_lt 8 n (by simpa using h))

theorem sliceFrom_append_left (a b : Bytes) : sliceFrom (a ++ b) a.length = some b := by
  simp [sliceFrom]

theorem sliceFrom_append_of_length (a b : Bytes) (n : Nat) (h : a.length = n) :
    sliceFrom (a ++ b) n = some b := by
  subst h
  exact sliceFrom_append_left a b

theorem appendEntry_eq (b : Bytes) (c : Nat) (body : Bytes) :
    appendEntry b c body = b ++ entryBytes c body := by
  simp [appendEntry, entryBytes, List.append_assoc]

theorem appendEntries_eq (b : Bytes) (es : List (Nat × Bytes)) :
    appendEntries b es = b ++ entriesBytes es := by
  induction es generalizing b with
  | nil => simp [appendEntries, entriesBytes]
  | cons e es ih => simp [appendEntries, entriesBytes, ih, appendEntry_eq, List.append_assoc]

@[simp] theorem entryBytes_length (c : Nat) (body : Bytes) :
    (entryBytes c body).length = 8 + body.length := by
  simp [entryBytes]; omega

theorem next_entryBytes (c : Nat) (body rest : Bytes) (hb : body.length < 2 ^ 32 - 8) :
    EventEntries.Next (entryBytes c body ++ rest) = some (entryBytes c body, rest) := by
  have hlen : (entryBytes c body).length = 8 + body.length := entryBytes_length c body
  have hu : uint32 (entryBytes c body ++ rest) = some body.length := by
    have : body.length % 2 ^ 32 = body.length := Nat.mod_eq_of_lt (by omega)
    unfold entryBytes
    rw [this, List.append_assoc]
    exact uint32_putUint32_append _ _ (by omega)
  have hk : (body.length + entryHeaderSize) % 2 ^ 32 = (entryBytes c body).length := by
    rw [hlen, entryHeaderSize, Nat.mod_eq_of_lt (by omega)]; omega
  unfold EventEntries.Next
  rw [if_neg (by rw [List.length_append, hlen, entryHeaderSize]; omega), hu]
  simp only [hk]
  rw [if_pos (by simp)]
  simp

theorem eventCTS_entryBytes (c : Nat) (body : Bytes) (hc : c < 2 ^ 32) :
    EventEntry.EventCTS (entryBytes c body) = some c := by
  unfold EventEntry.EventCTS entryBytes
  rw [sliceFrom_append_of_length _ _ 4 (putUint32_length _)]
  exact uint32_putUint32_append c body hc

theorem eventBody_entryBytes (c : Nat) (body : Bytes) :
    EventEntry.EventBody (entryBytes c body) = some body := by
  unfold EventEntry.EventBody entryBytes
  rw [← List.append_assoc]
  exact sliceFrom_append_of_length _ _ 8 (by simp)

theorem nextEntries_entriesBytes (es : List (Nat × Bytes)) (rest : Bytes)
    (hcts : ∀ e ∈ es, e.1 < 2 ^ 32) (hbody : ∀ e ∈ es, e.2.length < 2 ^ 32 - 8) :
    nextEntries es.length (entriesBytes es ++ rest) = some (es, rest) := by
  induction es with
  | nil => simp [nextEntries, entriesBytes]
  | cons e es ih =>
    have h1 := hcts e (List.mem_cons_self _ _)
    have h2 := hbody e (List.mem_cons_self _ _)
    have ih' := ih (fun x hx => hcts x (List.mem_cons_of_mem _ hx))
      (fun x hx => hbody x (List.mem_cons_of_mem _ hx))
    simp only [List.length_cons, nextEntries, entriesBytes, List.append_assoc]
    rw [next_entryBytes _ _ _ h2]
    simp only [eventCTS_entryBytes _ _ h1, eventBody_entryBytes, ih']

theorem uncompressedSize_saveBlockBytes (lz : Lz4) (n lo hi : Nat) (body : Bytes) :
    EventBlock.UncompressedSize (saveBlockBytes lz n lo hi body) = some (body.length % 2 ^ 32) := by
  unfold EventBlock.UncompressedSize saveBlockBytes blockHeader
  simp only [List.append_assoc]
  rw [sliceFrom_append_of_length _ _ 4 (putUint32_length _)]
  exact uint32_putUint32_append _ _ (Nat.mod_lt _ (by decide))

theorem compressedEventEntries_saveBlockBytes (lz : Lz4) (n lo hi : Nat) (body : Bytes) :
    EventBlock.CompressedEventEntries (saveBlockBytes lz n lo hi body)
      = some (lz.compress body) := by
  unfold EventBlock.CompressedEventEntries saveBlockBytes blockHeader
  exact sliceFrom_append_of_length _ _ 18 (by simp)

/-- C1: if LZ4 decompression inverts compression, then for `n` events (any `n`, so also `n >= 1`)
`(cts_i, body_i)` with `cts_i` a `uint32`, `len(body_i) < 2^32 - 8` and total
encoded length below `2^32`, appended by `flushOnce` to one block body and
written by `saveBlock`, `EventBlock.EventEntries()` followed by `n` calls of
`EventEntries.Next` yields the `(EventCTS, EventBody)` pairs
`(cts_i, body_i)` in order, and the remainder is empty. -/
theorem block_entries_roundtrip (lz : Lz4)
    (hlz : ∀ x : Bytes, lz.decompress (lz.compress x) x.length = x)
    (es : List (Nat × Bytes)) (entriesCount minCTS maxCTS : Nat)
    (hcts : ∀ e ∈ es, e.1 < 2 ^ 32)
    (hbody : ∀ e ∈ es, e.2.length < 2 ^ 32 - 8)
    (htotal : (appendEntries [] es).length < 2 ^ 32) :
    (EventBlock.EventEntries lz
        (saveBlockBytes lz entriesCount minCTS maxCTS (appendEntries [] es))).bind
      (nextEntries es.length) = some (es, []) := by
  unfold EventBlock.EventEntries
  rw [uncompressedSize_saveBlockBytes, compressedEventEntries_saveBlockBytes]
  simp only [Option.bind, Nat.mod_eq_of_lt htotal, hlz]
  have := nextEntries_entriesBytes es [] hcts hbody
  rw [appendEntries_eq]
  simpa using this

/-- C1 at one event `(5, [1, 2])` with the storing codec. -/
theorem block_entries_roundtrip_witness :
    (EventBlock.EventEntries storedLz4
        (saveBlockBytes storedLz4 1 5 5 (appendEntries [] [(5, [1, 2])]))).bind
      (nextEntries [((5 : Nat), ([1, 2] : Bytes))].length) = some ([(5, [1, 2])], []) :=
  block_entries_roundtrip storedLz4 (fun x => List.take_length x) [(5, [1, 2])] 1 5 5
    (by decide) (by decide) (by decide)

/-! ## `saveBlock` -/

theorem dirGet_dirAppend (dir : List (Name × Bytes)) (name : Name) (b old : Bytes)
    (h : dirGet dir name = some old) : dirGet (dirAppend dir name b) name = some (old ++ b) := by
  induction dir with
  | nil => simp [dirGet] at h
  | cons f rest ih =>
    by_cases hf : f.1 = name
    · simp only [dirGet, hf, if_true] at h
      simp only [dirAppend, hf, if_true, dirGet]
      simpa using (Option.some.inj h) ▸ rfl
    · simp only [dirGet, hf, if_false] at h
      simp [dirAppend, hf, dirGet, ih h]

theorem dirAppend_dirAppend (dir : List (Name × Bytes)) (name : Name) (a b : Bytes) :
    dirAppend (dirAppend dir name a) name b = dirAppend dir name (a ++ b) := by
  induction dir with
  | nil => rfl
  | cons f rest ih =>
    by_cases hf : f.1 = name
    · simp [dirAppend, hf]
    · simp [dirAppend, hf, ih]

theorem fileWrite_ok (fs fs1 : Fs) (file : File) (b : Bytes)
    (h : fileWrite fs file b = (true, fs1)) :
    file.closed = false ∧ fs1.dir = dirAppend fs.dir file.name b := by
  unfold fileWrite at h
  cases hc : file.closed with
  | true => simp [hc] at h
  | false =>
    simp only [hc, Bool.false_eq_true, if_false] at h
    unfold Fs.tick at h
    cases hfa : fs.faults with
    | nil =>
      simp only [hfa] at h
      have := (Prod.mk.inj h).2
      subst this
      exact ⟨rfl, rfl⟩
    | cons x rest =>
      simp only [hfa] at h
      cases x with
      | true => simp at h
      | false =>
        have := (Prod.mk.inj h).2
        subst this
        exact ⟨rfl, rfl⟩

theorem saveBlock_ok_dir (env : Env) (store : Store) (fs fs1 : Fs) (n lo hi : Nat) (body : Bytes)
    (h : saveBlock env store fs n lo hi body = (Outcome.ok, fs1)) :
    ∃ file, store.currentFile = some file ∧ file.closed = false ∧
      fs1.dir = dirAppend fs.dir file.name (saveBlockBytes env.lz n lo hi body) := by
  unfold saveBlock at h
  cases hf : store.currentFile with
  | none => simp [hf] at h
  | some file =>
    simp only [hf] at h
    cases hw1 : fileWrite fs file
        (blockHeader (env.lz.compress body).length n lo hi body) with
    | mk ok1 fsa =>
      cases ok1 with
      | false => simp [hw1] at h
      | true =>
        simp only [hw1] at h
        cases hw2 : fileWrite fsa file (env.lz.compress body) with
        | mk ok2 fsb =>
          cases ok2 with
          | false => simp [hw2] at h
          | true =>
            simp only [hw2] at h
            have hfs : fsb = fs1 := (Prod.mk.inj h).2
            subst hfs
            obtain ⟨hc, h1⟩ := fileWrite_ok _ _ _ _ hw1
            obtain ⟨_, h2⟩ := fileWrite_ok _ _ _ _ hw2
            refine ⟨file, rfl, hc, ?_⟩
            rw [h2, h1, dirAppend_dirAppend]
            rfl

@[simp] theorem blockHeader_length (c n lo hi : Nat) (body : Bytes) :
    (blockHeader c n lo hi body).length = 18 := by
  simp [blockHeader]

theorem blockHeader_fields (c n lo hi : Nat) (body rest : Bytes)
    (hc : c < 2 ^ 32) (hn : n < 2 ^ 16) (hlo : lo < 2 ^ 32) (hhi : hi < 2 ^ 32)
    (hb : body.length < 2 ^ 32) :
    EventBlock.CompressedSize (blockHeader c n lo hi body ++ rest) = some c ∧
    EventBlock.UncompressedSize (blockHeader c n lo hi body ++ rest) = some body.length ∧
    EventBlock.EntriesCount (blockHeader c n lo hi body ++ rest) = some n ∧
    EventBlock.MinCTS (blockHeader c n lo hi body ++ rest) = some lo ∧
    EventBlock.MaxCTS (blockHeader c n lo hi body ++ rest) = some hi ∧
    EventBlock.CompressedEventEntries (blockHeader c n lo hi body ++ rest) = some rest := by
  have e1 : c % 2 ^ 32 = c := Nat.mod_eq_of_lt hc
  have e2 : body.length % 2 ^ 32 = body.length := Nat.mod_eq_of_lt hb
  have e3 : n % 2 ^ 16 = n := Nat.mod_eq_of_lt hn
  unfold blockHeader
  rw [e1, e2, e3]
  refine ⟨?_, ?_, ?_, ?_, ?_, ?_⟩
  · unfold EventBlock.CompressedSize
    simp only [List.append_assoc]
    exact uint32_putUint32_append _ _ hc
  · unfold EventBlock.UncompressedSize
    simp only [List.append_assoc]
    rw [sliceFrom_append_of_length _ _ 4 (putUint32_length _)]
    exact uint32_putUint32_append _ _ hb
  · unfold EventBlock.EntriesCount
    have : putUint32 c ++ putUint32 body.length ++ putUint16 n ++ putUint32 lo ++ putUint32 hi
        ++ rest = (putUint32 c ++ putUint32 body.length) ++ (putUint16 n ++ (putUint32 lo ++
          (putUint32 hi ++ rest))) := by simp only [List.append_assoc]
    rw [this, sliceFrom_append_of_length _ _ 8 (by simp)]
    exact uint16_putUint16_append _ _ hn
  · unfold EventBlock.MinCTS
    have : putUint32 c ++ putUint32 body.length ++ putUint16 n ++ putUint32 lo ++ putUint32 hi
        ++ rest = (putUint32 c ++ putUint32 body.length ++ putUint16 n) ++ (putUint32 lo ++
          (putUint32 hi ++ rest)) := by simp only [List.append_assoc]
    rw [this, sliceFrom_append_of_length _ _ 10 (by simp)]
    exact uint32_putUint32_append _ _ hlo
  · unfold EventBlock.MaxCTS
    have : putUint32 c ++ putUint32 body.length ++ putUint16 n ++ putUint32 lo ++ putUint32 hi
        ++ rest = (putUint32 c ++ putUint32 body.length ++ putUint16 n ++ putUint32 lo) ++
          (putUint32 hi ++ rest) := by simp only [List.append_assoc]
    rw [this, sliceFrom_append_of_length _ _ 14 (by simp)]
    exact uint32_putUint32_append _ _ hhi
  · unfold EventBlock.CompressedEventEntries
    exact sliceFrom_append_of_length _ _ 18 (by simp)

/-- C2: for `entriesCount < 2^16`, `minCTS, maxCTS < 2^32`, a body shorter
than `2^32` and a compressed length `c < 2^32`, whenever `saveBlock` returns a
nil error the current file has grown by exactly the 18 header bytes followed
by the `c` payload bytes (nothing else in between or after), and the
`EventBlock` accessors read from these bytes `CompressedSize() = c`,
`UncompressedSize() = len(body)`, `EntriesCount() = entriesCount`,
`MinCTS() = minCTS`, `MaxCTS() = maxCTS` and `CompressedEventEntries()` = the
payload. -/
theorem saveBlock_layout (env : Env) (store : Store) (fs fs1 : Fs)
    (entriesCount minCTS maxCTS : Nat) (blockBody old : Bytes) (file : File)
    (hn : entriesCount < 2 ^ 16) (hlo : minCTS < 2 ^ 32) (hhi : maxCTS < 2 ^ 32)
    (hb : blockBody.length < 2 ^ 32) (hc : (env.lz.compress blockBody).length < 2 ^ 32)
    (hfile : store.currentFile = some file) (hold : dirGet fs.dir file.name = some old)
    (h : saveBlock env store fs entriesCount minCTS maxCTS blockBody = (Outcome.ok, fs1)) :
    ∃ blk : Bytes,
      dirGet fs1.dir file.name = some (old ++ blk) ∧
      blk.length = 18 + (env.lz.compress blockBody).length ∧
      blk.drop 18 = env.lz.compress blockBody ∧
      blk.take 18 = putUint32 (env.lz.compress blockBody).length ++ putUint32 blockBody.length
        ++ putUint16 entriesCount ++ putUint32 minCTS ++ putUint32 maxCTS ∧
      EventBlock.CompressedSize blk = some (env.lz.compress blockBody).length ∧
      EventBlock.UncompressedSize blk = some blockBody.length ∧
      EventBlock.EntriesCount blk = some entriesCount ∧
      EventBlock.MinCTS blk = some minCTS ∧
      EventBlock.MaxCTS blk = some maxCTS ∧
      EventBlock.CompressedEventEntries blk = some (env.lz.compress blockBody) := by
  obtain ⟨file1, hf1, _, hdir⟩ := saveBlock_ok_dir env store fs fs1 _ _ _ _ h
  rw [hfile] at hf1
  have hfe : file1 = file := (Option.some.inj hf1).symm
  subst hfe
  refine ⟨saveBlockBytes env.lz entriesCount minCTS maxCTS blockBody, ?_, ?_, ?_, ?_, ?_⟩
  · rw [hdir]; exact dirGet_dirAppend _ _ _ _ hold
  · simp [saveBlockBytes]
  · simp [saveBlockBytes]
  · have e1 := Nat.mod_eq_of_lt hc
    have e2 := Nat.mod_eq_of_lt hb
    have e3 := Nat.mod_eq_of_lt hn
    unfold saveBlockBytes blockHeader
    rw [e1, e2, e3]
    exact List.take_left' (by simp)
  · exact blockHeader_fields _ _ _ _ _ _ hc hn hlo hhi hb

/-- C2 on a file holding the bytes `[9]`, for a two-byte body. -/
theorem saveBlock_layout_witness :
    ∃ blk : Bytes,
      dirGet (saveBlock testEnv exampleStore ⟨[(ascii "201701010800", [9])], []⟩ 1 5 6
          [1, 2]).2.dir (File.mk (ascii "201701010800") false).name = some ([9] ++ blk) ∧
      blk.length = 18 + (testEnv.lz.compress [1, 2]).length ∧
      blk.drop 18 = testEnv.lz.compress [1, 2] ∧
      blk.take 18 = putUint32 (testEnv.lz.compress [1, 2]).length
        ++ putUint32 ([1, 2] : Bytes).length ++ putUint16 1 ++ putUint32 5 ++ putUint32 6 ∧
      EventBlock.CompressedSize blk = some (testEnv.lz.compress [1, 2]).length ∧
      EventBlock.UncompressedSize blk = some ([1, 2] : Bytes).length ∧
      EventBlock.EntriesCount blk = some 1 ∧
      EventBlock.MinCTS blk = some 5 ∧
      EventBlock.MaxCTS blk = some 6 ∧
      EventBlock.CompressedEventEntries blk = some (testEnv.lz.compress [1, 2]) :=
  saveBlock_layout testEnv exampleStore ⟨[(ascii "201701010800", [9])], []⟩ _ 1 5 6 [1, 2] [9]
    ⟨ascii "201701010800", false⟩ (by decide) (by decide) (by decide) (by decide) (by decide)
    rfl (by decide) rfl

/-! ## The block builder: what every call of `saveBlock` satisfies -/

theorem entriesBytes_append (a b : List (Nat × Bytes)) :
    entriesBytes (a ++ b) = entriesBytes a ++ entriesBytes b := by
  induction a with
  | nil => rfl
  | cons e es ih => simp [entriesBytes, ih, List.append_assoc]

theorem Builder.init_sound : Builder.init.Sound :=
  ⟨rfl, rfl, fun _ h => by simp [Builder.init] at h, fun _ h => by simp [Builder.init] at h⟩

theorem Compress_lt (base ts : Int) : Compress base ts < 2 ^ 32 := by
  unfold Compress
  omega

theorem Builder.add_body_pos (b : Builder) (store : Store) (input : evtInput) :
    0 < (b.add store input).blockBody.length := by
  simp [Builder.add, appendEntry]

theorem Builder.add_sound (b : Builder) (store : Store) (input : evtInput) (h : b.Sound) :
    (b.add store input).Sound := by
  refine ⟨?_, ?_, ?_, ?_⟩
  · simp only [Builder.add, appendEntry_eq, h.body, pairs, List.map_append, entriesBytes_append]
    simp [entriesBytes]
  · simp only [Builder.add, h.count, List.length_append, List.length_singleton]
    omega
  · intro p hp
    simp only [Builder.add, List.mem_append, List.mem_singleton] at hp ⊢
    rcases hp with hp | hp
    · have := h.range p hp
      constructor <;> split <;> omega
    · subst hp
      constructor <;> split <;> simp only <;> omega
  · intro p hp
    simp only [Builder.add, List.mem_append, List.mem_singleton] at hp
    rcases hp with hp | hp
    · exact h.cts p hp
    · subst hp
      exact Compress_lt _ _

theorem Builder.call_sound (b : Builder) (store : Store) (h : b.Sound)
    (hpos : 0 < b.blockBody.length) : (b.call store).Sound := by
  refine ⟨h.body, ?_, h.count, h.range, h.cts⟩
  intro he
  have hb := h.body
  simp only [Builder.call] at he
  rw [he] at hb
  simp [pairs, entriesBytes] at hb
  simp [hb] at hpos

theorem flushSave_saved (env : Env) (store : Store) (fs : Fs) (queue : List evtInput)
    (b : Builder) (saved : List SaveCall) :
    (flushSave env store fs queue b saved).saved = saved ++ [b.call store] := by
  unfold flushSave
  split <;> rfl

/-- The ways `flushAccept` can end, with what it records. -/
theorem flushAccept_cases (env : Env) (input : evtInput) (queue : List evtInput) (store : Store)
    (fs : Fs) (b : Builder) (saved : List SaveCall) :
    (∃ r, flushAccept env input queue store fs b saved = Turn.done r ∧
      (r.saved = saved ∨ ∃ store2, r.saved = saved ++ [(b.add store2 input).call store2])) ∨
    (∃ store1 fs1 b1, flushAccept env input queue store fs b saved
        = Turn.next store1 fs1 b1 saved ∧ (b1 = b ∨ ∃ store2, b1 = b.add store2 input)) := by
  unfold flushAccept
  rcases hsw : switchFile env store fs input.eventTS with ⟨ok, store1, fs1⟩
  cases ok with
  | false => exact Or.inl ⟨_, rfl, Or.inl rfl⟩
  | true =>
    cases hd : store1.currentDiscr with
    | none => simp only [hd]; exact Or.inl ⟨_, rfl, Or.inl rfl⟩
    | some seen =>
      simp only [hd]
      by_cases h1 : env.sceneOf seen input.eventBody = false
      · rw [if_pos h1]; exact Or.inr ⟨_, _, _, rfl, Or.inl rfl⟩
      · rw [if_neg h1]
        split
        · exact Or.inl ⟨_, rfl, Or.inr ⟨_, flushSave_saved _ _ _ _ _ _⟩⟩
        · split
          · exact Or.inl ⟨_, rfl, Or.inr ⟨_, flushSave_saved _ _ _ _ _ _⟩⟩
          · exact Or.inr ⟨_, _, _, rfl, Or.inr ⟨_, rfl⟩⟩

/-- The ways the forced save at the head of a turn can go. -/
theorem flushTurn_cases (env : Env) (input : evtInput) (queue : List evtInput) (store : Store)
    (fs : Fs) (b : Builder) (saved : List SaveCall) :
    ((Sub input.eventTS store.currentTime > Hour ∧ b.blockBody.length > 0) ∧
      ((∃ r, flushTurn env input queue store fs b saved = Turn.done r ∧
          r.saved = saved ++ [b.call store] ∧
          (saveBlock env store fs b.entriesCount b.minCTS b.maxCTS b.blockBody).1
            ≠ Outcome.ok) ∨
        (∃ fs1, saveBlock env store fs b.entriesCount b.minCTS b.maxCTS b.blockBody
            = (Outcome.ok, fs1) ∧
          flushTurn env input queue store fs b saved
            = flushAccept env input queue store fs1 Builder.init (saved ++ [b.call store])))) ∨
    (¬ (Sub input.eventTS store.currentTime > Hour ∧ b.blockBody.length > 0) ∧
      flushTurn env input queue store fs b saved
        = flushAccept env input queue store fs b saved) := by
  unfold flushTurn
  by_cases hcond : Sub input.eventTS store.currentTime > Hour ∧ b.blockBody.length > 0
  · rw [if_pos hcond]
    refine Or.inl ⟨hcond, ?_⟩
    rcases hsb : saveBlock env store fs b.entriesCount b.minCTS b.maxCTS b.blockBody with ⟨o, fs1⟩
    cases o with
    | ok => exact Or.inr ⟨fs1, rfl, rfl⟩
    | err => exact Or.inl ⟨_, rfl, rfl, by simp⟩
    | panic => exact Or.inl ⟨_, rfl, rfl, by simp⟩
  · rw [if_neg hcond]
    exact Or.inr ⟨hcond, rfl⟩

/-- Every call recorded by one turn of the loop is either an earlier one or
the call of a builder reached from the current one. -/
theorem flushLoop_saved_of (env : Env) (P : Nat → Builder → Prop) (Q : SaveCall → Prop)
    (hinit : ∀ n b, P n b → P n Builder.init)
    (hadd : ∀ n b store input, P (n + 1) b → P n (b.add store input))
    (hmono : ∀ n b, P (n + 1) b → P n b)
    (hcall : ∀ n b store, P n b → 0 < b.blockBody.length → Q (b.call store)) :
    ∀ (queue : List evtInput) (store : Store) (fs : Fs) (b : Builder) (saved : List SaveCall),
      P queue.length b → (∀ c ∈ saved, Q c) →
      ∀ c ∈ (flushLoop env queue store fs b saved).saved, Q c := by
  intro queue
  induction queue with
  | nil =>
    intro store fs b saved hb hs c hc
    unfold flushLoop at hc
    split at hc
    · rename_i hpos
      rw [flushSave_saved] at hc
      rcases List.mem_append.mp hc with h | h
      · exact hs c h
      · rw [List.mem_singleton.mp h]; exact hcall _ _ _ hb hpos
    · exact hs c hc
  | cons input queue ih =>
    intro store fs b saved hb hs c hc
    simp only [List.length_cons] at hb
    have hacc : ∀ (fs0 : Fs) (b0 : Builder) (saved0 : List SaveCall),
        P (queue.length + 1) b0 → (∀ c ∈ saved0, Q c) →
        ∀ c ∈ (match flushAccept env input queue store fs0 b0 saved0 with
              | Turn.done r => r
              | Turn.next store1 fs1 b1 saved1 => flushLoop env queue store1 fs1 b1 saved1).saved,
          Q c := by
      intro fs0 b0 saved0 hb0 hs0 c hc
      rcases flushAccept_cases env input queue store fs0 b0 saved0 with
        ⟨r, hr, hsv⟩ | ⟨store1, fs1, b1, hr, hb1⟩
      · rw [hr] at hc
        simp only at hc
        rcases hsv with hsv | ⟨store2, hsv⟩
        · rw [hsv] at hc; exact hs0 c hc
        · rw [hsv] at hc
          rcases List.mem_append.mp hc with h | h
          · exact hs0 c h
          · rw [List.mem_singleton.mp h]
            exact hcall _ _ _ (hadd _ _ _ _ hb0) (Builder.add_body_pos _ _ _)
      · rw [hr] at hc
        simp only at hc
        rcases hb1 with hb1 | ⟨store2, hb1⟩
        · subst hb1; exact ih _ _ _ _ (hmono _ _ hb0) hs0 c hc
        · subst hb1; exact ih _ _ _ _ (hadd _ _ _ _ hb0) hs0 c hc
    unfold flushLoop at hc
    rcases flushTurn_cases env input queue store fs b saved with
      ⟨hcond, ⟨r, hr, hsv, _⟩ | ⟨fs1, _, hr⟩⟩ | ⟨_, hr⟩
    · rw [hr] at hc
      simp only at hc
      rw [hsv] at hc
      rcases List.mem_append.mp hc with h | h
      · exact hs c h
      · rw [List.mem_singleton.mp h]; exact hcall _ _ _ hb hcond.2
    · rw [hr] at hc
      refine hacc _ _ _ (hinit _ _ hb) ?_ c hc
      intro c hc
      rcases List.mem_append.mp hc with h | h
      · exact hs c h
      · rw [List.mem_singleton.mp h]; exact hcall _ _ _ hb hcond.2
    · rw [hr] at hc
      exact hacc _ _ _ hb hs c hc

/-- Every call of `saveBlock` that `flushOnce` makes is sound for its record. -/
theorem flushOnce_sound (env : Env) (store : Store) (fs : Fs) (queue : List evtInput) :
    ∀ c ∈ (flushOnce env store fs queue).saved, c.Sound :=
  flushLoop_saved_of env (fun _ b => b.Sound) SaveCall.Sound
    (fun _ _ _ => Builder.init_sound)
    (fun _ b store input h => Builder.add_sound b store input h)
    (fun _ _ h => h)
    (fun _ b store h hpos => Builder.call_sound b store h hpos)
    queue store fs Builder.init [] Builder.init_sound (fun _ h => by simp at h)

/-- No call of `saveBlock` that `flushOnce` makes records more events than
were queued. -/
theorem flushOnce_entries_le (env : Env) (store : Store) (fs : Fs) (queue : List evtInput) :
    ∀ c ∈ (flushOnce env store fs queue).saved, c.entries.length ≤ queue.length :=
  flushLoop_saved_of env (fun n b => b.entries.length + n ≤ queue.length)
    (fun c => c.entries.length ≤ queue.length)
    (fun n b h => by simp only [Builder.init, List.length_nil]; omega)
    (fun n b store input h => by simp [Builder.add]; omega)
    (fun n b h => by omega)
    (fun n b store h _ => by simp [Builder.call]; omega)
    queue store fs Builder.init [] (by simp [Builder.init]) (fun _ h => by simp at h)

/-- C3: every block `flushOnce` hands to `saveBlock`, on any path and for any
store state, queue, discriminator and configuration, has a body that is the
encoding of its entries, `minCTS <= cts <= maxCTS` for the `cts` of every one
of them, and `minCTS <= maxCTS`. -/
theorem flushOnce_cts_between_bounds (env : Env) (store : Store) (fs : Fs)
    (queue : List evtInput) :
    ∀ c ∈ (flushOnce env store fs queue).saved,
      c.blockBody = entriesBytes (pairs c.entries) ∧
      (∀ p ∈ c.entries, c.minCTS ≤ p.2 ∧ p.2 ≤ c.maxCTS) ∧
      c.minCTS ≤ c.maxCTS := by
  intro c hc
  have h := flushOnce_sound env store fs queue c hc
  refine ⟨h.body, h.range, ?_⟩
  cases he : c.entries with
  | nil => exact absurd he h.nonempty
  | cons p ps =>
    have := h.range p (by rw [he]; exact List.mem_cons_self _ _)
    omega

/-- C3 on a new store with the two events of the rotation test, which are
saved as two blocks. -/
theorem flushOnce_cts_between_bounds_witness :
    (flushOnce testEnv NewStore ⟨[], []⟩ rotationQueue).saved.length = 2 ∧
    ∀ c ∈ (flushOnce testEnv NewStore ⟨[], []⟩ rotationQueue).saved,
      c.blockBody = entriesBytes (pairs c.entries) ∧
      (∀ p ∈ c.entries, c.minCTS ≤ p.2 ∧ p.2 ≤ c.maxCTS) ∧
      c.minCTS ≤ c.maxCTS :=
  ⟨by decide, flushOnce_cts_between_bounds testEnv NewStore ⟨[], []⟩ rotationQueue⟩

/-! ## Rotation -/

theorem Unix_timeUnix (sec : Int) : Unix (timeUnix sec) = sec := by
  unfold Unix timeUnix nsPerSec
  omega

theorem openCreateAppend_file (fs fs1 : Fs) (name : Name) (file : File)
    (h : openCreateAppend fs name = (some file, fs1)) : file = ⟨name, false⟩ := by
  unfold openCreateAppend at h
  rcases ht : fs.tick with ⟨t, fsa⟩
  simp only [ht] at h
  cases t with
  | true => simp at h
  | false =>
    simp only at h
    split at h <;> simp only [Prod.mk.injEq, Option.some.injEq] at h <;> exact h.1.symm

theorem openAppend_file (fs fs1 : Fs) (name : Name) (file : File)
    (h : openAppend fs name = (some file, fs1)) : file = ⟨name, false⟩ := by
  unfold openAppend at h
  rcases ht : fs.tick with ⟨t, fsa⟩
  simp only [ht] at h
  cases t with
  | true => simp at h
  | false =>
    simp only at h
    split at h
    · simp only [Prod.mk.injEq, Option.some.injEq] at h; exact h.1.symm
    · simp at h

theorem openWindowFile_ok (env : Env) (store store1 : Store) (fs fs1 : Fs)
    (h : openWindowFile env store fs = (true, store1, fs1)) :
    store1 = { store with currentFile := some ⟨env.format (Unix store.currentTime), false⟩ } := by
  unfold openWindowFile at h
  simp only at h
  rcases ho : openCreateAppend fs (env.format (Unix store.currentTime)) with ⟨f, fsa⟩
  rw [ho] at h
  cases f with
  | none =>
    simp only at h
    rcases ho2 : openAppend fsa (env.format (Unix store.currentTime)) with ⟨f2, fsb⟩
    rw [ho2] at h
    cases f2 with
    | none => simp at h
    | some file =>
      simp only [Prod.mk.injEq, true_and] at h
      rw [← h.1, openAppend_file _ _ _ _ ho2]
  | some file =>
    simp only at h
    rcases hw : fileWrite fsa file (fileHeader store.currentTime) with ⟨ok, fsb⟩
    rw [hw] at h
    cases ok with
    | false => simp at h
    | true =>
      simp only [Prod.mk.injEq, true_and] at h
      rw [← h.1, openCreateAppend_file _ _ _ _ ho]

/-- What a successful `switchFile` leaves behind: nothing changed when the
window is the current one, and otherwise the store is ready on the new
window, the configuration being kept. -/
theorem switchFile_ok (env : Env) (store store1 : Store) (fs fs1 : Fs) (ts : Int)
    (h : switchFile env store fs ts = (true, store1, fs1)) :
    (windowOf ts = store.currentWindow ∧ store1 = store ∧ fs1 = fs) ∨
    (windowOf ts ≠ store.currentWindow ∧ store1.currentWindow = windowOf ts ∧
      store1.ready env ∧ store1.currentDiscr = some [] ∧ store1.Config = store.Config) := by
  unfold switchFile at h
  simp only at h
  by_cases hw : goDiv (Unix ts) 3600 = store.currentWindow
  · rw [if_pos hw] at h
    simp only [Prod.mk.injEq, true_and] at h
    exact Or.inl ⟨hw, h.1.symm, h.2.symm⟩
  · rw [if_neg hw] at h
    refine Or.inr ⟨hw, ?_⟩
    rcases hc : closeCurrent { store with currentDiscr := some [] } fs with ⟨ok, fsa⟩
    rw [hc] at h
    cases ok with
    | false => simp at h
    | true =>
      simp only at h
      have hs := openWindowFile_ok env _ _ _ _ h
      subst hs
      refine ⟨rfl, ⟨rfl, ?_, by simp⟩, rfl, rfl⟩
      simp only [Unix_timeUnix]

theorem Builder.call_inOwnWindow (env : Env) (store : Store) (b : Builder)
    (hr : store.ready env) (hw : ∀ p ∈ b.entries, windowOf p.1.eventTS = store.currentWindow) :
    (b.call store).inOwnWindow env := by
  intro p hp
  simp only [Builder.call] at hp ⊢
  rw [hw p hp]
  exact hr.2.1

theorem Builder.sound_entries_ne (b : Builder) (h : b.Sound) (hpos : 0 < b.blockBody.length) :
    b.entries ≠ [] := by
  intro he
  have hb := h.body
  rw [he] at hb
  simp [pairs, entriesBytes] at hb
  simp [hb] at hpos

theorem Builder.sound_body_pos (b : Builder) (h : b.Sound) (hne : b.entries ≠ []) :
    0 < b.blockBody.length := by
  rw [h.body]
  cases he : b.entries with
  | nil => exact absurd he hne
  | cons p ps => simp [pairs, entriesBytes]

/-- One accepted or rejected event keeps the pending events aligned with the
store, and a block saved at a limit goes to the file of its events' window. -/
theorem flushAccept_aligned (env : Env) (input : evtInput) (queue : List evtInput)
    (store : Store) (fs : Fs) (b : Builder) (saved : List SaveCall)
    (hstore : store.ready env ∨ store.currentDiscr = none)
    (hal : b.aligned env store)
    (hwin : b.entries ≠ [] → windowOf input.eventTS = store.currentWindow)
    (hb : b.Sound) :
    (∃ r, flushAccept env input queue store fs b saved = Turn.done r ∧
      (r.saved = saved ∨ ∃ c, r.saved = saved ++ [c] ∧ c.inOwnWindow env)) ∨
    (∃ store2 fs1 b1, flushAccept env input queue store fs b saved
        = Turn.next store2 fs1 b1 saved ∧ store2.ready env ∧
        store2.currentWindow = windowOf input.eventTS ∧ b1.aligned env store2 ∧ b1.Sound) := by
  unfold flushAccept
  rcases hsw : switchFile env store fs input.eventTS with ⟨ok, store1, fs1⟩
  cases ok with
  | false => exact Or.inl ⟨_, rfl, Or.inl rfl⟩
  | true =>
    cases hd : store1.currentDiscr with
    | none => simp only [hd]; exact Or.inl ⟨_, rfl, Or.inl rfl⟩
    | some seen =>
      simp only [hd]
      -- the store after the discriminator has been asked
      have hready1 : store1.ready env ∧ store1.currentWindow = windowOf input.eventTS := by
        rcases switchFile_ok env store store1 fs fs1 _ hsw with ⟨hw, hs, _⟩ | ⟨_, hw, hr, _, _⟩
        · subst hs
          rcases hstore with hr | hn
          · exact ⟨hr, hw.symm⟩
          · rw [hn] at hd; cases hd
        · exact ⟨hr, hw⟩
      have hready2 : Store.ready env
          { store1 with currentDiscr := some (seen ++ [input.eventBody]) } :=
        ⟨hready1.1.1, hready1.1.2.1, by simp⟩
      have hold : ∀ p ∈ b.entries, windowOf p.1.eventTS = windowOf input.eventTS := by
        intro p hp
        have hne : b.entries ≠ [] := List.ne_nil_of_mem hp
        rw [(hal hne).2 p hp, hwin hne]
      have hnew : ∀ p ∈ (b.add { store1 with currentDiscr := some (seen ++ [input.eventBody]) }
          input).entries, windowOf p.1.eventTS = windowOf input.eventTS := by
        intro p hp
        simp only [Builder.add, List.mem_append, List.mem_singleton] at hp
        rcases hp with hp | hp
        · exact hold p hp
        · rw [hp]
      by_cases h1 : env.sceneOf seen input.eventBody = false
      · rw [if_pos h1]
        exact Or.inr ⟨_, _, _, rfl, hready2, hready1.2,
          fun _ => ⟨hready2, fun p hp => (hold p hp).trans hready1.2.symm⟩, hb⟩
      · rw [if_neg h1]
        have hcall := Builder.call_inOwnWindow env _ _ hready2
          (fun p hp => (hnew p hp).trans hready1.2.symm)
        split
        · exact Or.inl ⟨_, rfl, Or.inr ⟨_, flushSave_saved _ _ _ _ _ _, hcall⟩⟩
        · split
          · exact Or.inl ⟨_, rfl, Or.inr ⟨_, flushSave_saved _ _ _ _ _ _, hcall⟩⟩
          · exact Or.inr ⟨_, _, _, rfl, hready2, hready1.2,
              fun _ => ⟨hready2, fun p hp => (hnew p hp).trans hready1.2.symm⟩,
              Builder.add_sound _ _ _ hb⟩

theorem guarded_of_guardedFrom (w : Int) (queue : List evtInput)
    (h : guardedFrom w queue = true) : guarded queue = true := by
  cases queue with
  | nil => rfl
  | cons e q =>
    simp only [guardedFrom, Bool.and_eq_true] at h
    exact h.2

theorem Sub_gt_Hour (t u : Int) : Sub t u > Hour ↔ t - u > Hour := by
  unfold Sub Hour nsPerSec
  split
  · omega
  · split <;> omega

/-- Every block saved by the loop goes to the file of the window of each of
its events, when the queue is guarded and the pending events are aligned. -/
theorem flushLoop_inOwnWindow (env : Env) :
    ∀ (queue : List evtInput) (store : Store) (fs : Fs) (b : Builder) (saved : List SaveCall),
      b.Sound → (store.ready env ∨ store.currentDiscr = none) → b.aligned env store →
      guarded queue = true →
      (b.entries ≠ [] → guardedFrom store.currentWindow queue = true) →
      (∀ c ∈ saved, c.inOwnWindow env) →
      ∀ c ∈ (flushLoop env queue store fs b saved).saved, c.inOwnWindow env := by
  intro queue
  induction queue with
  | nil =>
    intro store fs b saved hb _ hal _ _ hs c hc
    unfold flushLoop at hc
    split at hc
    · rename_i hpos
      rw [flushSave_saved] at hc
      rcases List.mem_append.mp hc with h | h
      · exact hs c h
      · rw [List.mem_singleton.mp h]
        have hne := Builder.sound_entries_ne b hb hpos
        exact Builder.call_inOwnWindow env store b (hal hne).1 (hal hne).2
    · exact hs c hc
  | cons input queue ih =>
    intro store fs b saved hb hstore hal hg hgf hs c hc
    have hgq : guardedFrom (windowOf input.eventTS) queue = true := hg
    have hacc : ∀ (fs0 : Fs) (b0 : Builder) (saved0 : List SaveCall),
        b0.Sound → b0.aligned env store →
        (b0.entries ≠ [] → windowOf input.eventTS = store.currentWindow) →
        (∀ c ∈ saved0, c.inOwnWindow env) →
        ∀ c ∈ (match flushAccept env input queue store fs0 b0 saved0 with
              | Turn.done r => r
              | Turn.next store1 fs1 b1 saved1 => flushLoop env queue store1 fs1 b1 saved1).saved,
          c.inOwnWindow env := by
      intro fs0 b0 saved0 hb0 hal0 hwin0 hs0 c hc
      rcases flushAccept_aligned env input queue store fs0 b0 saved0 hstore hal0 hwin0 hb0 with
        ⟨r, hr, hsv⟩ | ⟨store2, fs1, b1, hr, hready, hw2, hal1, hb1⟩
      · rw [hr] at hc
        simp only at hc
        rcases hsv with hsv | ⟨c1, hsv, hc1⟩
        · rw [hsv] at hc; exact hs0 c hc
        · rw [hsv] at hc
          rcases List.mem_append.mp hc with h | h
          · exact hs0 c h
          · rw [List.mem_singleton.mp h]; exact hc1
      · rw [hr] at hc
        simp only at hc
        exact ih store2 fs1 b1 saved0 hb1 (Or.inl hready) hal1
          (guarded_of_guardedFrom _ _ hgq) (fun _ => by rw [hw2]; exact hgq) hs0 c hc
    unfold flushLoop at hc
    rcases flushTurn_cases env input queue store fs b saved with
      ⟨hcond, ⟨r, hr, hsv, _⟩ | ⟨fs1, _, hr⟩⟩ | ⟨hncond, hr⟩
    · have hne := Builder.sound_entries_ne b hb hcond.2
      rw [hr] at hc
      simp only at hc
      rw [hsv] at hc
      rcases List.mem_append.mp hc with h | h
      · exact hs c h
      · rw [List.mem_singleton.mp h]
        exact Builder.call_inOwnWindow env store b (hal hne).1 (hal hne).2
    · have hne := Builder.sound_entries_ne b hb hcond.2
      rw [hr] at hc
      refine hacc _ _ _ Builder.init_sound (fun h => absurd rfl h) (fun h => absurd rfl h) ?_ c hc
      intro c hc
      rcases List.mem_append.mp hc with h | h
      · exact hs c h
      · rw [List.mem_singleton.mp h]
        exact Builder.call_inOwnWindow env store b (hal hne).1 (hal hne).2
    · rw [hr] at hc
      refine hacc _ _ _ hb hal ?_ hs c hc
      intro hne
      have hpos := Builder.sound_body_pos b hb hne
      have hgf' := hgf hne
      simp only [guardedFrom, Bool.and_eq_true, Bool.or_eq_true, decide_eq_true_eq] at hgf'
      rcases hgf'.1 with h | h
      · exact h
      · exfalso
        apply hncond
        rw [(hal hne).1.1]
        exact ⟨h, hpos⟩

/-- What `flushAccept` does, with the configuration kept and the count limit
not exceeded when the loop goes on with one more entry. -/
theorem flushAccept_limit (env : Env) (input : evtInput) (queue : List evtInput) (store : Store)
    (fs : Fs) (b : Builder) (saved : List SaveCall) :
    (∃ r, flushAccept env input queue store fs b saved = Turn.done r ∧
      (r.saved = saved ∨ ∃ store2, r.saved = saved ++ [(b.add store2 input).call store2])) ∨
    (∃ store1 fs1 b1, flushAccept env input queue store fs b saved
        = Turn.next store1 fs1 b1 saved ∧ store1.Config = store.Config ∧
        (b1 = b ∨ ∃ store2, b1 = b.add store2 input ∧
          ¬ (b1.entriesCount > store.Config.BlockEntriesCountLimit))) := by
  unfold flushAccept
  rcases hsw : switchFile env store fs input.eventTS with ⟨ok, store1, fs1⟩
  cases ok with
  | false => exact Or.inl ⟨_, rfl, Or.inl rfl⟩
  | true =>
    have hcfg : store1.Config = store.Config := by
      rcases switchFile_ok env store store1 fs fs1 _ hsw with ⟨_, hs, _⟩ | ⟨_, _, _, _, hc⟩
      · rw [hs]
      · exact hc
    cases hd : store1.currentDiscr with
    | none => simp only [hd]; exact Or.inl ⟨_, rfl, Or.inl rfl⟩
    | some seen =>
      simp only [hd]
      by_cases h1 : env.sceneOf seen input.eventBody = false
      · rw [if_pos h1]; exact Or.inr ⟨_, _, _, rfl, hcfg, Or.inl rfl⟩
      · rw [if_neg h1]
        by_cases h2 : (b.add { store1 with currentDiscr := some (seen ++ [input.eventBody]) }
            input).entriesCount > store1.Config.BlockEntriesCountLimit
        · rw [if_pos h2]
          exact Or.inl ⟨_, rfl, Or.inr ⟨_, flushSave_saved _ _ _ _ _ _⟩⟩
        · rw [if_neg h2]
          split
          · exact Or.inl ⟨_, rfl, Or.inr ⟨_, flushSave_saved _ _ _ _ _ _⟩⟩
          · exact Or.inr ⟨_, _, _, rfl, hcfg, Or.inr ⟨_, rfl, by rw [← hcfg]; exact h2⟩⟩

/-- With a count limit below `2^16 - 1` no block gets more than `2^16 - 1`
entries, however many events are received. -/
theorem flushLoop_entries_le_of_limit (env : Env) (limit : Nat) (hlimit : limit < 65535) :
    ∀ (queue : List evtInput) (store : Store) (fs : Fs) (b : Builder) (saved : List SaveCall),
      store.Config.BlockEntriesCountLimit = limit → b.Sound → b.entries.length ≤ limit →
      (∀ c ∈ saved, c.entries.length ≤ 65535) →
      ∀ c ∈ (flushLoop env queue store fs b saved).saved, c.entries.length ≤ 65535 := by
  intro queue
  induction queue with
  | nil =>
    intro store fs b saved _ _ hlen hs c hc
    unfold flushLoop at hc
    split at hc
    · rw [flushSave_saved] at hc
      rcases List.mem_append.mp hc with h | h
      · exact hs c h
      · rw [List.mem_singleton.mp h]; simp only [Builder.call]; omega
    · exact hs c hc
  | cons input queue ih =>
    intro store fs b saved hcfg hb hlen hs c hc
    have hacc : ∀ (fs0 : Fs) (b0 : Builder) (saved0 : List SaveCall),
        b0.Sound → b0.entries.length ≤ limit → (∀ c ∈ saved0, c.entries.length ≤ 65535) →
        ∀ c ∈ (match flushAccept env input queue store fs0 b0 saved0 with
              | Turn.done r => r
              | Turn.next store1 fs1 b1 saved1 => flushLoop env queue store1 fs1 b1 saved1).saved,
          c.entries.length ≤ 65535 := by
      intro fs0 b0 saved0 hb0 hlen0 hs0 c hc
      rcases flushAccept_limit env input queue store fs0 b0 saved0 with
        ⟨r, hr, hsv⟩ | ⟨store1, fs1, b1, hr, hc1, hb1⟩
      · rw [hr] at hc
        simp only at hc
        rcases hsv with hsv | ⟨store2, hsv⟩
        · rw [hsv] at hc; exact hs0 c hc
        · rw [hsv] at hc
          rcases List.mem_append.mp hc with h | h
          · exact hs0 c h
          · rw [List.mem_singleton.mp h]
            simp only [Builder.call, Builder.add, List.length_append, List.length_singleton]
            omega
      · rw [hr] at hc
        simp only at hc
        rcases hb1 with hb1 | ⟨store2, hb1, hnot⟩
        · subst hb1; exact ih _ _ _ _ (hc1.symm ▸ hcfg) hb0 hlen0 hs0 c hc
        · have hs1 := Builder.add_sound b0 store2 input hb0
          rw [← hb1] at hs1
          have hcount := hs1.count
          have hl1 : b1.entries.length = b0.entries.length + 1 := by
            rw [hb1]; simp [Builder.add]
          rw [hcfg] at hnot
          exact ih _ _ _ _ (hc1.symm ▸ hcfg) hs1 (by omega) hs0 c hc
    unfold flushLoop at hc
    rcases flushTurn_cases env input queue store fs b saved with
      ⟨_, ⟨r, hr, hsv, _⟩ | ⟨fs1, _, hr⟩⟩ | ⟨_, hr⟩
    · rw [hr] at hc
      simp only at hc
      rw [hsv] at hc
      rcases List.mem_append.mp hc with h | h
      · exact hs c h
      · rw [List.mem_singleton.mp h]; simp only [Builder.call]; omega
    · rw [hr] at hc
      refine hacc _ _ _ Builder.init_sound (by simp [Builder.init]) ?_ c hc
      intro c hc
      rcases List.mem_append.mp hc with h | h
      · exact hs c h
      · rw [List.mem_singleton.mp h]; simp only [Builder.call]; omega
    · rw [hr] at hc
      exact hacc _ _ _ hb hlen hs c hc

/-- C4 (amended): when the queue holds fewer than `2^16` events (the channel holds at
most 100) or the count limit is below `2^16 - 1` (as the default is), every
block `flushOnce` hands to `saveBlock`, for any store state, discriminator and
size limit, has a count that is at least 1, fits the `uint16` header field,
and equals the number of entries encoded in its body. -/
theorem flushOnce_count_is_entries (env : Env) (store : Store) (fs : Fs)
    (queue : List evtInput)
    (hq : queue.length ≤ 65535 ∨ store.Config.BlockEntriesCountLimit < 65535) :
    ∀ c ∈ (flushOnce env store fs queue).saved,
      c.blockBody = entriesBytes (pairs c.entries) ∧
      c.entriesCount = c.entries.length ∧ 1 ≤ c.entriesCount ∧ c.entriesCount < 2 ^ 16 := by
  intro c hc
  have h := flushOnce_sound env store fs queue c hc
  have hl : c.entries.length ≤ 65535 := by
    rcases hq with hq | hq
    · exact le_trans (flushOnce_entries_le env store fs queue c hc) hq
    · exact flushLoop_entries_le_of_limit env _ hq queue store fs Builder.init [] rfl
        Builder.init_sound (by simp [Builder.init]) (fun _ h => by simp at h) c hc
  have hne : c.entries.length ≠ 0 := fun h0 => h.nonempty (List.length_eq_zero.mp h0)
  have hcount := h.count
  refine ⟨h.body, ?_, ?_, ?_⟩ <;> omega

/-- C4 on a new store with the two events of the rotation test. -/
theorem flushOnce_count_is_entries_witness :
    rotationQueue.length ≤ 65535 ∧
    ∀ c ∈ (flushOnce testEnv NewStore ⟨[], []⟩ rotationQueue).saved,
      c.blockBody = entriesBytes (pairs c.entries) ∧
      c.entriesCount = c.entries.length ∧ 1 ≤ c.entriesCount ∧ c.entriesCount < 2 ^ 16 :=
  ⟨by decide, flushOnce_count_is_entries testEnv NewStore ⟨[], []⟩ rotationQueue
    (Or.inl (by decide))⟩

/-- C5 (amended): the forced save is keyed on the duration, not on the
window.  Whenever `flushOnce` dequeues an event whose timestamp is more than
one hour after the store's `currentTime` while the pending block body is
non-empty and `saveBlock` succeeds, the pending block is appended to the file
that is open at that moment, and only then does the turn go on to
`switchFile`.  Consequently, for a store that has the file of its window open
(or is new) and a queue in which every event is in its predecessor's window or
more than one hour after that window's start, every entry of every block
handed to `saveBlock` goes to the file named after the entry's own window. -/
theorem flushOnce_entries_in_window_file (env : Env) (store : Store) (fs : Fs)
    (queue : List evtInput)
    (hstore : store.ready env ∨ store.currentDiscr = none)
    (hq : guarded queue = true) :
    (∀ (input : evtInput) (rest : List evtInput) (st : Store) (fs0 fs1 : Fs) (b : Builder)
        (saved : List SaveCall),
        Sub input.eventTS st.currentTime > Hour → 0 < b.blockBody.length →
        saveBlock env st fs0 b.entriesCount b.minCTS b.maxCTS b.blockBody = (Outcome.ok, fs1) →
        ∃ file, st.currentFile = some file ∧
          fs1.dir = dirAppend fs0.dir file.name
            (saveBlockBytes env.lz b.entriesCount b.minCTS b.maxCTS b.blockBody) ∧
          flushTurn env input rest st fs0 b saved
            = flushAccept env input rest st fs1 Builder.init (saved ++ [b.call st])) ∧
    ∀ c ∈ (flushOnce env store fs queue).saved,
      c.blockBody = entriesBytes (pairs c.entries) ∧
      ∀ p ∈ c.entries, c.file = some ⟨env.format (windowOf p.1.eventTS * 3600), false⟩ := by
  constructor
  · intro input rest st fs0 fs1 b saved h1 h2 h3
    obtain ⟨file, hf, _, hdir⟩ := saveBlock_ok_dir env st fs0 fs1 _ _ _ _ h3
    refine ⟨file, hf, hdir, ?_⟩
    unfold flushTurn
    rw [if_pos ⟨h1, h2⟩, h3]
  · intro c hc
    refine ⟨(flushOnce_sound env store fs queue c hc).body, ?_⟩
    exact flushLoop_inOwnWindow env queue store fs Builder.init [] Builder.init_sound hstore
      (fun h => absurd rfl h) hq (fun h => absurd rfl h) (fun _ h => by simp at h) c hc

/-- C5 (amended) on a new store with the two events of the rotation test. -/
theorem flushOnce_entries_in_window_file_witness :
    guarded rotationQueue = true ∧
    ∀ c ∈ (flushOnce testEnv NewStore ⟨[], []⟩ rotationQueue).saved,
      c.blockBody = entriesBytes (pairs c.entries) ∧
      ∀ p ∈ c.entries, c.file = some ⟨testEnv.format (windowOf p.1.eventTS * 3600), false⟩ :=
  ⟨by decide, (flushOnce_entries_in_window_file testEnv NewStore ⟨[], []⟩ rotationQueue
    (Or.inr rfl) (by decide)).2⟩

/-- C5 as stated fails: the second event is in another window than the first
(412009 against 412008) and arrives while the first is pending, yet no block
is saved before the rotation; the one block saved holds both events and goes
to the file of the second window, the file of the first window keeping only
its header. -/
theorem flushOnce_boundary_counterexample :
    (flushOnce testEnv NewStore ⟨[], []⟩ boundaryQueue).saved.map
        (fun c => (c.file.map File.name, c.entries.map (fun p => windowOf p.1.eventTS)))
      = [(some (ascii "201701010900"), [412008, 412009])] ∧
    testEnv.format (412008 * 3600) = ascii "201701010800" ∧
    dirGet (flushOnce testEnv NewStore ⟨[], []⟩ boundaryQueue).fs.dir (ascii "201701010800")
      = some (fileHeader (timeUnix (412008 * 3600))) ∧
    ¬ (∀ c ∈ (flushOnce testEnv NewStore ⟨[], []⟩ boundaryQueue).saved,
        ∀ p ∈ c.entries,
          c.file = some ⟨testEnv.format (windowOf p.1.eventTS * 3600), false⟩) := by
  decide

/-! ## The file header -/

theorem tick_dir (fs : Fs) : fs.tick.2.dir = fs.dir := by
  unfold Fs.tick
  split <;> rfl

theorem tick_eq_dir (fs fs1 : Fs) (t : Bool) (h : fs.tick = (t, fs1)) : fs1.dir = fs.dir := by
  have := tick_dir fs
  rw [h] at this
  exact this

theorem closeCurrent_dir (store : Store) (fs : Fs) : (closeCurrent store fs).2.dir = fs.dir := by
  unfold closeCurrent
  cases store.currentFile with
  | none => rfl
  | some file =>
    simp only [fileClose]
    split
    · rfl
    · rcases ht : fs.tick with ⟨t, fsa⟩
      have := tick_eq_dir _ _ _ ht
      cases t <;> simpa using this

theorem dirGet_dirCreate (dir : List (Name × Bytes)) (name : Name)
    (h : dirHas dir name = false) : dirGet (dirCreate dir name) name = some [] := by
  induction dir with
  | nil => simp [dirCreate, dirGet]
  | cons f rest ih =>
    simp only [dirHas, List.any_cons, Bool.or_eq_false_iff, beq_eq_false_iff_ne, ne_eq] at h
    have ih' := ih (by simpa [dirHas] using h.2)
    simp only [dirCreate]
    split
    · simp [dirGet]
    · simp [dirGet, h.1, ih']

theorem dirGet_none_of_not_has (dir : List (Name × Bytes)) (name : Name)
    (h : dirHas dir name = false) : dirGet dir name = none := by
  induction dir with
  | nil => rfl
  | cons f rest ih =>
    simp only [dirHas, List.any_cons, Bool.or_eq_false_iff, beq_eq_false_iff_ne, ne_eq] at h
    simp [dirGet, h.1, ih (by simpa [dirHas] using h.2)]

/-- When the file of the window does not exist and `openWindowFile` succeeds,
the file holds the header and nothing else. -/
theorem openWindowFile_new (env : Env) (store store1 : Store) (fs fs1 : Fs)
    (hnew : dirHas fs.dir (env.format (Unix store.currentTime)) = false)
    (h : openWindowFile env store fs = (true, store1, fs1)) :
    dirGet fs1.dir (env.format (Unix store.currentTime)) = some (fileHeader store.currentTime) := by
  unfold openWindowFile at h
  simp only at h
  rcases ho : openCreateAppend fs (env.format (Unix store.currentTime)) with ⟨f, fsa⟩
  rw [ho] at h
  unfold openCreateAppend at ho
  rcases ht : fs.tick with ⟨t, fsb⟩
  have hd := tick_eq_dir _ _ _ ht
  rw [ht] at ho
  cases t with
  | true =>
    simp only [Prod.mk.injEq] at ho
    obtain ⟨hf, hfs⟩ := ho
    subst hf hfs
    simp only at h
    unfold openAppend at h
    rcases ht2 : fsb.tick with ⟨t2, fsc⟩
    have hd2 := tick_eq_dir _ _ _ ht2
    rw [ht2] at h
    cases t2 with
    | true => simp at h
    | false =>
      simp only [hd2, hd, hnew, Bool.false_eq_true, if_false] at h
      simp at h
  | false =>
    simp only [hd, hnew, Bool.false_eq_true, if_false, Prod.mk.injEq] at ho
    obtain ⟨hf, hfs⟩ := ho
    subst hf hfs
    simp only at h
    rcases hw : fileWrite { fsb with dir := dirCreate fs.dir (env.format (Unix store.currentTime)) }
      ⟨env.format (Unix store.currentTime), false⟩ (fileHeader store.currentTime) with ⟨ok, fsc⟩
    rw [hw] at h
    cases ok with
    | false => simp at h
    | true =>
      simp only [Prod.mk.injEq, true_and] at h
      rw [← h.2, (fileWrite_ok _ _ _ _ hw).2]
      have := dirGet_dirAppend _ _ (fileHeader store.currentTime) [] (dirGet_dirCreate _ _ hnew)
      simpa using this

/-- C7: for a timestamp with `0 <= unix(t) < 2^32` whose window is not the
current one and whose file does not exist yet, a `switchFile` that returns
nil leaves a file of exactly 7 bytes: `0xD1 0xD1 0x01` followed by the
little-endian `uint32` of `floor(unix(t)/3600)*3600`; the base time `List`
decodes from bytes 3..7 is the store's `currentTime`, the window start. -/
theorem switchFile_new_file_header (env : Env) (store store1 : Store) (fs fs1 : Fs) (ts : Int)
    (h0 : 0 ≤ Unix ts) (h1 : Unix ts < 2 ^ 32)
    (hw : windowOf ts ≠ store.currentWindow)
    (hnew : dirHas fs.dir (env.format (windowOf ts * 3600)) = false)
    (h : switchFile env store fs ts = (true, store1, fs1)) :
    ∃ content : Bytes,
      dirGet fs1.dir (env.format (windowOf ts * 3600)) = some content ∧
      content = [0xD1, 0xD1, 0x01] ++ putUint32 (Unix ts / 3600 * 3600).toNat ∧
      content.length = 7 ∧
      store1.currentTime = timeUnix (Unix ts / 3600 * 3600) ∧
      (uint32 (content.drop 3)).map (fun base : Nat => timeUnix (base : Int))
        = some store1.currentTime := by
  have hwin : windowOf ts = Unix ts / 3600 := by
    unfold windowOf goDiv
    rw [if_pos h0]
  have hrange : 0 ≤ Unix ts / 3600 * 3600 ∧ Unix ts / 3600 * 3600 < 4294967296 := by
    have : (2 : Int) ^ 32 = 4294967296 := by norm_num
    rw [this] at h1
    omega
  unfold switchFile at h
  simp only at h
  rw [if_neg (show ¬ goDiv (Unix ts) 3600 = store.currentWindow from hw)] at h
  rcases hc : closeCurrent { store with currentDiscr := some [] } fs with ⟨ok, fsa⟩
  have hcd := closeCurrent_dir { store with currentDiscr := some [] } fs
  rw [hc] at h hcd
  cases ok with
  | false => simp at h
  | true =>
    simp only at h hcd
    have hs := openWindowFile_ok env _ _ _ _ h
    have hnew' := openWindowFile_new env _ store1 fsa fs1
      (by simp only [Unix_timeUnix, hcd]; exact hnew) h
    simp only [Unix_timeUnix] at hnew'
    have hgo : goDiv (Unix ts) 3600 = Unix ts / 3600 := hwin
    have hhdr : fileHeader (timeUnix (goDiv (Unix ts) 3600 * 3600))
        = [0xD1, 0xD1, 0x01] ++ putUint32 (Unix ts / 3600 * 3600).toNat := by
      unfold fileHeader
      rw [Unix_timeUnix, hgo]
      congr 2
      omega
    refine ⟨_, ?_, rfl, by simp, ?_, ?_⟩
    · rw [hhdr, hgo] at hnew'
      rw [hwin]; exact hnew'
    · rw [hs, hgo]
    · have hu : uint32 (([0xD1, 0xD1, 0x01] ++ putUint32 (Unix ts / 3600 * 3600).toNat).drop 3)
          = some (Unix ts / 3600 * 3600).toNat := by
        have := uint32_putUint32_append (Unix ts / 3600 * 3600).toNat [] (by omega)
        simpa using this
      rw [hu, hs, hgo]
      simp only [Option.map_some']
      congr 2
      omega

/-- C7 on a new store with an empty directory, for the timestamp of the tests. -/
theorem switchFile_new_file_header_witness :
    ∃ content : Bytes,
      dirGet (switchFile testEnv NewStore ⟨[], []⟩ (1483228900 * nsPerSec)).2.2.dir
        (testEnv.format (windowOf (1483228900 * nsPerSec) * 3600)) = some content ∧
      content = [0xD1, 0xD1, 0x01]
        ++ putUint32 (Unix (1483228900 * nsPerSec) / 3600 * 3600).toNat ∧
      content.length = 7 ∧
      (switchFile testEnv NewStore ⟨[], []⟩ (1483228900 * nsPerSec)).2.1.currentTime
        = timeUnix (Unix (1483228900 * nsPerSec) / 3600 * 3600) ∧
      (uint32 (content.drop 3)).map (fun base : Nat => timeUnix (base : Int))
        = some (switchFile testEnv NewStore ⟨[], []⟩ (1483228900 * nsPerSec)).2.1.currentTime :=
  switchFile_new_file_header testEnv NewStore _ ⟨[], []⟩ _ (1483228900 * nsPerSec)
    (by decide) (by decide) (by decide) (by decide) rfl

/-- C6 fails on the code: a new store (a restart within the hour) whose first
event belongs to a window whose file already exists opens that file with
`O_CREATE|O_WRONLY|O_APPEND`, which succeeds on an existing file, so the
branch that writes the header is taken and 7 header bytes are appended after
the existing bytes. -/
theorem switchFile_existing_file_header_again :
    dirHas earlierRunDir (ascii "201701010800") = true ∧
    (switchFile testEnv NewStore ⟨earlierRunDir, []⟩ (1483228960 * nsPerSec)).1 = true ∧
    (dirGet earlierRunDir (ascii "201701010800")).map List.length = some 50 ∧
    (dirGet (switchFile testEnv NewStore ⟨earlierRunDir, []⟩ (1483228960 * nsPerSec)).2.2.dir
        (ascii "201701010800")).map (fun content => (content.length, content.drop 50))
      = some (57, [0xD1, 0xD1, 0x01, 0x80, 0x46, 0x68, 0x58]) := by
  decide

/-! ## Listing: where every emitted block comes from -/

/-- A block written in a turn is the block at the read position, and the next
read position is further on. -/
theorem scanTurn_emitted (startTime endTime skip limit : Int) (filename content : Bytes)
    (baseTime : Int) (pos : Nat) (rc : Int) (e : Emitted)
    (h : (∃ pos1 rc1, scanTurn startTime endTime skip limit (filename ++ zeros8) content baseTime
            pos rc = ScanTurn.emitted e pos1 rc1) ∨
         scanTurn startTime endTime skip limit (filename ++ zeros8) content baseTime pos rc
            = ScanTurn.last e) :
    EmittedAt startTime endTime filename content baseTime pos e := by
  unfold scanTurn at h
  by_cases h0 : content.length - pos = 0
  · simp [h0] at h
  · by_cases h1 : content.length - pos < blockHeaderSize
    · simp [h0, h1] at h
    · simp only [if_neg h0, if_neg h1] at h
      cases hc : EventBlock.EntriesCount ((content.drop pos).take blockHeaderSize) with
      | none => simp [hc] at h
      | some count =>
        cases hlo : EventBlock.MinCTS ((content.drop pos).take blockHeaderSize) with
        | none => simp [hc, hlo] at h
        | some lo =>
          cases hhi : EventBlock.MaxCTS ((content.drop pos).take blockHeaderSize) with
          | none => simp [hc, hlo, hhi] at h
          | some hi =>
            cases hs : EventBlock.CompressedSize ((content.drop pos).take blockHeaderSize) with
            | none => simp [hc, hlo, hhi, hs] at h
            | some csize =>
              simp only [hc, hlo, hhi, hs] at h
              by_cases hskip : (decide (rc < skip) || decide (Decompress baseTime lo > endTime)
                  || decide (Decompress baseTime hi < startTime)) = true
              · simp only [if_pos hskip] at h; simp at h
              · simp only [if_neg hskip] at h
                by_cases hlen : (filename ++ zeros8).length < 20
                · simp only [if_pos hlen] at h; simp at h
                · simp only [if_neg hlen] at h
                  by_cases hpay : content.length - (pos + blockHeaderSize) < csize
                  · simp only [if_pos hpay] at h; simp at h
                  · simp only [if_neg hpay] at h
                    have he : e = ⟨(filename ++ zeros8).take 12
                        ++ putUint64 ((pos + blockHeaderSize) % 2 ^ 64)
                        ++ (filename ++ zeros8).drop 20,
                        (content.drop pos).take blockHeaderSize,
                        (content.drop (pos + blockHeaderSize)).take csize⟩ := by
                      rcases h with ⟨_, _, h⟩ | h <;> split_ifs at h <;>
                        first
                          | (injection h with h2 _ _; exact h2.symm)
                          | (injection h with h2; exact h2.symm)
                    subst he
                    simp only [Bool.or_eq_true, decide_eq_true_eq, not_or, not_lt] at hskip
                    simp only [blockHeaderSize] at *
                    exact ⟨by omega, rfl, ⟨csize, hs, by omega, rfl⟩, by omega, rfl,
                      ⟨lo, hlo, by omega⟩, ⟨hi, hhi, by omega⟩⟩

/-- A turn that goes on has read a whole header and moved past it. -/
theorem scanTurn_next_pos (startTime endTime skip limit : Int) (tmpl content : Bytes)
    (baseTime : Int) (pos : Nat) (rc : Int) (pos1 : Nat) (rc1 : Int)
    (h : scanTurn startTime endTime skip limit tmpl content baseTime pos rc
            = ScanTurn.skipped pos1 rc1 ∨
         ∃ e, scanTurn startTime endTime skip limit tmpl content baseTime pos rc
            = ScanTurn.emitted e pos1 rc1) :
    pos + 18 ≤ pos1 ∧ pos + 18 ≤ content.length := by
  unfold scanTurn at h
  by_cases h0 : content.length - pos = 0
  · simp [h0] at h
  · by_cases h1 : content.length - pos < blockHeaderSize
    · simp [h0, h1] at h
    · simp only [if_neg h0, if_neg h1] at h
      have hin : pos + 18 ≤ content.length := by
        simp only [blockHeaderSize] at h1; omega
      refine ⟨?_, hin⟩
      cases hc : EventBlock.EntriesCount ((content.drop pos).take blockHeaderSize) with
      | none => simp [hc] at h
      | some count =>
        cases hlo : EventBlock.MinCTS ((content.drop pos).take blockHeaderSize) with
        | none => simp [hc, hlo] at h
        | some lo =>
          cases hhi : EventBlock.MaxCTS ((content.drop pos).take blockHeaderSize) with
          | none => simp [hc, hlo, hhi] at h
          | some hi =>
            cases hs : EventBlock.CompressedSize ((content.drop pos).take blockHeaderSize) with
            | none => simp [hc, hlo, hhi, hs] at h
            | some csize =>
              simp only [hc, hlo, hhi, hs] at h
              simp only [blockHeaderSize] at h
              rcases h with h | ⟨_, h⟩ <;> split_ifs at h <;>
                (simp only [ScanTurn.skipped.injEq, ScanTurn.emitted.injEq] at h; omega)

theorem scanBlocks_emitted (startTime endTime skip limit : Int) (filename content : Bytes)
    (baseTime : Int) :
    ∀ (fuel pos : Nat) (readEntriesCount : Int) (out out1 : List Emitted),
      (scanBlocks startTime endTime skip limit (filename ++ zeros8) content baseTime fuel pos
        readEntriesCount out).out = some out1 →
      ∀ e ∈ out1, e ∈ out ∨
        ∃ pos1, pos ≤ pos1 ∧ EmittedAt startTime endTime filename content baseTime pos1 e := by
  intro fuel
  induction fuel with
  | zero =>
    intro pos rc out out1 h
    simp [scanBlocks, Scan.out] at h
  | succ fuel ih =>
    intro pos rc out out1 h e he
    rw [scanBlocks] at h
    cases ht : scanTurn startTime endTime skip limit (filename ++ zeros8) content baseTime pos
        rc with
    | eof =>
      simp only [ht, Scan.out, Option.some.injEq] at h
      subst h
      exact Or.inl he
    | error => simp [ht, Scan.out] at h
    | panic => simp [ht, Scan.out] at h
    | skipped pos1 rc1 =>
      simp only [ht] at h
      have hp := (scanTurn_next_pos _ _ _ _ _ _ _ _ _ _ _ (Or.inl ht)).1
      rcases ih _ _ _ _ h e he with h1 | ⟨p, hp1, h1⟩
      · exact Or.inl h1
      · exact Or.inr ⟨p, by omega, h1⟩
    | emitted e1 pos1 rc1 =>
      simp only [ht] at h
      have hp := (scanTurn_next_pos _ _ _ _ _ _ _ _ _ _ _ (Or.inr ⟨_, ht⟩)).1
      rcases ih _ _ _ _ h e he with h1 | ⟨p, hp1, h1⟩
      · rcases List.mem_append.mp h1 with h2 | h2
        · exact Or.inl h2
        · rw [List.mem_singleton.mp h2]
          exact Or.inr ⟨pos, Nat.le_refl _,
            scanTurn_emitted _ _ _ _ _ _ _ _ _ _ (Or.inl ⟨_, _, ht⟩)⟩
      · exact Or.inr ⟨p, by omega, h1⟩
    | last e1 =>
      simp only [ht, Scan.out, Option.some.injEq] at h
      subst h
      rcases List.mem_append.mp he with h1 | h1
      · exact Or.inl h1
      · rw [List.mem_singleton.mp h1]
        exact Or.inr ⟨pos, Nat.le_refl _, scanTurn_emitted _ _ _ _ _ _ _ _ _ _ (Or.inr ht)⟩

/-- Every block in the buffer `List` returns was either there before or comes
from a file of the listing that `List` selects. -/
theorem listFiles_emitted (env : Env) (startTime endTime skip limit : Int) :
    ∀ (dir : List (Name × Bytes)) (readEntriesCount : Int) (out out1 : List Emitted),
      listFiles env startTime endTime skip limit dir readEntriesCount out = ListResult.ok out1 →
      ∀ e ∈ out1, e ∈ out ∨ EmittedFrom env startTime endTime dir e := by
  intro dir
  induction dir with
  | nil =>
    intro rc out out1 h e he
    simp only [listFiles, ListResult.ok.injEq] at h
    subst h
    exact Or.inl he
  | cons f rest ih =>
    intro rc out out1 h e he
    obtain ⟨filename, content⟩ := f
    have lift : ∀ rc0 out0, listFiles env startTime endTime skip limit rest rc0 out0
        = ListResult.ok out1 → e ∈ out0 ∨ EmittedFrom env startTime endTime
          ((filename, content) :: rest) e := by
      intro rc0 out0 h0
      rcases ih rc0 out0 out1 h0 e he with h1 | ⟨f, hf, h1⟩
      · exact Or.inl h1
      · exact Or.inr ⟨f, List.mem_cons_of_mem _ hf, h1⟩
    rw [listFiles] at h
    cases hp : env.parse filename with
    | none => simp only [hp] at h; exact lift _ _ h
    | some sec =>
      simp only [hp] at h
      by_cases ha : timeUnix sec + Hour < startTime
      · rw [if_pos ha] at h; exact lift _ _ h
      · rw [if_neg ha] at h
        by_cases hb : timeUnix sec > endTime
        · rw [if_pos hb] at h; exact lift _ _ h
        · rw [if_neg hb] at h
          by_cases hl : content.length - 3 < 4
          · rw [if_pos hl] at h; cases h
          · rw [if_neg hl] at h
            cases hu : uint32 (content.drop 3) with
            | none => simp only [hu] at h; cases h
            | some base =>
              simp only [hu] at h
              have here : ∀ out2, (scanBlocks startTime endTime skip limit (filename ++ zeros8)
                  content (timeUnix base) (content.length + 1) fileHeaderSize rc out).out
                    = some out2 → ∀ e ∈ out2, e ∈ out ∨ EmittedFrom env startTime endTime
                      ((filename, content) :: rest) e := by
                intro out2 h2 e2 he2
                rcases scanBlocks_emitted _ _ _ _ _ _ _ _ _ _ _ _ h2 e2 he2 with h3 | ⟨p, hp7, h3⟩
                · exact Or.inl h3
                · exact Or.inr ⟨(filename, content), List.mem_cons_self _ _, sec, base, p, hp,
                    by omega, by omega, hu, hp7, h3⟩
              cases hsc : scanBlocks startTime endTime skip limit (filename ++ zeros8)
                  content (timeUnix base) (content.length + 1) fileHeaderSize rc out with
              | goOn rc1 out2 =>
                simp only [hsc] at h
                rcases lift _ _ h with h4 | h4
                · exact here out2 (by rw [hsc]; rfl) e h4
                · exact Or.inr h4
              | finished out2 =>
                simp only [hsc, ListResult.ok.injEq] at h
                subst h
                exact here _ (by rw [hsc]; rfl) e he
              | error => simp only [hsc] at h; cases h
              | panic => simp only [hsc] at h; cases h
              | outOfFuel => simp only [hsc] at h; cases h

/-- The fuel `List` gives the scan of a file is never used up. -/
theorem scanBlocks_fuel (startTime endTime skip limit : Int) (tmpl content : Bytes)
    (baseTime : Int) :
    ∀ (fuel pos : Nat) (rc : Int) (out : List Emitted), content.length - pos < 18 * fuel →
      scanBlocks startTime endTime skip limit tmpl content baseTime fuel pos rc out
        ≠ Scan.outOfFuel := by
  intro fuel
  induction fuel with
  | zero => intro pos rc out h; omega
  | succ fuel ih =>
    intro pos rc out h
    rw [scanBlocks]
    cases ht : scanTurn startTime endTime skip limit tmpl content baseTime pos rc with
    | eof => simp
    | error => simp
    | panic => simp
    | last e => simp
    | skipped pos1 rc1 =>
      have hp := scanTurn_next_pos _ _ _ _ _ _ _ _ _ _ _ (Or.inl ht)
      exact ih _ _ _ (by omega)
    | emitted e pos1 rc1 =>
      have hp := scanTurn_next_pos _ _ _ _ _ _ _ _ _ _ _ (Or.inr ⟨_, ht⟩)
      exact ih _ _ _ (by omega)

/-- `List` always ends by returning or panicking: the model never runs out of fuel. -/
theorem listFiles_total (env : Env) (startTime endTime skip limit : Int) :
    ∀ (dir : List (Name × Bytes)) (rc : Int) (out : List Emitted),
      listFiles env startTime endTime skip limit dir rc out ≠ ListResult.outOfFuel := by
  intro dir
  induction dir with
  | nil => intro rc out; simp [listFiles]
  | cons f rest ih =>
    intro rc out
    obtain ⟨filename, content⟩ := f
    rw [listFiles]
    cases hp : env.parse filename with
    | none => exact ih _ _
    | some sec =>
      simp only
      split_ifs
      · exact ih _ _
      · exact ih _ _
      · simp
      · cases hu : uint32 (content.drop 3) with
        | none => simp
        | some base =>
          simp only
          have hf := scanBlocks_fuel startTime endTime skip limit (filename ++ zeros8) content
            (timeUnix base) (content.length + 1) fileHeaderSize rc out (by omega)
          cases hsc : scanBlocks startTime endTime skip limit (filename ++ zeros8)
              content (timeUnix base) (content.length + 1) fileHeaderSize rc out with
          | goOn rc1 out2 => exact ih _ _
          | finished out2 => simp
          | error => simp
          | panic => simp
          | outOfFuel => exact absurd hsc hf

/-- C9: every block in the buffer `List` returns has a header read from a
file of the directory whose name parses to a window start `sec` with
`sec + 1h >= start` and `sec <= end`, and with the base time read from bytes
3..7 of that file, `base + min_cts <= end` and `base + max_cts >= start`. -/
theorem list_emits_only_in_range (env : Env) (dir : List (Name × Bytes))
    (startTime endTime skip limit : Int) (out : List Emitted)
    (h : Store.list env dir startTime endTime skip limit = ListResult.ok out) :
    ∀ e ∈ out, ∃ f ∈ dir, ∃ (sec : Int) (base pos lo hi : Nat),
      env.parse f.1 = some sec ∧ startTime ≤ timeUnix sec + Hour ∧ timeUnix sec ≤ endTime ∧
      uint32 (f.2.drop 3) = some base ∧
      pos + 18 ≤ f.2.length ∧ e.header = (f.2.drop pos).take 18 ∧
      EventBlock.MinCTS e.header = some lo ∧ EventBlock.MaxCTS e.header = some hi ∧
      timeUnix base + (lo : Int) * nsPerSec ≤ endTime ∧
      startTime ≤ timeUnix base + (hi : Int) * nsPerSec := by
  intro e he
  rcases listFiles_emitted env startTime endTime skip limit dir 0 [] out h e he with h1 | h1
  · simp at h1
  · obtain ⟨f, hf, sec, base, pos, hp, ha, hb, hu, _, hat⟩ := h1
    obtain ⟨lo, hlo, hlo2⟩ := hat.minTime
    obtain ⟨hi, hhi, hhi2⟩ := hat.maxTime
    exact ⟨f, hf, sec, base, pos, lo, hi, hp, ha, hb, hu, hat.inFile, hat.header, hlo, hhi,
      hlo2, hhi2⟩

/-- C9 on the directory and the query of `Test_list_time_range`, for the one
block returned. -/
theorem list_emits_only_in_range_witness :
    ∃ f ∈ timeRangeDir, ∃ (sec : Int) (base pos lo hi : Nat),
      testEnv.parse f.1 = some sec ∧ today ≤ timeUnix sec + Hour ∧
      timeUnix sec ≤ today + 60 * nsPerSec ∧
      uint32 (f.2.drop 3) = some base ∧
      pos + 18 ≤ f.2.length ∧ hello2Block.header = (f.2.drop pos).take 18 ∧
      EventBlock.MinCTS hello2Block.header = some lo ∧
      EventBlock.MaxCTS hello2Block.header = some hi ∧
      timeUnix base + (lo : Int) * nsPerSec ≤ today + 60 * nsPerSec ∧
      today ≤ timeUnix base + (hi : Int) * nsPerSec :=
  list_emits_only_in_range testEnv timeRangeDir today (today + 60 * nsPerSec) 0 10
    [hello2Block] (by decide) hello2Block (List.mem_singleton.mpr rfl)

/-! ## Block ids -/

theorem cstParse_length (name : Name) (sec : Int) (h : cstParse name = some sec) :
    name.length = 12 := by
  unfold cstParse at h
  by_contra hne
  rw [if_pos (Or.inl hne)] at h
  cases h

/-- C10 (amended): for every block `List` emits, when the names the layout
parses have 12 characters and the files are shorter than `2^64` bytes, the
block id has 20 bytes, `FileName()` is the name of the file that contains
the block, and `Offset()` is the offset within that file at which the block's
compressed payload starts: the offset `pos` of its 18-byte header plus 18. -/
theorem list_blockId_file_and_payload_offset (env : Env) (dir : List (Name × Bytes))
    (startTime endTime skip limit : Int) (out : List Emitted)
    (hname : ∀ name sec, env.parse name = some sec → name.length = 12)
    (hsize : ∀ f ∈ dir, f.2.length < 2 ^ 64)
    (h : Store.list env dir startTime endTime skip limit = ListResult.ok out) :
    ∀ e ∈ out, e.blockId.length = 20 ∧ ∃ f ∈ dir, ∃ (pos csize : Nat),
      7 ≤ pos ∧ pos + 18 + csize ≤ f.2.length ∧
      e.header = (f.2.drop pos).take 18 ∧
      EventBlock.CompressedSize e.header = some csize ∧
      e.payload = (f.2.drop (pos + 18)).take csize ∧
      EventBlockId.FileName e.blockId = some f.1 ∧
      EventBlockId.Offset e.blockId = some (pos + 18) := by
  intro e he
  rcases listFiles_emitted env startTime endTime skip limit dir 0 [] out h e he with h1 | h1
  · simp at h1
  · obtain ⟨f, hf, sec, base, pos, hp, _, _, _, hpos, hat⟩ := h1
    obtain ⟨csize, hcs, hle, hpay⟩ := hat.payload
    have hlen : f.1.length = 12 := hname _ _ hp
    have hfsize := hsize f hf
    have hmod : (pos + 18) % 2 ^ 64 = pos + 18 := Nat.mod_eq_of_lt (by omega)
    have hid : e.blockId = f.1 ++ putUint64 (pos + 18) := by
      rw [hat.blockId, hmod, List.take_left' hlen]
      have : (f.1 ++ zeros8).drop 20 = [] :=
        List.drop_eq_nil_of_le (by simp [zeros8, hlen])
      rw [this, List.append_nil]
    refine ⟨by rw [hid]; simp [hlen], f, hf, pos, csize, hpos, hle, hat.header, hcs, hpay, ?_, ?_⟩
    · rw [hid]
      unfold EventBlockId.FileName slice
      rw [if_pos (by simp [hlen])]
      simp [List.take_left' hlen]
    · rw [hid]
      unfold EventBlockId.Offset
      rw [sliceFrom_append_of_length _ _ 12 hlen]
      have := uint64_putUint64_append (pos + 18) [] (by omega)
      simpa using this

/-- C10 (amended) on the directory and the query of `Test_list_time_range`,
for the one block returned. -/
theorem list_blockId_file_and_payload_offset_witness :
    hello2Block.blockId.length = 20 ∧ ∃ f ∈ timeRangeDir, ∃ (pos csize : Nat),
      7 ≤ pos ∧ pos + 18 + csize ≤ f.2.length ∧
      hello2Block.header = (f.2.drop pos).take 18 ∧
      EventBlock.CompressedSize hello2Block.header = some csize ∧
      hello2Block.payload = (f.2.drop (pos + 18)).take csize ∧
      EventBlockId.FileName hello2Block.blockId = some f.1 ∧
      EventBlockId.Offset hello2Block.blockId = some (pos + 18) :=
  list_blockId_file_and_payload_offset testEnv timeRangeDir today (today + 60 * nsPerSec) 0 10
    [hello2Block] cstParse_length (by decide) (by decide) hello2Block
    (List.mem_singleton.mpr rfl)

/-- C10 as stated fails, as the repository's own test expects: in
`Test_list_time_range` the block of `/hello2` is the first of its file, so its
18-byte header starts at offset 7, right after the file header, while the
`Offset()` of the block id `List` returns is `0x19` = 25, where the payload
starts. -/
theorem list_offset_counterexample :
    Store.list testEnv timeRangeDir today (today + 60 * nsPerSec) 0 10
      = ListResult.ok [hello2Block] ∧
    EventBlockId.FileName hello2Block.blockId = some (ascii "201701010800") ∧
    EventBlockId.Offset hello2Block.blockId = some 0x19 ∧
    (dirGet timeRangeDir (ascii "201701010800")).map (fun c => (c.drop 7).take 18)
      = some hello2Block.header ∧
    (dirGet timeRangeDir (ascii "201701010800")).map (fun c => (c.drop 0x19).take 18)
      ≠ some hello2Block.header := by
  decide

/-! ## Listing a directory of well-formed files -/

theorem header_fields (h : Bytes) (hlen : h.length = 18) :
    ∃ count lo hi, EventBlock.EntriesCount h = some count ∧ EventBlock.MinCTS h = some lo ∧
      EventBlock.MaxCTS h = some hi := by
  unfold EventBlock.EntriesCount EventBlock.MinCTS EventBlock.MaxCTS sliceFrom uint16 uint32
  simp [hlen]

theorem wrapInt_of_range (x : Int) (h0 : 0 ≤ x) (h1 : x < 2 ^ 63) : wrapInt x = x := by
  unfold wrapInt
  have : (2 : Int) ^ 63 = 9223372036854775808 := by norm_num
  omega

/-- One turn of the scan on a well-formed block with `skip = 0`. -/
theorem scanTurn_wf (startTime endTime limit : Int) (name pre rest : Bytes) (baseTime : Int)
    (b : FileBlock) (rc : Int) (hb : b.wf) (hname : name.length = 12)
    (h0 : 0 ≤ rc) (hlim : rc + b.count ≤ limit) (hmax : limit < 2 ^ 63) :
    scanTurn startTime endTime 0 limit (name ++ zeros8)
        (pre ++ (b.header ++ b.payload ++ rest)) baseTime pre.length rc
      = if b.overlaps baseTime startTime endTime then
          ScanTurn.emitted ⟨name ++ putUint64 ((pre.length + 18) % 2 ^ 64), b.header, b.payload⟩
            (pre.length + 18 + b.payload.length) (rc + b.count)
        else ScanTurn.skipped (pre.length + 18 + b.payload.length) rc := by
  have hlenC : (pre ++ (b.header ++ b.payload ++ rest)).length
      = pre.length + 18 + b.payload.length + rest.length := by
    simp only [List.length_append, hb.headerLen]; omega
  have hdropH : ((pre ++ (b.header ++ b.payload ++ rest)).drop pre.length).take blockHeaderSize
      = b.header := by
    rw [List.drop_left' rfl, List.append_assoc]
    exact List.take_left' hb.headerLen
  have hdropP : ((pre ++ (b.header ++ b.payload ++ rest)).drop
      (pre.length + blockHeaderSize)).take b.payload.length = b.payload := by
    have : pre ++ (b.header ++ b.payload ++ rest) = (pre ++ b.header) ++ (b.payload ++ rest) := by
      simp only [List.append_assoc]
    rw [this, List.drop_left' (by simp [hb.headerLen, blockHeaderSize])]
    exact List.take_left' rfl
  have htmpl : (name ++ zeros8).length = 20 := by simp [zeros8, hname]
  have hid : (name ++ zeros8).take 12 ++ putUint64 ((pre.length + blockHeaderSize) % 2 ^ 64)
      ++ (name ++ zeros8).drop 20 = name ++ putUint64 ((pre.length + 18) % 2 ^ 64) := by
    rw [List.take_left' hname, List.drop_eq_nil_of_le (by omega), List.append_nil]
    rfl
  obtain ⟨count, lo, hi, hc, hlo, hhi⟩ := header_fields b.header hb.headerLen
  have ecount : b.count = count := by simp [FileBlock.count, hc]
  have elo : b.minCTS = lo := by simp [FileBlock.minCTS, hlo]
  have ehi : b.maxCTS = hi := by simp [FileBlock.maxCTS, hhi]
  rw [ecount] at hlim ⊢
  have hr : wrapInt (rc + (count : Int)) = rc + count :=
    wrapInt_of_range _ (by omega) (by omega)
  have hl : wrapInt (0 + limit) = limit := by
    rw [Int.zero_add]; exact wrapInt_of_range _ (by omega) hmax
  unfold scanTurn
  rw [if_neg (by rw [hlenC]; omega), if_neg (by rw [hlenC]; simp only [blockHeaderSize]; omega)]
  simp only [hdropH, hc, hlo, hhi, hb.size]
  have hns : decide (rc < 0) = false := by simp; omega
  simp only [hns, Bool.false_or, Bool.false_eq_true, if_false]
  by_cases hov : b.overlaps baseTime startTime endTime = true
  · rw [if_pos hov]
    simp only [FileBlock.overlaps, Bool.and_eq_true, decide_eq_true_eq, elo, ehi] at hov
    rw [if_neg (by
      simp only [Bool.or_eq_true, decide_eq_true_eq, not_or, not_lt]
      exact ⟨by omega, by omega⟩)]
    rw [if_neg (by omega), if_neg (by rw [hlenC]; simp only [blockHeaderSize]; omega)]
    rw [hdropP, hid, hr, hl, if_neg (by omega)]
    rfl
  · rw [if_neg hov]
    simp only [FileBlock.overlaps, Bool.and_eq_true, decide_eq_true_eq, not_and, not_le, elo,
      ehi] at hov
    rw [if_pos (by
      simp only [Bool.or_eq_true, decide_eq_true_eq]
      by_cases h1 : Decompress baseTime lo ≤ endTime
      · exact Or.inr (hov h1)
      · exact Or.inl (by omega))]
    rfl

/-- The scan of the blocks of a well-formed file with `skip = 0` and a limit
that is not reached: every overlapping block is written, in order. -/
theorem scanBlocks_wf (startTime endTime limit : Int) (name : Bytes) (baseTime : Int)
    (hname : name.length = 12) (hmax : limit < 2 ^ 63) :
    ∀ (bs : List FileBlock) (pre content : Bytes) (fuel : Nat) (rc : Int) (out : List Emitted),
      content = pre ++ blocksBytes bs → (∀ b ∈ bs, b.wf) → bs.length < fuel → 0 ≤ rc →
      rc + blocksEntries bs ≤ limit →
      ∃ rc1, scanBlocks startTime endTime 0 limit (name ++ zeros8) content baseTime fuel
          pre.length rc out
          = Scan.goOn rc1 (out ++ selectBlocks startTime endTime name baseTime pre.length bs) ∧
        rc ≤ rc1 ∧ rc1 ≤ rc + blocksEntries bs := by
  intro bs
  induction bs with
  | nil =>
    intro pre content fuel rc out hcont _ hfuel _ _
    obtain ⟨fuel, rfl⟩ : ∃ f, fuel = f + 1 := ⟨fuel - 1, by omega⟩
    refine ⟨rc, ?_, by omega, by simp [blocksEntries]⟩
    rw [scanBlocks]
    have : scanTurn startTime endTime 0 limit (name ++ zeros8) content baseTime pre.length rc
        = ScanTurn.eof := by
      unfold scanTurn
      rw [if_pos (by rw [hcont]; simp [blocksBytes])]
    rw [this]
    simp [selectBlocks]
  | cons b bs ih =>
    intro pre content fuel rc out hcont hwf hfuel h0 hlim
    obtain ⟨fuel, rfl⟩ : ∃ f, fuel = f + 1 := ⟨fuel - 1, by omega⟩
    have hb := hwf b (List.mem_cons_self _ _)
    have hwf' : ∀ x ∈ bs, x.wf := fun x hx => hwf x (List.mem_cons_of_mem _ hx)
    simp only [blocksEntries, Nat.cast_add] at hlim
    simp only [List.length_cons] at hfuel
    have hcont' : content = (pre ++ (b.header ++ b.payload)) ++ blocksBytes bs := by
      rw [hcont]; simp only [blocksBytes, List.append_assoc]
    have hprelen : (pre ++ (b.header ++ b.payload)).length
        = pre.length + 18 + b.payload.length := by
      simp only [List.length_append, hb.headerLen]; omega
    have hturn := scanTurn_wf startTime endTime limit name pre (blocksBytes bs) baseTime b rc hb
      hname h0 (by omega) hmax
    have hc2 : content = pre ++ (b.header ++ b.payload ++ blocksBytes bs) := by
      rw [hcont]; simp only [blocksBytes]
    rw [← hc2] at hturn
    rw [scanBlocks, hturn]
    by_cases hov : b.overlaps baseTime startTime endTime = true
    · rw [if_pos hov]
      simp only
      obtain ⟨rc1, h1, h2, h3⟩ := ih (pre ++ (b.header ++ b.payload)) content fuel
        (rc + b.count) (out ++ [⟨name ++ putUint64 ((pre.length + 18) % 2 ^ 64), b.header,
          b.payload⟩]) hcont' hwf' (by omega) (by omega) (by omega)
      rw [hprelen] at h1
      refine ⟨rc1, ?_, by omega, by simp only [blocksEntries, Nat.cast_add]; omega⟩
      rw [h1]
      simp only [selectBlocks, hov, if_true, List.append_assoc]
    · rw [if_neg hov]
      simp only
      obtain ⟨rc1, h1, h2, h3⟩ := ih (pre ++ (b.header ++ b.payload)) content fuel
        rc out hcont' hwf' (by omega) h0 (by omega)
      rw [hprelen] at h1
      refine ⟨rc1, ?_, by omega, by simp only [blocksEntries, Nat.cast_add]; omega⟩
      rw [h1]
      simp only [selectBlocks, hov, if_false, List.nil_append, Bool.false_eq_true]

theorem blocksBytes_length_ge (bs : List FileBlock) (h : ∀ b ∈ bs, b.wf) :
    bs.length ≤ (blocksBytes bs).length := by
  induction bs with
  | nil => simp
  | cons b bs ih =>
    have hb := (h b (List.mem_cons_self _ _)).headerLen
    have := ih (fun x hx => h x (List.mem_cons_of_mem _ hx))
    simp only [blocksBytes, List.length_cons, List.length_append, hb]
    omega

theorem selectBlocks_nil (startTime endTime : Int) (name : Name) (baseTime : Int) :
    ∀ (bs : List FileBlock) (off : Nat),
      (∀ b ∈ bs, b.overlaps baseTime startTime endTime = false) →
      selectBlocks startTime endTime name baseTime off bs = [] := by
  intro bs
  induction bs with
  | nil => intro off _; rfl
  | cons b bs ih =>
    intro off h
    simp only [selectBlocks, h b (List.mem_cons_self _ _), Bool.false_eq_true, if_false,
      List.nil_append]
    exact ih _ (fun x hx => h x (List.mem_cons_of_mem _ hx))

theorem fileHeader_timeUnix (sec : Nat) (h : sec < 2 ^ 32) :
    fileHeader (timeUnix sec) = [0xD1, 0xD1, 1] ++ putUint32 sec := by
  unfold fileHeader
  rw [Unix_timeUnix]
  congr 2
  omega

/-- `List` with `skip = 0` and a limit of at least the number of entries, on
a directory of well-formed files, returns what the spec describes. -/
theorem listFiles_wf (env : Env) (startTime endTime limit : Int) (hmax : limit < 2 ^ 63) :
    ∀ (files : List EventFile) (rc : Int) (out : List Emitted),
      (∀ f ∈ files, f.wf env) → 0 ≤ rc → rc + totalEntries files ≤ limit →
      listFiles env startTime endTime 0 limit (files.map (fun f => (f.name, f.content))) rc out
        = ListResult.ok (out ++ listSpec startTime endTime files) := by
  intro files
  induction files with
  | nil => intro rc out _ _ _; simp [listFiles, listSpec]
  | cons f fs ih =>
    intro rc out hwf h0 hlim
    have hf := hwf f (List.mem_cons_self _ _)
    have hwf' : ∀ x ∈ fs, x.wf env := fun x hx => hwf x (List.mem_cons_of_mem _ hx)
    simp only [totalEntries, Nat.cast_add] at hlim
    have hH : Hour = 3600 * nsPerSec := rfl
    have hns : nsPerSec = 1000000000 := rfl
    have hsec := hf.sec
    have hhdr := fileHeader_timeUnix f.sec hsec
    have hskipFile : (timeUnix f.sec + Hour < startTime ∨ timeUnix f.sec > endTime) →
        selectBlocks startTime endTime f.name (timeUnix f.sec) 7 f.blocks = [] := by
      intro hcase
      apply selectBlocks_nil
      intro b hb
      have hm := (hf.blocks b hb).maxCTS
      simp only [FileBlock.overlaps, Bool.and_eq_false_iff, decide_eq_false_iff_not, not_le,
        Decompress]
      rcases hcase with h | h
      · right
        have : (b.maxCTS : Int) * nsPerSec ≤ Hour := by rw [hH, hns]; omega
        omega
      · left
        have : 0 ≤ (b.minCTS : Int) * nsPerSec := by rw [hns]; omega
        omega
    simp only [List.map_cons]
    rw [listFiles]
    simp only [hf.name]
    by_cases ha : timeUnix f.sec + Hour < startTime
    · rw [if_pos ha, ih rc out hwf' h0 (by omega)]
      simp only [listSpec, hskipFile (Or.inl ha), List.nil_append]
    · rw [if_neg ha]
      by_cases hb : timeUnix f.sec > endTime
      · rw [if_pos hb, ih rc out hwf' h0 (by omega)]
        simp only [listSpec, hskipFile (Or.inr hb), List.nil_append]
      · rw [if_neg hb]
        have hlen7 : (fileHeader (timeUnix f.sec)).length = 7 := by rw [hhdr]; simp
        have hclen : f.content.length = 7 + (blocksBytes f.blocks).length := by
          simp only [EventFile.content, List.length_append, hlen7]
        rw [if_neg (by rw [hclen]; omega)]
        have hu : uint32 (f.content.drop 3) = some f.sec := by
          have : f.content.drop 3 = putUint32 f.sec ++ blocksBytes f.blocks := by
            simp only [EventFile.content, hhdr]
            rfl
          rw [this]
          exact uint32_putUint32_append _ _ hsec
        simp only [hu]
        obtain ⟨rc1, h1, h2, h3⟩ := scanBlocks_wf startTime endTime limit f.name
          (timeUnix f.sec) hf.nameLen hmax f.blocks (fileHeader (timeUnix f.sec)) f.content
          (f.content.length + 1) rc out rfl hf.blocks
          (by have := blocksBytes_length_ge f.blocks hf.blocks; omega) h0 (by omega)
        rw [hlen7] at h1
        simp only [fileHeaderSize]
        rw [h1]
        simp only
        rw [ih rc1 _ hwf' (by omega) (by omega)]
        simp only [listSpec, List.append_assoc]

theorem blockId_fields (name : Name) (o : Nat) (hname : name.length = 12) (ho : o < 2 ^ 64) :
    EventBlockId.FileName (name ++ putUint64 o) = some name ∧
    EventBlockId.Offset (name ++ putUint64 o) = some o := by
  constructor
  · unfold EventBlockId.FileName slice
    rw [if_pos (by simp [hname])]
    simp [List.take_left' hname]
  · unfold EventBlockId.Offset
    rw [sliceFrom_append_of_length _ _ 12 hname]
    have := uint64_putUint64_append o [] ho
    simpa using this

/-- Every block the spec's listing takes from a file has the file's name and
an offset within the file in its id. -/
theorem selectBlocks_mem (startTime endTime : Int) (name : Name) (baseTime : Int) :
    ∀ (bs : List FileBlock) (off : Nat) (e : Emitted), (∀ b ∈ bs, b.wf) →
      e ∈ selectBlocks startTime endTime name baseTime off bs →
      ∃ o, off + 18 ≤ o ∧ o ≤ off + (blocksBytes bs).length ∧
        e.blockId = name ++ putUint64 (o % 2 ^ 64) := by
  intro bs
  induction bs with
  | nil => intro off e _ he; simp [selectBlocks] at he
  | cons b bs ih =>
    intro off e hwf he
    have hb := (hwf b (List.mem_cons_self _ _)).headerLen
    have hlen : (blocksBytes (b :: bs)).length
        = 18 + b.payload.length + (blocksBytes bs).length := by
      simp only [blocksBytes, List.length_append, hb]
    simp only [selectBlocks, List.mem_append] at he
    rcases he with he | he
    · split at he
      · rw [List.mem_singleton.mp he]
        exact ⟨off + 18, le_refl _, by omega, rfl⟩
      · simp at he
    · obtain ⟨o, h1, h2, h3⟩ := ih _ e (fun x hx => hwf x (List.mem_cons_of_mem _ hx)) he
      exact ⟨o, by omega, by omega, h3⟩

theorem selectBlocks_pairwise (startTime endTime : Int) (name : Name) (baseTime : Int)
    (hname : name.length = 12) :
    ∀ (bs : List FileBlock) (off : Nat), (∀ b ∈ bs, b.wf) →
      off + (blocksBytes bs).length < 2 ^ 64 →
      (selectBlocks startTime endTime name baseTime off bs).Pairwise
        (fun a b => idBefore a.blockId b.blockId) := by
  intro bs
  induction bs with
  | nil => intro off _ _; simp [selectBlocks]
  | cons b bs ih =>
    intro off hwf hsize
    have hb := (hwf b (List.mem_cons_self _ _)).headerLen
    have hwf' : ∀ x ∈ bs, x.wf := fun x hx => hwf x (List.mem_cons_of_mem _ hx)
    have hlen : (blocksBytes (b :: bs)).length
        = 18 + b.payload.length + (blocksBytes bs).length := by
      simp only [blocksBytes, List.length_append, hb]
    simp only [selectBlocks]
    rw [List.pairwise_append]
    refine ⟨?_, ih _ hwf' (by omega), ?_⟩
    · split
      · exact List.pairwise_singleton _ _
      · exact List.Pairwise.nil
    · intro x hx y hy
      split at hx
      · rw [List.mem_singleton.mp hx]
        obtain ⟨o, h1, h2, h3⟩ := selectBlocks_mem _ _ _ _ _ _ _ hwf' hy
        simp only
        rw [h3, Nat.mod_eq_of_lt (by omega : off + 18 < 2 ^ 64),
          Nat.mod_eq_of_lt (by omega : o < 2 ^ 64)]
        obtain ⟨f1, o1⟩ := blockId_fields name (off + 18) hname (by omega)
        obtain ⟨f2, o2⟩ := blockId_fields name o hname (by omega)
        exact ⟨_, _, _, _, f1, f2, o1, o2, Or.inr ⟨rfl, by omega⟩⟩
      · simp at hx

theorem listSpec_mem (env : Env) (startTime endTime : Int) :
    ∀ (files : List EventFile) (e : Emitted), (∀ f ∈ files, f.wf env) →
      e ∈ listSpec startTime endTime files →
      ∃ f ∈ files, ∃ o, e.blockId = f.name ++ putUint64 (o % 2 ^ 64) := by
  intro files
  induction files with
  | nil => intro e _ he; simp [listSpec] at he
  | cons f fs ih =>
    intro e hwf he
    simp only [listSpec, List.mem_append] at he
    rcases he with he | he
    · obtain ⟨o, _, _, h3⟩ := selectBlocks_mem _ _ _ _ _ _ _
        (hwf f (List.mem_cons_self _ _)).blocks he
      exact ⟨f, List.mem_cons_self _ _, o, h3⟩
    · obtain ⟨g, hg, o, h3⟩ := ih e (fun x hx => hwf x (List.mem_cons_of_mem _ hx)) he
      exact ⟨g, List.mem_cons_of_mem _ hg, o, h3⟩

/-- The spec's listing is ordered by file name and then by offset when the
directory listing is ordered by name. -/
theorem listSpec_pairwise (env : Env) (startTime endTime : Int) :
    ∀ (files : List EventFile), (∀ f ∈ files, f.wf env) →
      (∀ f ∈ files, f.content.length < 2 ^ 64) →
      files.Pairwise (fun f g => nameLt f.name g.name = true) →
      (listSpec startTime endTime files).Pairwise
        (fun a b => idBefore a.blockId b.blockId) := by
  intro files
  induction files with
  | nil => intro _ _ _; simp [listSpec]
  | cons f fs ih =>
    intro hwf hsize hsorted
    have hf := hwf f (List.mem_cons_self _ _)
    have hwf' : ∀ x ∈ fs, x.wf env := fun x hx => hwf x (List.mem_cons_of_mem _ hx)
    rw [List.pairwise_cons] at hsorted
    simp only [listSpec]
    rw [List.pairwise_append]
    refine ⟨?_, ih hwf' (fun x hx => hsize x (List.mem_cons_of_mem _ hx)) hsorted.2, ?_⟩
    · apply selectBlocks_pairwise _ _ _ _ hf.nameLen _ _ hf.blocks
      have h1 := hsize f (List.mem_cons_self _ _)
      have h2 : (fileHeader (timeUnix f.sec)).length = 7 := by
        rw [fileHeader_timeUnix f.sec hf.sec]; simp
      simp only [EventFile.content, List.length_append, h2] at h1
      exact h1
    · intro x hx y hy
      obtain ⟨o1, _, _, hx3⟩ := selectBlocks_mem _ _ _ _ _ _ _ hf.blocks hx
      obtain ⟨g, hg, o2, hy3⟩ := listSpec_mem env _ _ _ _ hwf' hy
      rw [hx3, hy3]
      obtain ⟨f1, q1⟩ := blockId_fields f.name (o1 % 2 ^ 64) hf.nameLen
        (Nat.mod_lt _ (by norm_num))
      obtain ⟨f2, q2⟩ := blockId_fields g.name (o2 % 2 ^ 64) (hwf' g hg).nameLen
        (Nat.mod_lt _ (by norm_num))
      exact ⟨_, _, _, _, f1, f2, q1, q2, Or.inl (hsorted.1 g hg)⟩

/-- C8: for a directory of well-formed event files (12-byte names that parse
to the window start held in the header, 18-byte block headers that declare
their payload's length, `max_cts` within the hour), `List(start, end, 0,
limit)` with `limit` at least the total number of entries returns exactly the
blocks whose `[base_time + min_cts, base_time + max_cts]` overlaps
`[start, end]`, each once: file after file in the order of the listing and,
within a file, in the order of the offsets.  When the listing is ordered by
name (as `ReadDir` gives it) and the files are shorter than `2^64` bytes, the
ids of the blocks returned are strictly ordered by file name and then by
offset. -/
theorem list_emits_all_overlapping (env : Env) (files : List EventFile)
    (startTime endTime limit : Int)
    (hwf : ∀ f ∈ files, f.wf env)
    (hlimit : (totalEntries files : Int) ≤ limit) (hmax : limit < 2 ^ 63) :
    Store.list env (files.map (fun f => (f.name, f.content))) startTime endTime 0 limit
      = ListResult.ok (listSpec startTime endTime files) ∧
    ((∀ f ∈ files, f.content.length < 2 ^ 64) →
      files.Pairwise (fun f g => nameLt f.name g.name = true) →
      (listSpec startTime endTime files).Pairwise
        (fun a b => idBefore a.blockId b.blockId)) := by
  constructor
  · have := listFiles_wf env startTime endTime limit hmax files 0 [] hwf (le_refl _) (by omega)
    simpa [Store.list] using this
  · intro hsize hsorted
    exact listSpec_pairwise env startTime endTime files hwf hsize hsorted

/-- C8 on the directory of `Test_list_time_range`, which is the directory the
store wrote, for the query of that test: the one block returned is that of
`/hello2`. -/
theorem list_emits_all_overlapping_witness :
    timeRangeFiles.map (fun f => (f.name, f.content)) = timeRangeDir ∧
    listSpec today (today + 60 * nsPerSec) timeRangeFiles = [hello2Block] ∧
    Store.list testEnv (timeRangeFiles.map (fun f => (f.name, f.content))) today
        (today + 60 * nsPerSec) 0 10
      = ListResult.ok (listSpec today (today + 60 * nsPerSec) timeRangeFiles) :=
  ⟨by decide, by decide,
    (list_emits_all_overlapping testEnv timeRangeFiles today (today + 60 * nsPerSec) 10
      (by
        intro f hf
        simp only [timeRangeFiles, List.mem_cons, List.mem_singleton, List.not_mem_nil,
          or_false] at hf
        rcases hf with rfl | rfl
        · refine ⟨by decide, by decide, by decide, ?_⟩
          intro b hb
          simp only [List.mem_singleton] at hb
          subst hb
          exact ⟨by decide, by decide, by decide⟩
        · refine ⟨by decide, by decide, by decide, ?_⟩
          intro b hb
          simp only [List.mem_cons, List.mem_singleton, List.not_mem_nil, or_false] at hb
          rcases hb with rfl | rfl
          · exact ⟨by decide, by decide, by decide⟩
          · exact ⟨by decide, by decide, by decide⟩)
      (by decide) (by decide)).1⟩

/-! ## Listing with skip and limit -/

/-- One turn of the scan on a well-formed block that overlaps the range. -/
theorem scanTurn_overlap (startTime endTime skip limit : Int) (name pre rest : Bytes)
    (baseTime : Int) (b : FileBlock) (rc : Int) (hb : b.wf) (hname : name.length = 12)
    (hov : b.overlaps baseTime startTime endTime = true)
    (h0 : 0 ≤ rc) (hrc : rc + b.count < 2 ^ 63)
    (hs : 0 ≤ skip + limit) (hsl : skip + limit < 2 ^ 63) :
    scanTurn startTime endTime skip limit (name ++ zeros8)
        (pre ++ (b.header ++ b.payload ++ rest)) baseTime pre.length rc
      = if rc < skip then ScanTurn.skipped (pre.length + 18 + b.payload.length) (rc + b.count)
        else if rc + b.count > skip + limit then
          ScanTurn.last ⟨name ++ putUint64 ((pre.length + 18) % 2 ^ 64), b.header, b.payload⟩
        else
          ScanTurn.emitted ⟨name ++ putUint64 ((pre.length + 18) % 2 ^ 64), b.header, b.payload⟩
            (pre.length + 18 + b.payload.length) (rc + b.count) := by
  have hlenC : (pre ++ (b.header ++ b.payload ++ rest)).length
      = pre.length + 18 + b.payload.length + rest.length := by
    simp only [List.length_append, hb.headerLen]; omega
  have hdropH : ((pre ++ (b.header ++ b.payload ++ rest)).drop pre.length).take blockHeaderSize
      = b.header := by
    rw [List.drop_left' rfl, List.append_assoc]
    exact List.take_left' hb.headerLen
  have hdropP : ((pre ++ (b.header ++ b.payload ++ rest)).drop
      (pre.length + blockHeaderSize)).take b.payload.length = b.payload := by
    have : pre ++ (b.header ++ b.payload ++ rest) = (pre ++ b.header) ++ (b.payload ++ rest) := by
      simp only [List.append_assoc]
    rw [this, List.drop_left' (by simp [hb.headerLen, blockHeaderSize])]
    exact List.take_left' rfl
  have htmpl : (name ++ zeros8).length = 20 := by simp [zeros8, hname]
  have hid : (name ++ zeros8).take 12 ++ putUint64 ((pre.length + blockHeaderSize) % 2 ^ 64)
      ++ (name ++ zeros8).drop 20 = name ++ putUint64 ((pre.length + 18) % 2 ^ 64) := by
    rw [List.take_left' hname, List.drop_eq_nil_of_le (by omega), List.append_nil]
    rfl
  obtain ⟨count, lo, hi, hc, hlo, hhi⟩ := header_fields b.header hb.headerLen
  have ecount : b.count = count := by simp [FileBlock.count, hc]
  have elo : b.minCTS = lo := by simp [FileBlock.minCTS, hlo]
  have ehi : b.maxCTS = hi := by simp [FileBlock.maxCTS, hhi]
  rw [ecount] at hrc ⊢
  have hr : wrapInt (rc + (count : Int)) = rc + count :=
    wrapInt_of_range _ (by omega) hrc
  have hl : wrapInt (skip + limit) = skip + limit := wrapInt_of_range _ hs hsl
  simp only [FileBlock.overlaps, Bool.and_eq_true, decide_eq_true_eq, elo, ehi] at hov
  unfold scanTurn
  rw [if_neg (by rw [hlenC]; omega), if_neg (by rw [hlenC]; simp only [blockHeaderSize]; omega)]
  simp only [hdropH, hc, hlo, hhi, hb.size]
  by_cases hsk : rc < skip
  · have hd : decide (rc < skip) = true := by simpa using hsk
    simp only [hd, Bool.true_or, if_true, hr]
    rw [if_pos hsk]
    rfl
  · have hd : decide (rc < skip) = false := by simpa using hsk
    simp only [hd, Bool.false_or, Bool.false_eq_true, if_false]
    rw [if_neg (by
      simp only [Bool.or_eq_true, decide_eq_true_eq, not_or, not_lt]
      exact ⟨by omega, by omega⟩)]
    rw [if_neg (by omega), if_neg (by rw [hlenC]; simp only [blockHeaderSize]; omega)]
    rw [hdropP, hid, hr, hl, if_neg hsk]
    by_cases hex : rc + (count : Int) > skip + limit
    · rw [if_pos hex, if_pos hex]
    · rw [if_neg hex, if_neg hex]
      rfl

theorem skipLimit_append (skip limit : Int) :
    ∀ (l1 l2 : List Emitted) (cum : Int),
      skipLimit skip limit cum (l1 ++ l2)
        = match skipLimitEnd skip limit cum l1 with
          | some cum1 => skipLimit skip limit cum l1 ++ skipLimit skip limit cum1 l2
          | none => skipLimit skip limit cum l1 := by
  intro l1
  induction l1 with
  | nil => intro l2 cum; simp [skipLimit, skipLimitEnd]
  | cons e es ih =>
    intro l2 cum
    simp only [List.cons_append, skipLimit, skipLimitEnd, List.append_eq]
    by_cases h1 : cum < skip
    · simp only [if_pos h1]; exact ih l2 _
    · simp only [if_neg h1]
      by_cases h2 : cum + e.count > skip + limit
      · simp only [if_pos h2]
      · simp only [if_neg h2]
        rw [ih l2 _]
        cases skipLimitEnd skip limit (cum + e.count) es <;> simp

/-- The scan of the blocks of a well-formed file all of whose blocks overlap
the range follows the spec's walk. -/
theorem scanBlocks_skipLimit (startTime endTime skip limit : Int) (name : Bytes)
    (baseTime : Int) (hname : name.length = 12)
    (hs : 0 ≤ skip + limit) (hsl : skip + limit < 2 ^ 63) :
    ∀ (bs : List FileBlock) (pre content : Bytes) (fuel : Nat) (rc : Int) (out : List Emitted),
      content = pre ++ blocksBytes bs → (∀ b ∈ bs, b.wf) →
      (∀ b ∈ bs, b.overlaps baseTime startTime endTime = true) →
      bs.length < fuel → 0 ≤ rc → rc + blocksEntries bs < 2 ^ 63 →
      scanBlocks startTime endTime skip limit (name ++ zeros8) content baseTime fuel
          pre.length rc out
        = (match skipLimitEnd skip limit rc (fileRecords name pre.length bs) with
          | some rc1 =>
            Scan.goOn rc1 (out ++ skipLimit skip limit rc (fileRecords name pre.length bs))
          | none =>
            Scan.finished (out ++ skipLimit skip limit rc (fileRecords name pre.length bs))) ∧
      (∀ rc1, skipLimitEnd skip limit rc (fileRecords name pre.length bs) = some rc1 →
        rc1 = rc + blocksEntries bs) := by
  intro bs
  induction bs with
  | nil =>
    intro pre content fuel rc out hcont _ _ hfuel _ _
    obtain ⟨fuel, rfl⟩ : ∃ f, fuel = f + 1 := ⟨fuel - 1, by omega⟩
    constructor
    · rw [scanBlocks]
      have : scanTurn startTime endTime skip limit (name ++ zeros8) content baseTime
          pre.length rc = ScanTurn.eof := by
        unfold scanTurn
        rw [if_pos (by rw [hcont]; simp [blocksBytes])]
      rw [this]
      simp [fileRecords, skipLimit, skipLimitEnd]
    · intro rc1 h
      simp only [fileRecords, skipLimitEnd, Option.some.injEq] at h
      simp [blocksEntries, h]
  | cons b bs ih =>
    intro pre content fuel rc out hcont hwf hall hfuel h0 hlim
    obtain ⟨fuel, rfl⟩ : ∃ f, fuel = f + 1 := ⟨fuel - 1, by omega⟩
    have hb := hwf b (List.mem_cons_self _ _)
    have hov := hall b (List.mem_cons_self _ _)
    have hwf' : ∀ x ∈ bs, x.wf := fun x hx => hwf x (List.mem_cons_of_mem _ hx)
    have hall' : ∀ x ∈ bs, x.overlaps baseTime startTime endTime = true :=
      fun x hx => hall x (List.mem_cons_of_mem _ hx)
    simp only [blocksEntries, Nat.cast_add] at hlim
    simp only [List.length_cons] at hfuel
    have hcont' : content = (pre ++ (b.header ++ b.payload)) ++ blocksBytes bs := by
      rw [hcont]; simp only [blocksBytes, List.append_assoc]
    have hprelen : (pre ++ (b.header ++ b.payload)).length
        = pre.length + 18 + b.payload.length := by
      simp only [List.length_append, hb.headerLen]; omega
    have hturn := scanTurn_overlap startTime endTime skip limit name pre (blocksBytes bs)
      baseTime b rc hb hname hov h0 (by omega) hs hsl
    have hc2 : content = pre ++ (b.header ++ b.payload ++ blocksBytes bs) := by
      rw [hcont]; simp only [blocksBytes]
    rw [← hc2] at hturn
    have hcnt : (Emitted.mk (name ++ putUint64 ((pre.length + 18) % 2 ^ 64)) b.header
        b.payload).count = b.count := rfl
    have ihs := ih (pre ++ (b.header ++ b.payload)) content fuel (rc + b.count)
    rw [hprelen] at ihs
    rw [scanBlocks, hturn]
    simp only [fileRecords, skipLimit, skipLimitEnd, hcnt]
    by_cases hsk : rc < skip
    · simp only [if_pos hsk]
      obtain ⟨h1, h2⟩ := ihs out hcont' hwf' hall' (by omega) (by omega) (by omega)
      refine ⟨h1, ?_⟩
      intro rc1 hrc1
      rw [h2 rc1 hrc1]
      simp only [blocksEntries, Nat.cast_add]; omega
    · simp only [if_neg hsk]
      by_cases hex : rc + (b.count : Int) > skip + limit
      · simp only [if_pos hex]
        exact ⟨trivial, fun rc1 h => by cases h⟩
      · simp only [if_neg hex]
        obtain ⟨h1, h2⟩ := ihs (out ++ [⟨name ++ putUint64 ((pre.length + 18) % 2 ^ 64),
          b.header, b.payload⟩]) hcont' hwf' hall' (by omega) (by omega) (by omega)
        refine ⟨?_, ?_⟩
        · rw [h1]
          cases skipLimitEnd skip limit (rc + b.count)
            (fileRecords name (pre.length + 18 + b.payload.length) bs) <;>
            simp only [List.append_assoc, List.singleton_append]
        · intro rc1 hrc1
          rw [h2 rc1 hrc1]
          simp only [blocksEntries, Nat.cast_add]; omega

/-- `List` on a directory of well-formed files all of whose blocks overlap the
range follows the spec's walk over all blocks. -/
theorem listFiles_skipLimit (env : Env) (startTime endTime skip limit : Int)
    (hs : 0 ≤ skip + limit) (hsl : skip + limit < 2 ^ 63) :
    ∀ (files : List EventFile) (rc : Int) (out : List Emitted),
      (∀ f ∈ files, f.wf env) →
      (∀ f ∈ files, ∀ b ∈ f.blocks, b.overlaps (timeUnix f.sec) startTime endTime = true) →
      0 ≤ rc → rc + totalEntries files < 2 ^ 63 →
      listFiles env startTime endTime skip limit (files.map (fun f => (f.name, f.content)))
          rc out
        = ListResult.ok (out ++ skipLimit skip limit rc (allRecords files)) := by
  intro files
  induction files with
  | nil => intro rc out _ _ _ _; simp [listFiles, allRecords, skipLimit]
  | cons f fs ih =>
    intro rc out hwf hall h0 hlim
    have hf := hwf f (List.mem_cons_self _ _)
    have hallf := hall f (List.mem_cons_self _ _)
    have hwf' : ∀ x ∈ fs, x.wf env := fun x hx => hwf x (List.mem_cons_of_mem _ hx)
    have hall' : ∀ x ∈ fs, ∀ b ∈ x.blocks,
        b.overlaps (timeUnix x.sec) startTime endTime = true :=
      fun x hx => hall x (List.mem_cons_of_mem _ hx)
    simp only [totalEntries, Nat.cast_add] at hlim
    have hH : Hour = 3600 * nsPerSec := rfl
    have hns : nsPerSec = 1000000000 := rfl
    have hsec := hf.sec
    have hhdr := fileHeader_timeUnix f.sec hsec
    -- a file that the name filter passes over has no block
    have hnoblock : (timeUnix f.sec + Hour < startTime ∨ timeUnix f.sec > endTime) →
        f.blocks = [] := by
      intro hcase
      cases hbl : f.blocks with
      | nil => rfl
      | cons b bs =>
        exfalso
        have hb : b ∈ f.blocks := by rw [hbl]; exact List.mem_cons_self _ _
        have hm := (hf.blocks b hb).maxCTS
        have hov := hallf b hb
        simp only [FileBlock.overlaps, Bool.and_eq_true, decide_eq_true_eq, Decompress] at hov
        rcases hcase with h | h
        · have : (b.maxCTS : Int) * nsPerSec ≤ Hour := by rw [hH, hns]; omega
          omega
        · have : 0 ≤ (b.minCTS : Int) * nsPerSec := by rw [hns]; omega
          omega
    have hpass : (timeUnix f.sec + Hour < startTime ∨ timeUnix f.sec > endTime) →
        listFiles env startTime endTime skip limit (fs.map (fun f => (f.name, f.content)))
            rc out
          = ListResult.ok (out ++ skipLimit skip limit rc (allRecords (f :: fs))) := by
      intro hcase
      rw [ih rc out hwf' hall' h0 (by omega)]
      simp only [allRecords, hnoblock hcase, fileRecords, List.nil_append]
    simp only [List.map_cons]
    rw [listFiles]
    simp only [hf.name]
    by_cases ha : timeUnix f.sec + Hour < startTime
    · rw [if_pos ha]; exact hpass (Or.inl ha)
    · rw [if_neg ha]
      by_cases hb : timeUnix f.sec > endTime
      · rw [if_pos hb]; exact hpass (Or.inr hb)
      · rw [if_neg hb]
        have hlen7 : (fileHeader (timeUnix f.sec)).length = 7 := by rw [hhdr]; simp
        have hclen : f.content.length = 7 + (blocksBytes f.blocks).length := by
          simp only [EventFile.content, List.length_append, hlen7]
        rw [if_neg (by rw [hclen]; omega)]
        have hu : uint32 (f.content.drop 3) = some f.sec := by
          have : f.content.drop 3 = putUint32 f.sec ++ blocksBytes f.blocks := by
            simp only [EventFile.content, hhdr]
            rfl
          rw [this]
          exact uint32_putUint32_append _ _ hsec
        simp only [hu]
        obtain ⟨h1, h2⟩ := scanBlocks_skipLimit startTime endTime skip limit f.name
          (timeUnix f.sec) hf.nameLen hs hsl f.blocks (fileHeader (timeUnix f.sec)) f.content
          (f.content.length + 1) rc out rfl hf.blocks hallf
          (by have := blocksBytes_length_ge f.blocks hf.blocks; omega) h0 (by omega)
        rw [hlen7] at h1 h2
        simp only [fileHeaderSize]
        rw [h1]
        simp only [allRecords]
        rw [skipLimit_append]
        cases hend : skipLimitEnd skip limit rc (fileRecords f.name 7 f.blocks) with
        | none => simp only
        | some rc1 =>
          simp only
          have hrc1 := h2 rc1 hend
          rw [ih rc1 _ hwf' hall' (by omega) (by omega)]
          simp only [List.append_assoc]

/-- C11 (amended): for a directory of well-formed files whose blocks all overlap
`[start, end]` and hold fewer than `2^63` entries in all, and for
`skip, limit >= 0` with `skip + limit < 2^63`, `List(start, end, skip, limit)`
returns what the spec's walk over all blocks (file after file, by offset
within a file) returns: exactly the blocks before which the cumulative entry
count is at least `skip`, each in full and in order, up to and including the
first emitted block with which the cumulative count exceeds `skip + limit`. -/
theorem list_skip_limit (env : Env) (files : List EventFile)
    (startTime endTime skip limit : Int)
    (hwf : ∀ f ∈ files, f.wf env)
    (hall : ∀ f ∈ files, ∀ b ∈ f.blocks,
      b.overlaps (timeUnix f.sec) startTime endTime = true)
    (hskip : 0 ≤ skip) (hlimit : 0 ≤ limit) (hsum : skip + limit < 2 ^ 63)
    (htotal : (totalEntries files : Int) < 2 ^ 63) :
    Store.list env (files.map (fun f => (f.name, f.content))) startTime endTime skip limit
      = ListResult.ok (skipLimit skip limit 0 (allRecords files)) := by
  have := listFiles_skipLimit env startTime endTime skip limit (by omega) hsum files 0 []
    hwf hall (le_refl _) (by omega)
  simpa [Store.list] using this

/-- C11 on the directory and the query of `Test_list_skip_and_limit`
(`skip = 1`, `limit = 1`): the first block is passed over and the second, the
block of `/hello2`, is returned. -/
theorem list_skip_limit_witness :
    skipLimitFiles.map (fun f => (f.name, f.content)) = skipLimitDir ∧
    skipLimit 1 1 0 (allRecords skipLimitFiles)
      = [⟨ascii "201701010800" ++ putUint64 68, hello2Block.header, hello2Block.payload⟩] ∧
    Store.list testEnv (skipLimitFiles.map (fun f => (f.name, f.content))) today
        (today + 24 * Hour) 1 1
      = ListResult.ok (skipLimit 1 1 0 (allRecords skipLimitFiles)) :=
  ⟨by decide, by decide,
    list_skip_limit testEnv skipLimitFiles today (today + 24 * Hour) 1 1
      (by
        intro f hf
        simp only [skipLimitFiles, List.mem_singleton] at hf
        subst hf
        refine ⟨by decide, by decide, by decide, ?_⟩
        intro b hb
        simp only [List.mem_cons, List.mem_singleton, List.not_mem_nil, or_false] at hb
        rcases hb with rfl | rfl
        · exact ⟨by decide, by decide, by decide⟩
        · exact ⟨by decide, by decide, by decide⟩)
      (by decide) (by decide) (by decide) (by decide) (by decide)⟩

/-! ## Retention -/

theorem nameLt_irrefl (a : Name) : nameLt a a = false := by
  induction a with
  | nil => rfl
  | cons x xs ih => simp [nameLt, ih]

theorem dirHas_mem (dir : List (Name × Bytes)) (f : Name × Bytes) (h : f ∈ dir) :
    dirHas dir f.1 = true := by
  simp only [dirHas, List.any_eq_true, beq_iff_eq]
  exact ⟨f, h, rfl⟩

/-- With no failing operation, removing the names of a prefix of the listing
leaves the rest of the listing. -/
theorem removeAll_prefix (rest : List (Name × Bytes)) :
    ∀ (pre : List (Name × Bytes)),
      ((pre ++ rest).map Prod.fst).Nodup →
      removeAll ⟨pre ++ rest, []⟩ (pre.map Prod.fst) = ⟨rest, []⟩ := by
  intro pre
  induction pre with
  | nil => intro _; rfl
  | cons p ps ih =>
    intro hnd
    simp only [List.cons_append, List.map_cons, List.nodup_cons] at hnd
    have hfilter : (p :: (ps ++ rest)).filter (fun f => decide (f.1 ≠ p.1)) = ps ++ rest := by
      rw [List.filter_cons_of_neg (by simp)]
      rw [List.filter_eq_self]
      intro a ha
      have : a.1 ≠ p.1 := by
        intro he
        exact hnd.1 (by rw [← he]; exact List.mem_map_of_mem _ ha)
      simpa using this
    have hrem : fileRemove ⟨p :: (ps ++ rest), []⟩ p.1 = (true, ⟨ps ++ rest, []⟩) := by
      unfold fileRemove
      simp only [Fs.tick]
      rw [if_pos (dirHas_mem (p :: (ps ++ rest)) p (List.mem_cons_self _ _)), hfilter]
    simp only [List.cons_append, List.map_cons, removeAll, hrem]
    exact ih hnd.2

/-- C12 (amended): `clean` does not look at whether names parse.  With
`KeepFilesCount = k >= 0`, a listing of `n` entries ordered by name and no
failing operation, `clean` removes exactly the entries that come first in the
listing, `n - k` of them when `n > k` and none otherwise: what remains is the
listing without its first `n - k` entries, at most `k` entries, and every
removed entry has a smaller name than every entry kept.  So when every name
parses, the files kept are the `k` most recent by name. -/
theorem clean_removes_first_of_listing (store : Store) (fs : Fs)
    (hk : 0 ≤ store.Config.KeepFilesCount) (hf : fs.faults = [])
    (hsorted : fs.dir.Pairwise (fun a b => nameLt a.1 b.1 = true)) :
    (clean store fs).dir = fs.dir.drop (fs.dir.length - store.Config.KeepFilesCount.toNat) ∧
    ((clean store fs).dir.length : Int) ≤ store.Config.KeepFilesCount ∧
    (∀ a ∈ fs.dir.take (fs.dir.length - store.Config.KeepFilesCount.toNat),
      ∀ b ∈ (clean store fs).dir, nameLt a.1 b.1 = true) := by
  obtain ⟨dir, faults⟩ := fs
  simp only at hf hsorted
  subst hf
  have hnd : (dir.map Prod.fst).Nodup := by
    rw [List.Nodup, List.pairwise_map]
    refine hsorted.imp ?_
    intro a b hab he
    rw [he, nameLt_irrefl] at hab
    cases hab
  have hmain : (clean store ⟨dir, []⟩).dir
      = dir.drop (dir.length - store.Config.KeepFilesCount.toNat) := by
    unfold clean
    simp only [Fs.tick]
    by_cases hgt : (dir.length : Int) > store.Config.KeepFilesCount
    · rw [if_pos hgt, if_neg (by omega)]
      have hn : ((dir.length : Int) - store.Config.KeepFilesCount).toNat
          = dir.length - store.Config.KeepFilesCount.toNat := by omega
      rw [hn]
      have hsplit := List.take_append_drop (dir.length - store.Config.KeepFilesCount.toNat) dir
      have := removeAll_prefix (dir.drop (dir.length - store.Config.KeepFilesCount.toNat))
        (dir.take (dir.length - store.Config.KeepFilesCount.toNat)) (by rw [hsplit]; exact hnd)
      rw [hsplit] at this
      rw [this]
    · rw [if_neg hgt]
      have : dir.length - store.Config.KeepFilesCount.toNat = 0 := by omega
      rw [this, List.drop_zero]
  refine ⟨hmain, ?_, ?_⟩
  · rw [hmain, List.length_drop]; omega
  · rw [hmain]
    intro a ha b hb
    have hsplit := List.take_append_drop (dir.length - store.Config.KeepFilesCount.toNat) dir
    rw [← hsplit, List.pairwise_append] at hsorted
    exact hsorted.2.2 a ha b hb

/-- C12 (amended) on the two files of `Test_clean`, keeping one. -/
theorem clean_removes_first_of_listing_witness :
    (clean keepOneStore
        ⟨[(ascii "201701010800", []), (ascii "201701010900", [])], []⟩).dir
      = [(ascii "201701010900", [])] ∧
    (clean keepOneStore ⟨[(ascii "201701010800", []), (ascii "201701010900", [])], []⟩).dir
      = (Fs.mk [(ascii "201701010800", []), (ascii "201701010900", [])] []).dir.drop
          ((Fs.mk [(ascii "201701010800", []), (ascii "201701010900", [])] []).dir.length
            - keepOneStore.Config.KeepFilesCount.toNat) :=
  ⟨by decide,
    (clean_removes_first_of_listing keepOneStore
      ⟨[(ascii "201701010800", []), (ascii "201701010900", [])], []⟩ (by decide) rfl
      (by decide)).1⟩

/-- C12 as stated fails: with one parseable file and `KeepFilesCount = 1`
nothing should be removed, yet `clean` counts the entry `.lock`, whose name
does not parse, and removes it, the first of the listing. -/
theorem clean_counts_unparseable_counterexample :
    testEnv.parse (ascii ".lock") = none ∧
    (lockDir.filter (fun f => (testEnv.parse f.1).isSome)).length = 1 ∧
    keepOneStore.Config.KeepFilesCount = 1 ∧
    (clean keepOneStore ⟨lockDir, []⟩).dir
      = [(ascii "201701010800", fileHeader (timeUnix 1483228800))] := by
  decide

/-! ## The input queue -/

/-- C13: for a queue within the capacity of the channel `NewStore` makes
(100), `Add` returns the overflow error if and only if the queue already
holds 100 events; on error the queue is unchanged, and on success the queue
is the old queue with `(now, body)` appended at the tail. -/
theorem add_overflow_iff_full (queue : List evtInput) (now : Int) (eventBody : Bytes)
    (hcap : queue.length ≤ inputQueueCap) :
    ((Store.Add queue now eventBody).1 = false ↔ queue.length = 100) ∧
    ((Store.Add queue now eventBody).1 = false → (Store.Add queue now eventBody).2 = queue) ∧
    ((Store.Add queue now eventBody).1 = true →
      (Store.Add queue now eventBody).2 = queue ++ [⟨now, eventBody⟩]) := by
  unfold Store.Add
  unfold inputQueueCap at hcap ⊢
  by_cases h : queue.length < 100
  · simp only [if_pos h]
    refine ⟨⟨fun h1 => by simp at h1, fun h1 => by omega⟩, fun h1 => by simp at h1,
      fun _ => by first | rfl | trivial⟩
  · simp only [if_neg h]
    refine ⟨⟨fun _ => by omega, fun _ => by first | rfl | trivial⟩,
      fun _ => by first | rfl | trivial, fun h1 => by simp at h1⟩

/-- C13 on an empty queue. -/
theorem add_overflow_iff_full_witness :
    ((Store.Add [] today [1, 2]).1 = false ↔ ([] : List evtInput).length = 100) ∧
    ((Store.Add [] today [1, 2]).1 = false → (Store.Add [] today [1, 2]).2 = []) ∧
    ((Store.Add [] today [1, 2]).1 = true →
      (Store.Add [] today [1, 2]).2 = [] ++ [⟨today, [1, 2]⟩]) :=
  add_overflow_iff_full [] today [1, 2] (by decide)

/-! ## Decoders on short input -/

theorem slice_eq (b : Bytes) (lo hi : Nat) (h1 : lo ≤ hi) (h2 : hi ≤ b.length) :
    slice b lo hi = some ((b.take hi).drop lo) := by
  unfold slice
  rw [if_pos ⟨h1, h2⟩]

theorem slice_none (b : Bytes) (lo hi : Nat) (h : hi < lo ∨ b.length < hi) :
    slice b lo hi = none := by
  unfold slice
  rw [if_neg (by omega)]

/-- What `EventEntries.Next` does when the declared size does not wrap. -/
theorem entriesNext_spec (entries : Bytes) (size : Nat)
    (hs : uint32 entries = some size) (hsb : size < 2 ^ 32 - 8) :
    EventEntries.Next entries
      = if entries.length < 8 + size then none
        else some (entries.take (8 + size), entries.drop (8 + size)) := by
  have hlen4 : ¬ entries.length < 4 := by
    intro h
    unfold uint32 at hs
    rw [if_pos h] at hs
    cases hs
  have hk : (size + entryHeaderSize) % 2 ^ 32 = 8 + size := by
    rw [entryHeaderSize, Nat.mod_eq_of_lt (by omega)]; omega
  unfold EventEntries.Next
  by_cases h8 : entries.length < entryHeaderSize
  · rw [if_pos h8, if_pos (by simp only [entryHeaderSize] at h8; omega)]
  · rw [if_neg h8, hs]
    simp only [hk]
    by_cases h : entries.length < 8 + size
    · rw [if_neg (by omega), if_pos h]
    · rw [if_pos (by omega), if_neg h]

/-- What `EventBlocks.Next` does when the declared size does not wrap. -/
theorem blocksNext_spec (blocks : Bytes) (csize : Nat)
    (hc : EventBlock.CompressedSize ((blocks.drop 20).take 18) = some csize)
    (hcb : csize < 2 ^ 32 - 38) :
    EventBlocks.Next blocks
      = if blocks.length < 38 + csize then none
        else some (blocks.take 20, (blocks.take (38 + csize)).drop 20,
          blocks.drop (38 + csize)) := by
  unfold EventBlocks.Next
  simp only [blockIdSize, blockHeaderSize]
  by_cases h20 : blocks.length < 20
  · rw [if_pos h20, if_pos (by omega)]
  · rw [if_neg h20, slice_eq blocks 0 20 (by omega) (by omega)]
    by_cases h38 : blocks.length < 38
    · rw [slice_none blocks 20 (20 + 18) (Or.inr (by omega)), if_pos (by omega)]
    · rw [slice_eq blocks 20 (20 + 18) (by omega) (by omega)]
      have hhdr : (blocks.take (20 + 18)).drop 20 = (blocks.drop 20).take 18 := by
        rw [List.drop_take]
      simp only [hhdr, hc]
      have hnext : (20 + 18 + csize) % 2 ^ 32 = 38 + csize := by
        rw [Nat.mod_eq_of_lt (by omega)]
      rw [hnext]
      by_cases h : blocks.length < 38 + csize
      · rw [if_pos h, slice_none blocks 20 (38 + csize) (Or.inr h)]
      · rw [if_neg h, slice_eq blocks 20 (38 + csize) (by omega) (by omega)]
        simp [sliceFrom, Nat.le_of_not_lt h]

/-- C15 (amended): when the size declared in the first 4 bytes is below
`2^32 - 8`, `EventEntries.Next` fails on every slice shorter than 8 bytes plus
that size, and an entry it returns has exactly 8 bytes plus that size and is
followed by the rest of the slice; when the declared `compressed_size` is
below `2^32 - 38`, `EventBlocks.Next` fails on every slice shorter than
20 + 18 bytes plus that size, and what it returns is a 20-byte id, a block of
exactly 18 bytes plus that size, and the rest of the slice. -/
theorem decoders_fail_on_short_input (entries blocks : Bytes) (size csize : Nat)
    (hs : uint32 entries = some size) (hsb : size < 2 ^ 32 - 8)
    (hc : EventBlock.CompressedSize ((blocks.drop 20).take 18) = some csize)
    (hcb : csize < 2 ^ 32 - 38) :
    (entries.length < 8 + size → EventEntries.Next entries = none) ∧
    (∀ entry rest, EventEntries.Next entries = some (entry, rest) →
      entry.length = 8 + size ∧ entry ++ rest = entries) ∧
    (blocks.length < 20 + 18 + csize → EventBlocks.Next blocks = none) ∧
    (∀ blockId block rest, EventBlocks.Next blocks = some (blockId, block, rest) →
      blockId.length = 20 ∧ block.length = 18 + csize ∧ blockId ++ block ++ rest = blocks) := by
  rw [entriesNext_spec entries size hs hsb, blocksNext_spec blocks csize hc hcb]
  refine ⟨fun h => by rw [if_pos h], ?_, fun h => by rw [if_pos (by omega)], ?_⟩
  · intro entry rest h
    by_cases hl : entries.length < 8 + size
    · rw [if_pos hl] at h; cases h
    · rw [if_neg hl] at h
      simp only [Option.some.injEq, Prod.mk.injEq] at h
      obtain ⟨h1, h2⟩ := h
      subst h1 h2
      refine ⟨by rw [List.length_take]; omega, List.take_append_drop _ _⟩
  · intro blockId block rest h
    by_cases hl : blocks.length < 38 + csize
    · rw [if_pos hl] at h; cases h
    · rw [if_neg hl] at h
      simp only [Option.some.injEq, Prod.mk.injEq] at h
      obtain ⟨h1, h2, h3⟩ := h
      subst h1 h2 h3
      refine ⟨by rw [List.length_take]; omega,
        by rw [List.length_drop, List.length_take]; omega, ?_⟩
      have h20 : blocks.take 20 = (blocks.take (38 + csize)).take 20 := by
        rw [List.take_take]; congr 1; omega
      rw [h20, List.take_append_drop, List.take_append_drop]

/-- C15 (amended) on the entry `(5, [1, 2])` and on the block of `/hello2`
with its id. -/
theorem decoders_fail_on_short_input_witness :
    ((entryBytes 5 [1, 2]).length < 8 + 2 → EventEntries.Next (entryBytes 5 [1, 2]) = none) ∧
    (∀ entry rest, EventEntries.Next (entryBytes 5 [1, 2]) = some (entry, rest) →
      entry.length = 8 + 2 ∧ entry ++ rest = entryBytes 5 [1, 2]) ∧
    ((eventBlocksBytes [hello2Block]).length < 20 + 18 + 25 →
      EventBlocks.Next (eventBlocksBytes [hello2Block]) = none) ∧
    (∀ blockId block rest,
      EventBlocks.Next (eventBlocksBytes [hello2Block]) = some (blockId, block, rest) →
      blockId.length = 20 ∧ block.length = 18 + 25 ∧
        blockId ++ block ++ rest = eventBlocksBytes [hello2Block]) :=
  decoders_fail_on_short_input (entryBytes 5 [1, 2]) (eventBlocksBytes [hello2Block]) 2 25
    (by decide) (by decide) (by decide) (by decide)

/-- C15 as stated fails where the `uint32` sum wraps around: eight bytes that
declare the size `2^32 - 1` are far shorter than 8 bytes plus that size, yet
`EventEntries.Next` returns a 7-byte entry, shorter than the 8-byte entry
header; 38 bytes that declare the compressed size `2^32 - 1` make
`EventBlocks.Next` return a 17-byte block, shorter than the 18-byte block
header. -/
theorem decoders_wrap_counterexample :
    uint32 wrapEntries = some 4294967295 ∧
    wrapEntries.length < 8 + 4294967295 ∧
    EventEntries.Next wrapEntries = some ([255, 255, 255, 255, 0, 0, 0], [0]) ∧
    EventBlock.CompressedSize ((wrapBlocks.drop 20).take 18) = some 4294967295 ∧
    wrapBlocks.length < 20 + 18 + 4294967295 ∧
    (EventBlocks.Next wrapBlocks).map (fun r => (r.1.length, r.2.1.length, r.2.2.length))
      = some (20, 17, 1) := by
  decide

/-! ## Decoding the result of `List` -/

theorem emittedAt_framed (startTime endTime : Int) (filename content : Bytes) (baseTime : Int)
    (pos : Nat) (e : Emitted) (hname : filename.length = 12)
    (h : EmittedAt startTime endTime filename content baseTime pos e) : e.framed := by
  obtain ⟨csize, hcs, hle, hpay⟩ := h.payload
  have hpl : e.payload.length = csize := by
    rw [hpay, List.length_take, List.length_drop]; omega
  refine ⟨?_, ?_, ?_⟩
  · rw [h.blockId]
    simp [zeros8, hname]
  · rw [h.header, List.length_take, List.length_drop]
    have := h.inFile
    omega
  · rw [hcs, hpl]

/-- Every block `List` returns is framed, when the names the layout parses
have 12 bytes. -/
theorem list_framed (env : Env) (dir : List (Name × Bytes))
    (startTime endTime skip limit : Int) (out : List Emitted)
    (hname : ∀ name sec, env.parse name = some sec → name.length = 12)
    (h : Store.list env dir startTime endTime skip limit = ListResult.ok out) :
    ∀ e ∈ out, e.framed ∧ EmittedFrom env startTime endTime dir e := by
  intro e he
  rcases listFiles_emitted env startTime endTime skip limit dir 0 [] out h e he with h1 | h1
  · simp at h1
  · refine ⟨?_, h1⟩
    obtain ⟨f, _, sec, base, pos, hp, _, _, _, _, hat⟩ := h1
    exact emittedAt_framed _ _ _ _ _ _ _ (hname _ _ hp) hat

theorem compressedSize_append (header payload : Bytes) (h : header.length = 18) :
    EventBlock.CompressedSize (header ++ payload) = EventBlock.CompressedSize header := by
  unfold EventBlock.CompressedSize uint32
  rw [if_neg (by rw [List.length_append, h]; omega), if_neg (by omega),
    List.take_append_of_le_length (by omega)]

/-- `EventBlocks.Next` on the bytes of a framed block followed by anything. -/
theorem next_framed (e : Emitted) (rest : Bytes) (hf : e.framed)
    (hsize : e.payload.length < 2 ^ 32 - 38) :
    EventBlocks.Next (e.blockId ++ e.header ++ e.payload ++ rest)
      = some (e.blockId, e.header ++ e.payload, rest) := by
  have hdrop20 : (e.blockId ++ e.header ++ e.payload ++ rest).drop 20
      = e.header ++ (e.payload ++ rest) := by
    simp only [List.append_assoc]
    exact List.drop_left' hf.idLen
  have hc : EventBlock.CompressedSize
      (((e.blockId ++ e.header ++ e.payload ++ rest).drop 20).take 18)
        = some e.payload.length := by
    rw [hdrop20, List.take_left' hf.headerLen]
    exact hf.size
  rw [blocksNext_spec _ _ hc hsize]
  have hlen : (e.blockId ++ e.header ++ e.payload ++ rest).length
      = 38 + e.payload.length + rest.length := by
    simp only [List.length_append, hf.idLen, hf.headerLen]
  rw [if_neg (by omega)]
  have h1 : (e.blockId ++ e.header ++ e.payload ++ rest).take 20 = e.blockId := by
    simp only [List.append_assoc]
    exact List.take_left' hf.idLen
  have h2 : (e.blockId ++ e.header ++ e.payload ++ rest).take (38 + e.payload.length)
      = e.blockId ++ e.header ++ e.payload :=
    List.take_left' (by simp only [List.length_append, hf.idLen, hf.headerLen])
  have h3 : (e.blockId ++ e.header ++ e.payload ++ rest).drop (38 + e.payload.length)
      = rest :=
    List.drop_left' (by simp only [List.length_append, hf.idLen, hf.headerLen])
  rw [h1, h2, h3]
  have h4 : (e.blockId ++ e.header ++ e.payload).drop 20 = e.header ++ e.payload := by
    simp only [List.append_assoc]
    exact List.drop_left' hf.idLen
  rw [h4]

theorem nextBlocks_framed (out : List Emitted) (hf : ∀ e ∈ out, e.framed)
    (hsize : ∀ e ∈ out, e.payload.length < 2 ^ 32 - 38) :
    nextBlocks out.length (eventBlocksBytes out)
      = some (out.map (fun e => (e.blockId, e.header ++ e.payload)), []) := by
  induction out with
  | nil => rfl
  | cons e es ih =>
    have h1 := next_framed e (eventBlocksBytes es) (hf e (List.mem_cons_self _ _))
      (hsize e (List.mem_cons_self _ _))
    have h2 := ih (fun x hx => hf x (List.mem_cons_of_mem _ hx))
      (fun x hx => hsize x (List.mem_cons_of_mem _ hx))
    simp only [List.length_cons, nextBlocks, eventBlocksBytes, h1, h2, List.map_cons]

/-- C16: for the blocks `List` returns, each with `compressed_size` below
`2^32 - 38` (names the layout parses having 12 bytes), `EventBlocks.Next` on
the returned buffer gives the first block's 20-byte id, the first block as
its 18-byte header followed by exactly `CompressedSize()` payload bytes, and
as rest the buffer of the remaining blocks; `k` calls for `k` blocks give
them all in order and leave an empty rest; and every block is, byte for byte,
what lies in its file. -/
theorem list_output_reparsable (env : Env) (dir : List (Name × Bytes))
    (startTime endTime skip limit : Int) (out : List Emitted)
    (hname : ∀ name sec, env.parse name = some sec → name.length = 12)
    (h : Store.list env dir startTime endTime skip limit = ListResult.ok out)
    (hsize : ∀ e ∈ out, e.payload.length < 2 ^ 32 - 38) :
    (∀ e rest, out = e :: rest →
      EventBlocks.Next (eventBlocksBytes out)
        = some (e.blockId, e.header ++ e.payload, eventBlocksBytes rest) ∧
      e.blockId.length = 20 ∧ e.header.length = 18 ∧
      EventBlock.CompressedSize (e.header ++ e.payload) = some e.payload.length) ∧
    nextBlocks out.length (eventBlocksBytes out)
      = some (out.map (fun e => (e.blockId, e.header ++ e.payload)), []) ∧
    (∀ e ∈ out, ∃ f ∈ dir, ∃ pos : Nat, pos + 18 + e.payload.length ≤ f.2.length ∧
      e.header = (f.2.drop pos).take 18 ∧
      e.payload = (f.2.drop (pos + 18)).take e.payload.length) := by
  have hfr := list_framed env dir startTime endTime skip limit out hname h
  refine ⟨?_, nextBlocks_framed out (fun e he => (hfr e he).1) hsize, ?_⟩
  · intro e rest hout
    have he : e ∈ out := by rw [hout]; exact List.mem_cons_self _ _
    have hf := (hfr e he).1
    subst hout
    refine ⟨next_framed e _ hf (hsize e he), hf.idLen, hf.headerLen, ?_⟩
    rw [compressedSize_append _ _ hf.headerLen]
    exact hf.size
  · intro e he
    obtain ⟨hf, f, hfd, sec, base, pos, _, _, _, _, _, hat⟩ := hfr e he
    obtain ⟨csize, hcs, hle, hpay⟩ := hat.payload
    have hcsz : csize = e.payload.length := by
      have := hf.size
      rw [hcs] at this
      exact Option.some.inj this
    subst hcsz
    exact ⟨f, hfd, pos, hle, hat.header, hpay⟩

/-- C16 on the block `Test_list_time_range` gets back. -/
theorem list_output_reparsable_witness :
    Store.list testEnv timeRangeDir today (today + 60 * nsPerSec) 0 10
      = ListResult.ok [hello2Block] ∧
    nextBlocks [hello2Block].length (eventBlocksBytes [hello2Block])
      = some ([hello2Block].map (fun e => (e.blockId, e.header ++ e.payload)), []) :=
  ⟨by decide,
    (list_output_reparsable testEnv timeRangeDir today (today + 60 * nsPerSec) 0 10
      [hello2Block] cstParse_length (by decide) (by decide)).2.1⟩

/-! ## Unparseable names and files that end within a block header -/

theorem listFiles_filter (env : Env) (startTime endTime skip limit : Int) :
    ∀ (dir : List (Name × Bytes)) (rc : Int) (out : List Emitted),
      listFiles env startTime endTime skip limit dir rc out
        = listFiles env startTime endTime skip limit
            (dir.filter (fun f => (env.parse f.1).isSome)) rc out := by
  intro dir
  induction dir with
  | nil => intro rc out; rfl
  | cons f rest ih =>
    intro rc out
    obtain ⟨filename, content⟩ := f
    cases hp : env.parse filename with
    | none =>
      rw [List.filter_cons_of_neg (by simp [hp]), listFiles]
      simp only [hp]
      exact ih rc out
    | some sec =>
      rw [List.filter_cons_of_pos (by simp [hp]), listFiles, listFiles]
      simp only [hp]
      split_ifs
      · exact ih rc out
      · exact ih rc out
      · rfl
      · cases uint32 (content.drop 3) with
        | none => rfl
        | some base =>
          simp only
          cases scanBlocks startTime endTime skip limit (filename ++ zeros8) content
              (timeUnix base) (content.length + 1) fileHeaderSize rc out with
          | goOn rc1 out1 => exact ih rc1 out1
          | finished out1 => rfl
          | error => rfl
          | panic => rfl
          | outOfFuel => rfl

theorem scanTurn_torn (startTime endTime skip limit : Int) (tmpl content : Bytes)
    (baseTime : Int) (pos : Nat) (rc : Int)
    (h0 : 0 < content.length - pos) (h1 : content.length - pos < 18) :
    scanTurn startTime endTime skip limit tmpl content baseTime pos rc = ScanTurn.error := by
  unfold scanTurn
  rw [if_neg (by omega), if_pos (by simp only [blockHeaderSize]; omega)]

theorem scanTurn_eof (startTime endTime skip limit : Int) (tmpl content : Bytes)
    (baseTime : Int) (pos : Nat) (rc : Int) (h0 : content.length - pos = 0) :
    scanTurn startTime endTime skip limit tmpl content baseTime pos rc = ScanTurn.eof := by
  unfold scanTurn
  rw [if_pos h0]

/-- C17 (amended): `List` ignores the entries whose names do not parse, so its
result is that for the directory without them.  A read of a block header that
finds no byte left ends the scan of the file and `List` goes on with the next
file; a read that finds between 1 and 17 bytes left is an error, and `List`
returns it: a selected file that ends between 1 and 17 bytes after its
7-byte header makes `List` return an error, whatever files follow. -/
theorem list_ignores_unparseable_and_fails_on_torn_header (env : Env)
    (dir : List (Name × Bytes)) (startTime endTime skip limit : Int) :
    Store.list env dir startTime endTime skip limit
      = Store.list env (dir.filter (fun f => (env.parse f.1).isSome)) startTime endTime
          skip limit ∧
    (∀ (tmpl content : Bytes) (baseTime : Int) (fuel pos : Nat) (rc : Int)
        (out : List Emitted), content.length - pos = 0 →
      scanBlocks startTime endTime skip limit tmpl content baseTime (fuel + 1) pos rc out
        = Scan.goOn rc out) ∧
    (∀ (tmpl content : Bytes) (baseTime : Int) (fuel pos : Nat) (rc : Int)
        (out : List Emitted), 0 < content.length - pos → content.length - pos < 18 →
      scanBlocks startTime endTime skip limit tmpl content baseTime (fuel + 1) pos rc out
        = Scan.error) ∧
    (∀ (name content : Bytes) (rest : List (Name × Bytes)) (sec : Int) (rc : Int)
        (out : List Emitted), env.parse name = some sec →
      startTime ≤ timeUnix sec + Hour → timeUnix sec ≤ endTime →
      7 < content.length → content.length < 7 + 18 →
      listFiles env startTime endTime skip limit ((name, content) :: rest) rc out
        = ListResult.err) := by
  refine ⟨listFiles_filter env startTime endTime skip limit dir 0 [], ?_, ?_, ?_⟩
  · intro tmpl content baseTime fuel pos rc out h0
    rw [scanBlocks, scanTurn_eof _ _ _ _ _ _ _ _ _ h0]
  · intro tmpl content baseTime fuel pos rc out h0 h1
    rw [scanBlocks, scanTurn_torn _ _ _ _ _ _ _ _ _ h0 h1]
  · intro name content rest sec rc out hp ha hb h7 h25
    rw [listFiles]
    simp only [hp]
    rw [if_neg (by omega), if_neg (by omega), if_neg (by omega)]
    have hu : ∃ base, uint32 (content.drop 3) = some base := by
      unfold uint32
      rw [if_neg (by rw [List.length_drop]; omega)]
      exact ⟨_, rfl⟩
    obtain ⟨base, hu⟩ := hu
    simp only [hu]
    rw [scanBlocks, scanTurn_torn _ _ _ _ _ _ _ _ _ (by simp only [fileHeaderSize]; omega)
      (by simp only [fileHeaderSize]; omega)]

/-- C17 as stated fails: the first file of the directory is selected and ends
5 bytes into a block header; `List` does not go on to the next file, whose
block is in the range, but returns an error. -/
theorem list_torn_header_counterexample :
    (tornDir.map (fun f => f.2.length)) = [12, 27] ∧
    Store.list testEnv tornDir today (today + 2 * Hour) 0 10 = ListResult.err ∧
    Store.list testEnv (tornDir.drop 1) today (today + 2 * Hour) 0 10
      = ListResult.ok [⟨ascii "201701010900" ++ putUint64 25,
          putUint32 2 ++ putUint32 2 ++ putUint16 1 ++ putUint32 100 ++ putUint32 100,
          [7, 7]⟩] := by
  decide

/-! ## A loop invariant rule for `flushOnce` -/

/-- The ways `flushAccept` can end, with the store it leaves. -/
theorem flushAccept_full (env : Env) (input : evtInput) (queue : List evtInput) (store : Store)
    (fs : Fs) (b : Builder) (saved : List SaveCall) :
    (∃ r, flushAccept env input queue store fs b saved = Turn.done r ∧ r.saved = saved) ∨
    (∃ store1 fs1 seen, switchFile env store fs input.eventTS = (true, store1, fs1) ∧
      store1.currentDiscr = some seen ∧
      ((flushAccept env input queue store fs b saved
          = Turn.next { store1 with currentDiscr := some (seen ++ [input.eventBody]) } fs1 b
              saved) ∨
       (flushAccept env input queue store fs b saved
          = Turn.next { store1 with currentDiscr := some (seen ++ [input.eventBody]) } fs1
              (b.add { store1 with currentDiscr := some (seen ++ [input.eventBody]) } input)
              saved ∧
        ¬ ((b.add { store1 with currentDiscr := some (seen ++ [input.eventBody]) }
            input).entriesCount > store1.Config.BlockEntriesCountLimit) ∧
        ¬ (((b.add { store1 with currentDiscr := some (seen ++ [input.eventBody]) }
            input).blockBody.length : Int) > store1.Config.BlockSizeLimit)) ∨
       (flushAccept env input queue store fs b saved
          = Turn.done (flushSave env
              { store1 with currentDiscr := some (seen ++ [input.eventBody]) } fs1 queue
              (b.add { store1 with currentDiscr := some (seen ++ [input.eventBody]) } input)
              saved)))) := by
  unfold flushAccept
  rcases hsw : switchFile env store fs input.eventTS with ⟨ok, store1, fs1⟩
  cases ok with
  | false => exact Or.inl ⟨_, rfl, rfl⟩
  | true =>
    cases hd : store1.currentDiscr with
    | none => simp only [hd]; exact Or.inl ⟨_, rfl, rfl⟩
    | some seen =>
      simp only [hd]
      refine Or.inr ⟨store1, fs1, seen, rfl, hd, ?_⟩
      by_cases h1 : env.sceneOf seen input.eventBody = false
      · rw [if_pos h1]; exact Or.inl rfl
      · rw [if_neg h1]
        by_cases h2 : (b.add { store1 with currentDiscr := some (seen ++ [input.eventBody]) }
            input).entriesCount > store1.Config.BlockEntriesCountLimit
        · rw [if_pos h2]; exact Or.inr (Or.inr rfl)
        · rw [if_neg h2]
          by_cases h3 : ((b.add { store1 with currentDiscr := some (seen ++ [input.eventBody]) }
              input).blockBody.length : Int) > store1.Config.BlockSizeLimit
          · rw [if_pos h3]; exact Or.inr (Or.inr rfl)
          · rw [if_neg h3]; exact Or.inr (Or.inl ⟨rfl, h2, h3⟩)

/-- An invariant rule for the loop of `flushOnce`: `S` holds of the store
between turns, `A` of the store once `switchFile` has succeeded for an event
and the discriminator has been asked, `P` of the builder with the events
still queued, and `Q` follows for every call of `saveBlock`. -/
theorem flushLoop_rule (env : Env) (S : Store → Prop) (A : Store → evtInput → Prop)
    (P : List evtInput → Builder → Prop) (Q : SaveCall → Prop)
    (hSA : ∀ store fs input store1 fs1 seen, S store →
      switchFile env store fs input.eventTS = (true, store1, fs1) →
      store1.currentDiscr = some seen →
      A { store1 with currentDiscr := some (seen ++ [input.eventBody]) } input)
    (hAS : ∀ store input, A store input → S store)
    (hinit : ∀ q b, P q b → P q Builder.init)
    (hrej : ∀ q input b, P (input :: q) b → P q b)
    (hadd : ∀ q input b store, P (input :: q) b → A store input →
      ¬ ((b.add store input).entriesCount > store.Config.BlockEntriesCountLimit) →
      ¬ (((b.add store input).blockBody.length : Int) > store.Config.BlockSizeLimit) →
      P q (b.add store input))
    (hcall : ∀ q b store, P q b → S store → 0 < b.blockBody.length → Q (b.call store))
    (hcallAdd : ∀ q input b store, P (input :: q) b → A store input →
      Q ((b.add store input).call store)) :
    ∀ (queue : List evtInput) (store : Store) (fs : Fs) (b : Builder) (saved : List SaveCall),
      S store → P queue b → (∀ c ∈ saved, Q c) →
      ∀ c ∈ (flushLoop env queue store fs b saved).saved, Q c := by
  intro queue
  induction queue with
  | nil =>
    intro store fs b saved hS hP hs c hc
    unfold flushLoop at hc
    split at hc
    · rename_i hpos
      rw [flushSave_saved] at hc
      rcases List.mem_append.mp hc with h | h
      · exact hs c h
      · rw [List.mem_singleton.mp h]; exact hcall _ _ _ hP hS hpos
    · exact hs c hc
  | cons input queue ih =>
    intro store fs b saved hS hP hs c hc
    have hacc : ∀ (fs0 : Fs) (b0 : Builder) (saved0 : List SaveCall),
        P (input :: queue) b0 → (∀ c ∈ saved0, Q c) →
        ∀ c ∈ (match flushAccept env input queue store fs0 b0 saved0 with
              | Turn.done r => r
              | Turn.next store1 fs1 b1 saved1 => flushLoop env queue store1 fs1 b1 saved1).saved,
          Q c := by
      intro fs0 b0 saved0 hP0 hs0 c hc
      rcases flushAccept_full env input queue store fs0 b0 saved0 with
        ⟨r, hr, hsv⟩ | ⟨store1, fs1, seen, hsw, hd, hcases⟩
      · rw [hr] at hc
        simp only at hc
        rw [hsv] at hc
        exact hs0 c hc
      · have hA := hSA store fs0 input store1 fs1 seen hS hsw hd
        rcases hcases with hr | ⟨hr, h2, h3⟩ | hr
        · rw [hr] at hc
          simp only at hc
          exact ih _ _ _ _ (hAS _ _ hA) (hrej _ _ _ hP0) hs0 c hc
        · rw [hr] at hc
          simp only at hc
          exact ih _ _ _ _ (hAS _ _ hA) (hadd _ _ _ _ hP0 hA h2 h3) hs0 c hc
        · rw [hr] at hc
          simp only [flushSave_saved] at hc
          rcases List.mem_append.mp hc with h | h
          · exact hs0 c h
          · rw [List.mem_singleton.mp h]
            exact hcallAdd _ _ _ _ hP0 hA
    unfold flushLoop at hc
    rcases flushTurn_cases env input queue store fs b saved with
      ⟨hcond, ⟨r, hr, hsv, _⟩ | ⟨fs1, _, hr⟩⟩ | ⟨_, hr⟩
    · rw [hr] at hc
      simp only at hc
      rw [hsv] at hc
      rcases List.mem_append.mp hc with h | h
      · exact hs c h
      · rw [List.mem_singleton.mp h]; exact hcall _ _ _ hP hS hcond.2
    · rw [hr] at hc
      refine hacc _ _ _ (hinit _ _ hP) ?_ c hc
      intro c hc
      rcases List.mem_append.mp hc with h | h
      · exact hs c h
      · rw [List.mem_singleton.mp h]; exact hcall _ _ _ hP hS hcond.2
    · rw [hr] at hc
      exact hacc _ _ _ hP hs c hc

/-! ## The two limits of a block -/

theorem entriesBytes_dropLast_le (es : List (evtInput × Nat)) :
    (entriesBytes (pairs es.dropLast)).length ≤ (entriesBytes (pairs es)).length := by
  rcases List.eq_nil_or_concat es with h | ⟨l, a, h⟩
  · rw [h]; simp
  · rw [h, List.concat_eq_append, List.dropLast_concat, pairs, pairs, List.map_append,
      entriesBytes_append, List.length_append]
    omega

/-- C19, amended: when `BlockEntriesCountLimit < 65535`, every block that
`flushOnce` saves holds at most `BlockEntriesCountLimit + 1` entries, and its
body without the last entry is empty or at most `BlockSizeLimit` bytes long,
hence at most `BlockSizeLimit` bytes long whenever that limit is not
negative. -/
theorem flushOnce_overshoots_by_one_entry (env : Env) (store : Store) (fs : Fs)
    (queue : List evtInput) (hlimit : store.Config.BlockEntriesCountLimit < 65535) :
    ∀ c ∈ (flushOnce env store fs queue).saved,
      c.blockBody = entriesBytes (pairs c.entries) ∧
      c.entries.length ≤ store.Config.BlockEntriesCountLimit + 1 ∧
      (c.entries.dropLast = [] ∨
        ((entriesBytes (pairs c.entries.dropLast)).length : Int) ≤ store.Config.BlockSizeLimit) ∧
      (0 ≤ store.Config.BlockSizeLimit →
        ((entriesBytes (pairs c.entries.dropLast)).length : Int)
          ≤ store.Config.BlockSizeLimit) := by
  have key : ∀ c ∈ (flushOnce env store fs queue).saved,
      c.blockBody = entriesBytes (pairs c.entries) ∧
      c.entries.length ≤ store.Config.BlockEntriesCountLimit + 1 ∧
      (c.entries.dropLast = [] ∨
        ((entriesBytes (pairs c.entries.dropLast)).length : Int)
          ≤ store.Config.BlockSizeLimit) := by
    refine flushLoop_rule env (fun s => s.Config = store.Config)
      (fun s _ => s.Config = store.Config)
      (fun _ b => b.Sound ∧ b.entries.length ≤ store.Config.BlockEntriesCountLimit ∧
        (b.entries = [] ∨ (b.blockBody.length : Int) ≤ store.Config.BlockSizeLimit))
      _ ?_ ?_ ?_ ?_ ?_ ?_ ?_ queue store fs Builder.init [] rfl
      ⟨Builder.init_sound, by simp [Builder.init], Or.inl rfl⟩ (fun _ h => by simp at h)
    · intro s fs0 input s1 fs1 seen hS hsw _
      show s1.Config = store.Config
      rcases switchFile_ok env s s1 fs0 fs1 input.eventTS hsw with ⟨_, h, _⟩ | ⟨_, _, _, _, h⟩
      · rw [h]; exact hS
      · rw [h]; exact hS
    · intro s input h; exact h
    · intro q b _
      exact ⟨Builder.init_sound, by simp [Builder.init], Or.inl rfl⟩
    · intro q input b h; exact h
    · intro q input b s hP hA h2 h3
      rw [hA] at h2 h3
      have hs := Builder.add_sound b s input hP.1
      refine ⟨hs, ?_, Or.inr (by omega)⟩
      have hc := hs.count
      have hl : (b.add s input).entries.length = b.entries.length + 1 := by
        simp [Builder.add]
      rw [hl] at hc ⊢
      rw [hc] at h2
      omega
    · intro q b s hP hS hpos
      refine ⟨hP.1.body, ?_, ?_⟩
      · show b.entries.length ≤ _
        omega
      · show b.entries.dropLast = [] ∨ _
        rcases hP.2.2 with h | h
        · left; rw [h]; rfl
        · right
          show ((entriesBytes (pairs b.entries.dropLast)).length : Int) ≤ _
          have := entriesBytes_dropLast_le b.entries
          rw [← hP.1.body] at this
          omega
    · intro q input b s hP hA
      refine ⟨(Builder.add_sound b s input hP.1).body, ?_, ?_⟩
      · show (b.entries ++ [_]).length ≤ _
        rw [List.length_append, List.length_singleton]
        omega
      · show (b.entries ++ [_]).dropLast = [] ∨
          ((entriesBytes (pairs (b.entries ++ [_]).dropLast)).length : Int) ≤ _
        rw [List.dropLast_concat]
        rcases hP.2.2 with h | h
        · left; exact h
        · right; rw [← hP.1.body]; exact h
  intro c hc
  obtain ⟨h1, h2, h3⟩ := key c hc
  refine ⟨h1, h2, h3, ?_⟩
  intro h0
  rcases h3 with h | h
  · rw [h]; simpa [pairs, entriesBytes] using h0
  · exact h

/-- C19 on a store limited to one entry per block: three events are saved as
a block of two entries and a block of one. -/
theorem flushOnce_overshoots_by_one_entry_witness :
    smallStore.Config.BlockEntriesCountLimit < 65535 ∧
    ((flushOnce testEnv smallStore ⟨[], []⟩ threeQueue).saved.map
      (fun c => c.entries.length)) = [2] ∧
    ∀ c ∈ (flushOnce testEnv smallStore ⟨[], []⟩ threeQueue).saved,
      c.blockBody = entriesBytes (pairs c.entries) ∧
      c.entries.length ≤ smallStore.Config.BlockEntriesCountLimit + 1 ∧
      (c.entries.dropLast = [] ∨
        ((entriesBytes (pairs c.entries.dropLast)).length : Int)
          ≤ smallStore.Config.BlockSizeLimit) ∧
      (0 ≤ smallStore.Config.BlockSizeLimit →
        ((entriesBytes (pairs c.entries.dropLast)).length : Int)
          ≤ smallStore.Config.BlockSizeLimit) :=
  ⟨by decide, by decide,
    flushOnce_overshoots_by_one_entry testEnv smallStore ⟨[], []⟩ threeQueue (by decide)⟩

/-- C19 as stated fails when `BlockSizeLimit` is negative: the block saved
for one event holds one entry, and its body without that entry, zero bytes
long, is longer than the limit of -1. -/
theorem flushOnce_negative_size_limit_counterexample :
    negativeLimitStore.Config.BlockEntriesCountLimit < 65535 ∧
    ∃ c ∈ (flushOnce testEnv negativeLimitStore ⟨[], []⟩ (threeQueue.take 1)).saved,
      c.entries.length = 1 ∧
      ¬ (((entriesBytes (pairs c.entries.dropLast)).length : Int)
          ≤ negativeLimitStore.Config.BlockSizeLimit) := by
  decide

/-! ## Compressed timestamps stay within the hour -/

theorem Compress_window (ts : Int) (h : 0 ≤ Unix ts) :
    (Compress (timeUnix (windowOf ts * 3600)) ts : Int) = Unix ts - Unix ts / 3600 * 3600 ∧
    Compress (timeUnix (windowOf ts * 3600)) ts < 3600 := by
  unfold Compress windowOf goDiv
  rw [if_pos h, Unix_timeUnix]
  omega

theorem Builder.add_withinHour (b : Builder) (store : Store) (input : evtInput)
    (hb : Builder.withinHour b.entries b.maxCTS)
    (htime : store.currentTime = timeUnix (store.currentWindow * 3600))
    (hwin : store.currentWindow = windowOf input.eventTS) :
    Builder.withinHour (b.add store input).entries (b.add store input).maxCTS := by
  have hc : Compress store.currentTime input.eventTS
      = Compress (timeUnix (windowOf input.eventTS * 3600)) input.eventTS := by
    rw [htime, hwin]
  constructor
  · intro p hp
    simp only [Builder.add, List.mem_append, List.mem_singleton] at hp
    rcases hp with hp | hp
    · exact hb.1 p hp
    · rw [hp]
      exact ⟨hc, fun h0 => hc ▸ Compress_window input.eventTS h0⟩
  · intro hall
    have hold : b.maxCTS < 3600 := hb.2 (fun p hp => hall p (by
      simp only [Builder.add, List.mem_append]; exact Or.inl hp))
    have hnew : 0 ≤ Unix input.eventTS := hall (input, Compress store.currentTime input.eventTS)
      (by simp [Builder.add])
    have hlt := (Compress_window input.eventTS hnew).2
    rw [← hc] at hlt
    simp only [Builder.add]
    split <;> assumption

/-- C20: on a store whose `currentTime` is the start of its current window
(or that has no discriminator yet, as `NewStore` gives it), every entry of a
block saved by `flushOnce` carries the compressed timestamp computed against
the start of the event's own hour window; for an event with `0 ≤ unix(t)` it
is `unix(t) - unix(t)/3600*3600`, below 3600 and not wrapped, and a saved
block of such events has `maxCTS < 3600`. -/
theorem flushOnce_cts_within_hour (env : Env) (store : Store) (fs : Fs)
    (queue : List evtInput)
    (hstore : store.currentTime = timeUnix (store.currentWindow * 3600) ∨
      store.currentDiscr = none) :
    ∀ c ∈ (flushOnce env store fs queue).saved,
      (∀ p ∈ c.entries,
        p.2 = Compress (timeUnix (windowOf p.1.eventTS * 3600)) p.1.eventTS ∧
        (0 ≤ Unix p.1.eventTS →
          (p.2 : Int) = Unix p.1.eventTS - Unix p.1.eventTS / 3600 * 3600 ∧ p.2 < 3600)) ∧
      ((∀ p ∈ c.entries, 0 ≤ Unix p.1.eventTS) → c.maxCTS < 3600) := by
  refine flushLoop_rule env
    (fun s => s.currentTime = timeUnix (s.currentWindow * 3600) ∨ s.currentDiscr = none)
    (fun s input => s.currentTime = timeUnix (s.currentWindow * 3600) ∧
      s.currentWindow = windowOf input.eventTS)
    (fun _ b => Builder.withinHour b.entries b.maxCTS)
    (fun c => Builder.withinHour c.entries c.maxCTS)
    ?_ ?_ ?_ ?_ ?_ ?_ ?_ queue store fs Builder.init [] hstore ?_ (fun _ h => by simp at h)
  · intro s fs0 input s1 fs1 seen hS hsw hd
    show s1.currentTime = timeUnix (s1.currentWindow * 3600) ∧
      s1.currentWindow = windowOf input.eventTS
    rcases switchFile_ok env s s1 fs0 fs1 input.eventTS hsw with
      ⟨hw, h, _⟩ | ⟨_, hw, hr, _, _⟩
    · rw [h] at hd ⊢
      rcases hS with hS | hS
      · exact ⟨hS, hw.symm⟩
      · rw [hS] at hd; cases hd
    · exact ⟨hr.1, hw⟩
  · intro s input h; exact Or.inl h.1
  · intro q b _
    exact ⟨fun p hp => by simp [Builder.init] at hp, fun _ => by simp [Builder.init]⟩
  · intro q input b h; exact h
  · intro q input b s hP hA _ _
    exact Builder.add_withinHour b s input hP hA.1 hA.2
  · intro q b s hP _ _; exact hP
  · intro q input b s hP hA
    exact Builder.add_withinHour b s input hP hA.1 hA.2
  · exact ⟨fun p hp => by simp [Builder.init] at hp, fun _ => by simp [Builder.init]⟩

/-- C20 on a new store with the two events of the rotation test: two blocks
are saved, with the compressed timestamps 100 and 100. -/
theorem flushOnce_cts_within_hour_witness :
    (NewStore.currentTime = timeUnix (NewStore.currentWindow * 3600) ∨
      NewStore.currentDiscr = none) ∧
    ((flushOnce testEnv NewStore ⟨[], []⟩ rotationQueue).saved.map
      (fun c => (c.entries.map (fun p => p.2), c.maxCTS))) = [([100], 100), ([100], 100)] ∧
    ∀ c ∈ (flushOnce testEnv NewStore ⟨[], []⟩ rotationQueue).saved,
      (∀ p ∈ c.entries,
        p.2 = Compress (timeUnix (windowOf p.1.eventTS * 3600)) p.1.eventTS ∧
        (0 ≤ Unix p.1.eventTS →
          (p.2 : Int) = Unix p.1.eventTS - Unix p.1.eventTS / 3600 * 3600 ∧ p.2 < 3600)) ∧
      ((∀ p ∈ c.entries, 0 ≤ Unix p.1.eventTS) → c.maxCTS < 3600) :=
  ⟨Or.inr rfl, by decide,
    flushOnce_cts_within_hour testEnv NewStore ⟨[], []⟩ rotationQueue (Or.inr rfl)⟩

/-! ## Runs in which no file operation fails -/

theorem tick_nofault (dir : List (Name × Bytes)) :
    Fs.tick ⟨dir, []⟩ = (false, ⟨dir, []⟩) := rfl

theorem fileWrite_nofault (dir : List (Name × Bytes)) (name : Name) (b : Bytes) :
    fileWrite ⟨dir, []⟩ ⟨name, false⟩ b = (true, ⟨dirAppend dir name b, []⟩) := rfl

theorem saveBlock_nofault (env : Env) (store : Store) (fs : Fs) (n lo hi : Nat) (body : Bytes)
    (name : Name) (h : fs.faults = []) (hfile : store.currentFile = some ⟨name, false⟩) :
    saveBlock env store fs n lo hi body
      = (Outcome.ok, ⟨dirAppend fs.dir name (saveBlockBytes env.lz n lo hi body), []⟩) := by
  obtain ⟨dir, faults⟩ := fs
  simp only at h
  subst h
  unfold saveBlock
  rw [hfile]
  simp only [fileWrite_nofault, dirAppend_dirAppend, saveBlockBytes]

theorem switchFile_nofault (env : Env) (store : Store) (fs : Fs) (ts : Int)
    (h : fs.faults = [])
    (hfile : store.currentFile = none ∨ ∃ name, store.currentFile = some ⟨name, false⟩)
    (hw : windowOf ts ≠ store.currentWindow) :
    switchFile env store fs ts
      = (true,
          { store with
            currentDiscr := some []
            currentFile := some ⟨env.format (windowOf ts * 3600), false⟩
            currentWindow := windowOf ts
            currentTime := timeUnix (windowOf ts * 3600) },
          ⟨dirAppend
            (if dirHas fs.dir (env.format (windowOf ts * 3600)) then fs.dir
              else dirCreate fs.dir (env.format (windowOf ts * 3600)))
            (env.format (windowOf ts * 3600)) (fileHeader (timeUnix (windowOf ts * 3600))),
            []⟩) := by
  obtain ⟨dir, faults⟩ := fs
  simp only at h
  subst h
  unfold switchFile
  simp only
  rw [if_neg (show ¬ goDiv (Unix ts) 3600 = store.currentWindow from hw)]
  have hclose : closeCurrent { store with currentDiscr := some [] } ⟨dir, []⟩
      = (true, ⟨dir, []⟩) := by
    unfold closeCurrent
    rcases hfile with hf | ⟨name, hf⟩
    · simp only [hf]
    · simp only [hf]
      rfl
  rw [hclose]
  simp only
  unfold openWindowFile
  simp only [Unix_timeUnix]
  unfold openCreateAppend
  rw [tick_nofault]
  simp only
  by_cases hd : dirHas dir (env.format (goDiv (Unix ts) 3600 * 3600)) = true
  · rw [if_pos hd]
    simp only [fileWrite_nofault, windowOf, if_pos hd]
  · rw [if_neg hd]
    simp only [fileWrite_nofault, windowOf, if_neg hd]

theorem flushSave_nofault (env : Env) (store : Store) (fs : Fs) (queue : List evtInput)
    (b : Builder) (saved : List SaveCall) (name : Name) (hf : fs.faults = [])
    (hfile : store.currentFile = some ⟨name, false⟩) :
    flushSave env store fs queue b saved
      = ⟨true, b.entriesCount, false, store,
          ⟨dirAppend fs.dir name
            (saveBlockBytes env.lz b.entriesCount b.minCTS b.maxCTS b.blockBody), []⟩,
          queue, saved ++ [b.call store]⟩ := by
  unfold flushSave
  rw [saveBlock_nofault env store fs _ _ _ _ _ hf hfile]

/-- What `flushAccept` does when no file operation fails, on a store that has
the file of its window open or has no file and meets an event of another
window. -/
theorem flushAccept_nofault (env : Env) (input : evtInput) (queue : List evtInput)
    (store : Store) (fs : Fs) (b : Builder) (saved : List SaveCall) (hf : fs.faults = [])
    (hS : store.ready env ∨
      (store.currentFile = none ∧ windowOf input.eventTS ≠ store.currentWindow)) :
    ∃ store2 fs1 seen0, fs1.faults = [] ∧ store2.ready env ∧
      store2.currentWindow = windowOf input.eventTS ∧ store2.Config = store.Config ∧
      store2.currentDiscr = some (seen0 ++ [input.eventBody]) ∧
      seen0 = (if windowOf input.eventTS = store.currentWindow then store.currentDiscr.getD []
        else []) ∧
      fs1 = (switchFile env store fs input.eventTS).2.2 ∧
      flushAccept env input queue store fs b saved
        = if env.sceneOf seen0 input.eventBody = false then Turn.next store2 fs1 b saved
          else if (b.add store2 input).entriesCount > store.Config.BlockEntriesCountLimit ∨
              ((b.add store2 input).blockBody.length : Int) > store.Config.BlockSizeLimit then
            Turn.done ⟨true, (b.add store2 input).entriesCount, false, store2,
              ⟨dirAppend fs1.dir (env.format (windowOf input.eventTS * 3600))
                (saveBlockBytes env.lz (b.add store2 input).entriesCount
                  (b.add store2 input).minCTS (b.add store2 input).maxCTS
                  (b.add store2 input).blockBody), []⟩,
              queue, saved ++ [(b.add store2 input).call store2]⟩
          else Turn.next store2 fs1 (b.add store2 input) saved := by
  have main : ∀ (store1 : Store) (fs1 : Fs) (seen0 : List Bytes),
      switchFile env store fs input.eventTS = (true, store1, fs1) →
      fs1.faults = [] → store1.ready env → store1.currentWindow = windowOf input.eventTS →
      store1.Config = store.Config → store1.currentDiscr = some seen0 →
      seen0 = (if windowOf input.eventTS = store.currentWindow then store.currentDiscr.getD []
        else []) →
      ∃ store2 fs1 seen0, fs1.faults = [] ∧ store2.ready env ∧
        store2.currentWindow = windowOf input.eventTS ∧ store2.Config = store.Config ∧
        store2.currentDiscr = some (seen0 ++ [input.eventBody]) ∧
        seen0 = (if windowOf input.eventTS = store.currentWindow then store.currentDiscr.getD []
          else []) ∧
        fs1 = (switchFile env store fs input.eventTS).2.2 ∧
        flushAccept env input queue store fs b saved
          = if env.sceneOf seen0 input.eventBody = false then Turn.next store2 fs1 b saved
            else if (b.add store2 input).entriesCount > store.Config.BlockEntriesCountLimit ∨
                ((b.add store2 input).blockBody.length : Int) > store.Config.BlockSizeLimit then
              Turn.done ⟨true, (b.add store2 input).entriesCount, false, store2,
                ⟨dirAppend fs1.dir (env.format (windowOf input.eventTS * 3600))
                  (saveBlockBytes env.lz (b.add store2 input).entriesCount
                    (b.add store2 input).minCTS (b.add store2 input).maxCTS
                    (b.add store2 input).blockBody), []⟩,
                queue, saved ++ [(b.add store2 input).call store2]⟩
            else Turn.next store2 fs1 (b.add store2 input) saved := by
    intro store1 fs1 seen0 hsw hf1 hr1 hw1 hc1 hd1 hseen
    have hr2 : Store.ready env { store1 with currentDiscr := some (seen0 ++ [input.eventBody]) } :=
      ⟨hr1.1, hr1.2.1, by simp⟩
    refine ⟨{ store1 with currentDiscr := some (seen0 ++ [input.eventBody]) }, fs1, seen0, hf1,
      hr2, hw1, hc1, rfl, hseen, by rw [hsw], ?_⟩
    unfold flushAccept
    rw [hsw]
    simp only [hd1]
    by_cases h1 : env.sceneOf seen0 input.eventBody = false
    · rw [if_pos h1, if_pos h1]
    · rw [if_neg h1, if_neg h1]
      have hsave := flushSave_nofault env
        { store1 with currentDiscr := some (seen0 ++ [input.eventBody]) } fs1 queue
        (b.add { store1 with currentDiscr := some (seen0 ++ [input.eventBody]) } input) saved
        (env.format (windowOf input.eventTS * 3600)) hf1 (hw1 ▸ hr1.2.1)
      by_cases h2 : (b.add { store1 with currentDiscr := some (seen0 ++ [input.eventBody]) }
          input).entriesCount > store1.Config.BlockEntriesCountLimit
      · rw [if_pos h2, if_pos (Or.inl (hc1 ▸ h2)), hsave]
      · rw [if_neg h2]
        by_cases h3 : ((b.add { store1 with currentDiscr := some (seen0 ++ [input.eventBody]) }
            input).blockBody.length : Int) > store1.Config.BlockSizeLimit
        · rw [if_pos h3, if_pos (Or.inr (hc1 ▸ h3)), hsave]
        · rw [if_neg h3, if_neg]
          rw [← hc1]
          exact fun h => h.elim h2 h3
  by_cases hw : windowOf input.eventTS = store.currentWindow
  · have hr : store.ready env := by
      rcases hS with h | h
      · exact h
      · exact absurd hw h.2
    obtain ⟨seen, hseen⟩ := Option.ne_none_iff_exists'.mp hr.2.2
    have hsw : switchFile env store fs input.eventTS = (true, store, fs) := by
      unfold switchFile
      simp only
      rw [if_pos (show goDiv (Unix input.eventTS) 3600 = store.currentWindow from hw)]
    exact main store fs seen hsw hf hr hw.symm rfl hseen (by rw [if_pos hw, hseen]; rfl)
  · have hfile : store.currentFile = none ∨ ∃ name, store.currentFile = some ⟨name, false⟩ := by
      rcases hS with h | h
      · exact Or.inr ⟨_, h.2.1⟩
      · exact Or.inl h.1
    have hsw := switchFile_nofault env store fs input.eventTS hf hfile hw
    exact main _ _ [] hsw rfl ⟨rfl, rfl, by simp⟩ rfl rfl rfl (by rw [if_neg hw])

theorem savedBytes_append (a b : List SaveCall) :
    savedBytes (a ++ b) = savedBytes a ++ savedBytes b := by
  induction a with
  | nil => rfl
  | cons c cs ih => simp [savedBytes, ih, List.append_assoc]

theorem acceptedEvents_cons_bytes (env : Env) (window : Int) (seen : List Bytes)
    (input : evtInput) (queue : List evtInput) :
    entriesBytes (pairs (acceptedEvents env window seen (input :: queue)))
      = (if env.sceneOf (if windowOf input.eventTS = window then seen else []) input.eventBody
            = false then []
          else entryBytes (Compress (timeUnix (windowOf input.eventTS * 3600)) input.eventTS)
            input.eventBody)
        ++ entriesBytes (pairs (acceptedEvents env (windowOf input.eventTS)
            ((if windowOf input.eventTS = window then seen else []) ++ [input.eventBody])
            queue)) := by
  rw [acceptedEvents]
  by_cases h : env.sceneOf (if windowOf input.eventTS = window then seen else [])
      input.eventBody = false
  · simp only [if_pos h]
    rfl
  · simp only [if_neg h]
    simp [pairs, entriesBytes]

theorem FlushResult.accountsFor_slack (env : Env) (r : FlushResult) (n s t : Nat) (bytes : Bytes)
    (h : r.accountsFor env n s bytes) (hts : t ≤ s) : r.accountsFor env n t bytes :=
  ⟨h.1, h.2.1, h.2.2.1, fun hc => by have := h.2.2.2.1 hc; omega, h.2.2.2.2.1, h.2.2.2.2.2⟩

/-- The loop of `flushOnce` when no file operation fails. -/
theorem flushLoop_nofault (env : Env) :
    ∀ (queue : List evtInput) (store : Store) (fs : Fs) (b : Builder) (saved : List SaveCall),
      fs.faults = [] →
      (store.ready env ∨ (store.currentFile = none ∧ b.blockBody.length = 0 ∧
        ∀ e ∈ queue.head?, windowOf e.eventTS ≠ store.currentWindow)) →
      (flushLoop env queue store fs b saved).accountsFor env queue.length
        (if b.blockBody.length = 0 then 1 else 0)
        (savedBytes saved ++ b.blockBody ++ entriesBytes (pairs (acceptedEvents env
          store.currentWindow (store.currentDiscr.getD []) queue))) := by
  intro queue
  induction queue with
  | nil =>
    intro store fs b saved hf hS
    unfold flushLoop
    by_cases hpos : b.blockBody.length > 0
    · rw [if_pos hpos]
      have hr : store.ready env := by
        rcases hS with h | h
        · exact h
        · omega
      rw [flushSave_nofault env store fs [] b saved _ hf hr.2.1]
      refine ⟨rfl, rfl, Or.inl hr, fun _ => ?_, (fun h => by cases h), ?_⟩
      · rw [if_neg (by omega)]; simp
      · simp [savedBytes_append, savedBytes, Builder.call, acceptedEvents, pairs, entriesBytes]
    · rw [if_neg hpos]
      refine ⟨rfl, hf, ?_, (fun h => by cases h), fun _ => rfl, ?_⟩
      · rcases hS with h | h
        · exact Or.inl h
        · exact Or.inr ⟨h.1, rfl⟩
      · have : b.blockBody = [] := List.length_eq_zero.mp (by omega)
        simp [this, acceptedEvents, pairs, entriesBytes]
  | cons input queue ih =>
    intro store fs b saved hf hS
    have hS0 : store.ready env ∨
        (store.currentFile = none ∧ windowOf input.eventTS ≠ store.currentWindow) := by
      rcases hS with h | h
      · exact Or.inl h
      · exact Or.inr ⟨h.1, h.2.2 input (by simp)⟩
    have acc : ∀ (fs0 : Fs) (b0 : Builder) (saved0 : List SaveCall), fs0.faults = [] →
        (match flushAccept env input queue store fs0 b0 saved0 with
          | Turn.done r => r
          | Turn.next store1 fs1 b1 saved1 => flushLoop env queue store1 fs1 b1 saved1).accountsFor
          env (queue.length + 1) 1
          (savedBytes saved0 ++ b0.blockBody ++ entriesBytes (pairs (acceptedEvents env
            store.currentWindow (store.currentDiscr.getD []) (input :: queue)))) := by
      intro fs0 b0 saved0 hf0
      obtain ⟨store2, fs1, seen0, hf1, hr2, hw2, hc2, hd2, hseen, _, heq⟩ :=
        flushAccept_nofault env input queue store fs0 b0 saved0 hf0 hS0
      rw [heq, acceptedEvents_cons_bytes, ← hseen]
      have hbody : (b0.add store2 input).blockBody = b0.blockBody
          ++ entryBytes (Compress (timeUnix (windowOf input.eventTS * 3600)) input.eventTS)
            input.eventBody := by
        simp only [Builder.add, appendEntry_eq]
        rw [hr2.1, hw2]
      have hrest : acceptedEvents env store2.currentWindow (store2.currentDiscr.getD []) queue
          = acceptedEvents env (windowOf input.eventTS) (seen0 ++ [input.eventBody]) queue := by
        rw [hw2, hd2]; rfl
      by_cases h1 : env.sceneOf seen0 input.eventBody = false
      · rw [if_pos h1, if_pos h1]
        simp only
        have := ih store2 fs1 b0 saved0 hf1 (Or.inl hr2)
        rw [hrest] at this
        refine ⟨this.1, this.2.1, this.2.2.1, fun hc => ?_, this.2.2.2.2.1, ?_⟩
        · have := this.2.2.2.1 hc; omega
        · rw [this.2.2.2.2.2]; simp
      · rw [if_neg h1, if_neg h1]
        by_cases h2 : (b0.add store2 input).entriesCount > store.Config.BlockEntriesCountLimit ∨
            ((b0.add store2 input).blockBody.length : Int) > store.Config.BlockSizeLimit
        · rw [if_pos h2]
          simp only
          refine ⟨rfl, rfl, Or.inl hr2, fun _ => le_refl _, (fun h => by cases h), ?_⟩
          simp only [savedBytes_append, savedBytes, Builder.call, hrest]
          rw [hbody]
          simp [List.append_assoc]
        · rw [if_neg h2]
          simp only
          have := ih store2 fs1 (b0.add store2 input) saved0 hf1 (Or.inl hr2)
          rw [hrest, hbody] at this
          refine ⟨this.1, this.2.1, this.2.2.1, fun hc => ?_, this.2.2.2.2.1, ?_⟩
          · have := this.2.2.2.1 hc; omega
          · rw [this.2.2.2.2.2]; simp [List.append_assoc]
    unfold flushLoop
    rcases flushTurn_cases env input queue store fs b saved with
      ⟨hcond, ⟨r, _, _, hne⟩ | ⟨fs1, hsb, hr⟩⟩ | ⟨_, hr⟩
    · have hready : store.ready env := by
        rcases hS with h | h
        · exact h
        · omega
      rw [saveBlock_nofault env store fs _ _ _ _ _ hf hready.2.1] at hne
      exact absurd rfl hne
    · have hready : store.ready env := by
        rcases hS with h | h
        · exact h
        · omega
      rw [saveBlock_nofault env store fs _ _ _ _ _ hf hready.2.1] at hsb
      have hf1 : fs1.faults = [] := by
        rw [← (Prod.mk.inj hsb).2]
      rw [hr]
      have := acc fs1 Builder.init (saved ++ [b.call store]) hf1
      refine FlushResult.accountsFor_slack env _ _ 1 _ _ ?_ (by split <;> omega)
      simpa [savedBytes_append, savedBytes, Builder.call, Builder.init, List.append_assoc]
        using this
    · rw [hr]
      exact FlushResult.accountsFor_slack env _ _ 1 _ _ (acc fs b saved hf) (by split <;> omega)

theorem flushRounds_nofault (env : Env) :
    ∀ (fuel : Nat) (store : Store) (fs : Fs) (queue : List evtInput) (total : Int)
      (saved : List SaveCall),
      queue.length < fuel → fs.faults = [] →
      (store.ready env ∨ (store.currentFile = none ∧
        ∀ e ∈ queue.head?, windowOf e.eventTS ≠ store.currentWindow)) →
      (flushRounds env fuel store fs queue total saved).outOfFuel = false ∧
      (flushRounds env fuel store fs queue total saved).panicked = false ∧
      (flushRounds env fuel store fs queue total saved).queue = [] ∧
      (flushRounds env fuel store fs queue total saved).fs.faults = [] ∧
      savedBytes (flushRounds env fuel store fs queue total saved).saved
        = savedBytes saved ++ entriesBytes (pairs (acceptedEvents env store.currentWindow
            (store.currentDiscr.getD []) queue)) := by
  intro fuel
  induction fuel with
  | zero => intro store fs queue total saved h; omega
  | succ fuel ih =>
    intro store fs queue total saved hlen hf hS
    have h := flushLoop_nofault env queue store fs Builder.init [] hf (by
      rcases hS with h | h
      · exact Or.inl h
      · exact Or.inr ⟨h.1, rfl, h.2⟩)
    rw [show flushLoop env queue store fs Builder.init [] = flushOnce env store fs queue from rfl]
      at h
    obtain ⟨hp, hfr, hSr, hcont, hstop, hbytes⟩ := h
    simp only [savedBytes, Builder.init, List.nil_append] at hbytes
    simp only [Builder.init, List.length_nil, if_true] at hcont
    unfold flushRounds
    rw [if_neg (by rw [hp]; simp)]
    by_cases hc : (flushOnce env store fs queue).shouldContinue = false
    · rw [if_pos hc]
      have hq := hstop hc
      rw [hq] at hbytes
      rw [show acceptedEvents env (flushOnce env store fs queue).store.currentWindow
        ((flushOnce env store fs queue).store.currentDiscr.getD []) [] = [] from rfl] at hbytes
      simp only [pairs, List.map_nil, entriesBytes, List.append_nil] at hbytes
      exact ⟨rfl, rfl, hq, hfr, by rw [savedBytes_append, hbytes]; rfl⟩
    · rw [if_neg hc]
      have hc1 : (flushOnce env store fs queue).shouldContinue = true := by
        simpa using hc
      have hl := hcont hc1
      have := ih (flushOnce env store fs queue).store (flushOnce env store fs queue).fs
        (flushOnce env store fs queue).queue
        (wrapInt (total + (flushOnce env store fs queue).entriesCount))
        (saved ++ (flushOnce env store fs queue).saved) (by omega) hfr (by
          rcases hSr with h | h
          · exact Or.inl h
          · exact Or.inr ⟨h.1, by rw [h.2]; simp⟩)
      refine ⟨this.1, this.2.1, this.2.2.1, this.2.2.2.1, ?_⟩
      rw [this.2.2.2.2, savedBytes_append, List.append_assoc, hbytes]

theorem acceptedEvents_sublist (env : Env) (queue : List evtInput) :
    ∀ (window : Int) (seen : List Bytes),
      List.Sublist ((acceptedEvents env window seen queue).map Prod.fst) queue := by
  induction queue with
  | nil => intro window seen; simp [acceptedEvents]
  | cons input queue ih =>
    intro window seen
    rw [acceptedEvents]
    by_cases h : env.sceneOf (if windowOf input.eventTS = window then seen else [])
        input.eventBody = false
    · simp only [if_pos h]
      exact List.Sublist.cons _ (ih _ _)
    · simp only [if_neg h, List.map_cons]
      exact List.Sublist.cons₂ _ (ih _ _)

theorem acceptedEvents_filter (env : Env) (accept : Bytes → Bool)
    (h : ∀ seen body, env.sceneOf seen body = accept body) (queue : List evtInput) :
    ∀ (window : Int) (seen : List Bytes),
      (acceptedEvents env window seen queue).map Prod.fst
        = queue.filter (fun e => accept e.eventBody) := by
  induction queue with
  | nil => intro window seen; simp [acceptedEvents]
  | cons input queue ih =>
    intro window seen
    rw [acceptedEvents]
    simp only [h]
    cases ha : accept input.eventBody with
    | false => simp [ha, ih]
    | true => simp [ha, ih]

/-- C14, amended: on a store that has the file of its window open, or has
no file yet and whose first queued event is not of the store's
`currentWindow`, when no file operation fails `flushInputQueue` returns
without panic and with the queue empty, and the bodies of the blocks it
saved, concatenated in order, are the entries of the events the discriminator
accepted, in queue order; those events are a subsequence of the queue, and
exactly the events a discriminator that looks at the body alone accepts. -/
theorem flushInputQueue_drains_in_order (env : Env) (store : Store)
    (dir : List (Name × Bytes)) (queue : List evtInput)
    (hstore : store.ready env ∨ (store.currentFile = none ∧
      ∀ e ∈ queue.head?, windowOf e.eventTS ≠ store.currentWindow)) :
    (flushInputQueue env store ⟨dir, []⟩ queue).outOfFuel = false ∧
    (flushInputQueue env store ⟨dir, []⟩ queue).panicked = false ∧
    (flushInputQueue env store ⟨dir, []⟩ queue).queue = [] ∧
    savedBytes (flushInputQueue env store ⟨dir, []⟩ queue).saved
      = entriesBytes (pairs (acceptedEvents env store.currentWindow
          (store.currentDiscr.getD []) queue)) ∧
    List.Sublist ((acceptedEvents env store.currentWindow
      (store.currentDiscr.getD []) queue).map Prod.fst) queue ∧
    (∀ accept : Bytes → Bool, (∀ seen body, env.sceneOf seen body = accept body) →
      (acceptedEvents env store.currentWindow (store.currentDiscr.getD []) queue).map Prod.fst
        = queue.filter (fun e => accept e.eventBody)) := by
  have h := flushRounds_nofault env (queue.length + 1) store ⟨dir, []⟩ queue 0 []
    (Nat.lt_succ_self _) rfl hstore
  refine ⟨h.1, h.2.1, h.2.2.1, ?_, acceptedEvents_sublist env queue _ _,
    fun accept ha => acceptedEvents_filter env accept ha queue _ _⟩
  have := h.2.2.2.2
  simpa [savedBytes, flushInputQueue] using this

/-- C14 on a new store with the two events of the rotation test: both are
accepted and saved, one block each. -/
theorem flushInputQueue_drains_in_order_witness :
    (NewStore.ready testEnv ∨ (NewStore.currentFile = none ∧
      ∀ e ∈ rotationQueue.head?, windowOf e.eventTS ≠ NewStore.currentWindow)) ∧
    ((flushInputQueue testEnv NewStore ⟨[], []⟩ rotationQueue).saved.map
      (fun c => c.blockBody.length)) = [24, 24] ∧
    (flushInputQueue testEnv NewStore ⟨[], []⟩ rotationQueue).outOfFuel = false ∧
    (flushInputQueue testEnv NewStore ⟨[], []⟩ rotationQueue).panicked = false ∧
    (flushInputQueue testEnv NewStore ⟨[], []⟩ rotationQueue).queue = [] ∧
    savedBytes (flushInputQueue testEnv NewStore ⟨[], []⟩ rotationQueue).saved
      = entriesBytes (pairs (acceptedEvents testEnv NewStore.currentWindow
          (NewStore.currentDiscr.getD []) rotationQueue)) ∧
    List.Sublist ((acceptedEvents testEnv NewStore.currentWindow
      (NewStore.currentDiscr.getD []) rotationQueue).map Prod.fst) rotationQueue ∧
    (∀ accept : Bytes → Bool, (∀ seen body, testEnv.sceneOf seen body = accept body) →
      (acceptedEvents testEnv NewStore.currentWindow (NewStore.currentDiscr.getD [])
        rotationQueue).map Prod.fst = rotationQueue.filter (fun e => accept e.eventBody)) :=
  ⟨Or.inr ⟨rfl, by decide⟩, by decide,
    flushInputQueue_drains_in_order testEnv NewStore [] rotationQueue
      (Or.inr ⟨rfl, by decide⟩)⟩

/-- C14 as stated fails on a new store whose first event is of window 0:
`switchFile` takes the window for the current one and leaves the
discriminator nil, the call of `SceneOf` panics, and `flushInputQueue`
returns with the second event still queued and nothing saved, although no
file operation failed. -/
theorem flushInputQueue_epoch_counterexample :
    (flushInputQueue testEnv NewStore ⟨[], []⟩ epochQueue).panicked = true ∧
    (flushInputQueue testEnv NewStore ⟨[], []⟩ epochQueue).queue = epochQueue.drop 1 ∧
    (flushInputQueue testEnv NewStore ⟨[], []⟩ epochQueue).saved.length = 0 ∧
    (flushInputQueue testEnv NewStore ⟨[], []⟩ epochQueue).fs.dir = [] ∧
    (acceptedEvents testEnv NewStore.currentWindow (NewStore.currentDiscr.getD [])
      epochQueue).map Prod.fst = epochQueue := by
  decide

/-! ## One window, one block -/

theorem window_not_late (ts w : Int) (h : windowOf ts = w) :
    ¬ (Sub ts (timeUnix (w * 3600)) > Hour) := by
  rw [Sub_gt_Hour]
  unfold windowOf goDiv Unix at h
  unfold timeUnix Hour
  unfold nsPerSec at *
  split at h <;> omega

theorem saveBlockBytes_EntriesCount (lz : Lz4) (n lo hi : Nat) (body : Bytes)
    (hn : n < 2 ^ 16) :
    EventBlock.EntriesCount (saveBlockBytes lz n lo hi body) = some n := by
  unfold saveBlockBytes blockHeader EventBlock.EntriesCount
  rw [Nat.mod_eq_of_lt hn]
  have : putUint32 ((lz.compress body).length % 2 ^ 32) ++ putUint32 (body.length % 2 ^ 32)
      ++ putUint16 n ++ putUint32 lo ++ putUint32 hi ++ lz.compress body
      = (putUint32 ((lz.compress body).length % 2 ^ 32) ++ putUint32 (body.length % 2 ^ 32))
        ++ (putUint16 n ++ (putUint32 lo ++ (putUint32 hi ++ lz.compress body))) := by
    simp only [List.append_assoc]
  rw [this, sliceFrom_append_of_length _ _ 8 (by simp)]
  exact uint16_putUint16_append _ _ hn

/-- One turn of the loop of `flushOnce` for an event that is accepted and
leaves the block within its limits, when no file operation fails. -/
theorem flushTurn_accepts (env : Env) (input : evtInput) (queue : List evtInput)
    (store : Store) (fs : Fs) (b : Builder) (saved : List SaveCall) (hf : fs.faults = [])
    (hS : store.ready env ∨
      (store.currentFile = none ∧ windowOf input.eventTS ≠ store.currentWindow))
    (hlate : ¬ (Sub input.eventTS store.currentTime > Hour ∧ b.blockBody.length > 0))
    (hacc : env.sceneOf (if windowOf input.eventTS = store.currentWindow
      then store.currentDiscr.getD [] else []) input.eventBody = true)
    (hcount : b.entriesCount + 1 ≤ store.Config.BlockEntriesCountLimit)
    (hlim : store.Config.BlockEntriesCountLimit < 65536)
    (hsize : ((b.blockBody.length + (entryHeaderSize + input.eventBody.length) : Nat) : Int)
      ≤ store.Config.BlockSizeLimit) :
    ∃ store2 b2, store2.ready env ∧ store2.currentWindow = windowOf input.eventTS ∧
      store2.Config = store.Config ∧
      store2.currentDiscr = some ((if windowOf input.eventTS = store.currentWindow
        then store.currentDiscr.getD [] else []) ++ [input.eventBody]) ∧
      flushTurn env input queue store fs b saved
        = Turn.next store2 (switchFile env store fs input.eventTS).2.2 b2 saved ∧
      b2.entriesCount = b.entriesCount + 1 ∧
      b2.blockBody = b.blockBody
        ++ entryBytes (Compress (timeUnix (windowOf input.eventTS * 3600)) input.eventTS)
          input.eventBody := by
  obtain ⟨store2, fs1, seen0, hf1, hr2, hw2, hc2, hd2, hseen, hfs, heq⟩ :=
    flushAccept_nofault env input queue store fs b saved hf hS
  have hbody : (b.add store2 input).blockBody = b.blockBody
      ++ entryBytes (Compress (timeUnix (windowOf input.eventTS * 3600)) input.eventTS)
        input.eventBody := by
    simp only [Builder.add, appendEntry_eq]
    rw [hr2.1, hw2]
  have hcnt : (b.add store2 input).entriesCount = b.entriesCount + 1 := by
    simp only [Builder.add]
    omega
  refine ⟨store2, b.add store2 input, hr2, hw2, hc2, hseen ▸ hd2, ?_, hcnt, hbody⟩
  unfold flushTurn
  rw [if_neg hlate, heq, ← hfs, if_neg (by rw [hseen, hacc]; simp), if_neg]
  rw [hcnt, hbody, List.length_append, entryBytes_length]
  unfold entryHeaderSize at hsize
  intro h
  rcases h with h | h
  · omega
  · push_cast at h hsize
    omega

theorem switchFile_same (env : Env) (store : Store) (fs : Fs) (ts : Int)
    (h : windowOf ts = store.currentWindow) : switchFile env store fs ts = (true, store, fs) := by
  unfold switchFile
  simp only
  rw [if_pos (show goDiv (Unix ts) 3600 = store.currentWindow from h)]

/-- The loop of `flushOnce` over events of the store's window that are all
accepted and fit into the pending block: one block is saved, after the last
of them. -/
theorem flushLoop_one_window (env : Env) (w : Int) :
    ∀ (queue : List evtInput) (store : Store) (dir : List (Name × Bytes)) (b : Builder)
      (saved : List SaveCall) (seen : List Bytes),
      store.ready env → store.currentWindow = w → store.currentDiscr = some seen →
      (∀ e ∈ queue, windowOf e.eventTS = w) → allAccepted env seen queue = true →
      b.entriesCount + queue.length ≤ store.Config.BlockEntriesCountLimit →
      store.Config.BlockEntriesCountLimit < 65536 →
      ((b.blockBody.length + encodedSize queue : Nat) : Int) ≤ store.Config.BlockSizeLimit →
      0 < b.blockBody.length + queue.length →
      ∃ lo hi store1 c,
        flushLoop env queue store ⟨dir, []⟩ b saved
          = ⟨true, b.entriesCount + queue.length, false, store1,
              ⟨dirAppend dir (env.format (w * 3600))
                (saveBlockBytes env.lz (b.entriesCount + queue.length) lo hi
                  (b.blockBody ++ entriesBytes (windowEntries w queue))), []⟩,
              [], saved ++ [c]⟩ ∧
        store1.ready env ∧ store1.currentWindow = w := by
  intro queue
  induction queue with
  | nil =>
    intro store dir b saved seen hr hw hd _ _ _ _ _ hpos
    simp only [List.length_nil, Nat.add_zero] at hpos
    unfold flushLoop
    rw [if_pos hpos, flushSave_nofault env store ⟨dir, []⟩ [] b saved
      (env.format (w * 3600)) rfl (hw ▸ hr.2.1)]
    exact ⟨b.minCTS, b.maxCTS, store, b.call store,
      by simp [windowEntries, entriesBytes], hr, hw⟩
  | cons input queue ih =>
    intro store dir b saved seen hr hw hd hwin hacc hcount hlim hsize _
    have hwi : windowOf input.eventTS = store.currentWindow := by
      rw [hw]; exact hwin input (by simp)
    simp only [allAccepted, Bool.and_eq_true] at hacc
    simp only [encodedSize, List.length_cons] at hsize hcount
    obtain ⟨store2, b2, hr2, hw2, hc2, hd2, hturn, hcnt, hbody⟩ :=
      flushTurn_accepts env input queue store ⟨dir, []⟩ b saved rfl (Or.inl hr)
        (fun h => window_not_late input.eventTS store.currentWindow hwi (hr.1 ▸ h.1))
        (by rw [if_pos hwi, hd]; exact hacc.1) (by omega) hlim
        (by push_cast at hsize ⊢; omega)
    rw [switchFile_same env store _ _ hwi] at hturn
    rw [if_pos hwi, hd] at hd2
    unfold flushLoop
    rw [hturn]
    simp only
    obtain ⟨lo, hi, store1, c, heq, hr1, hw1⟩ := ih store2 dir b2 saved (seen ++ [input.eventBody])
      hr2 (by rw [hw2, hwi, hw]) hd2 (fun e he => hwin e (List.mem_cons_of_mem _ he)) hacc.2
      (by rw [hc2, hcnt]; omega) (by rw [hc2]; exact hlim)
      (by rw [hc2, hbody, List.length_append, entryBytes_length]
          unfold entryHeaderSize at hsize
          push_cast at hsize ⊢; omega)
      (by rw [hbody, List.length_append, entryBytes_length]; omega)
    refine ⟨lo, hi, store1, c, ?_, hr1, hw1⟩
    rw [heq, hcnt, hbody]
    have hwe : windowEntries w (input :: queue)
        = (Compress (timeUnix (w * 3600)) input.eventTS, input.eventBody)
          :: windowEntries w queue := rfl
    rw [hwe, entriesBytes, hwi, hw]
    simp only [List.length_cons, List.append_assoc, Nat.add_assoc, Nat.add_comm 1]

theorem flushOnce_empty_queue (env : Env) (store : Store) (fs : Fs) :
    flushOnce env store fs [] = ⟨false, 0, false, store, fs, [], []⟩ := rfl

/-- Two calls of `flushOnce`, the first telling to continue and leaving the
queue empty, end the loop of `flushInputQueue`. -/
theorem flushRounds_two (env : Env) (fuel : Nat) (store : Store) (fs : Fs)
    (queue : List evtInput) (total : Int) (saved : List SaveCall)
    (hp : (flushOnce env store fs queue).panicked = false)
    (hc : (flushOnce env store fs queue).shouldContinue = true)
    (hq : (flushOnce env store fs queue).queue = []) :
    flushRounds env (fuel + 2) store fs queue total saved
      = ⟨false, false, wrapInt (total + (flushOnce env store fs queue).entriesCount),
          (flushOnce env store fs queue).store, (flushOnce env store fs queue).fs, [],
          saved ++ (flushOnce env store fs queue).saved ++ []⟩ := by
  rw [flushRounds]
  rw [if_neg (by rw [hp]; simp), if_neg (by rw [hc]; simp), hq, flushRounds]
  simp only [flushOnce_empty_queue, Bool.false_eq_true, if_false, if_true]

/-- C18, amended: on a store fresh from `NewStore` with an empty directory,
for a queue of `n` events, `1 ≤ n ≤ 100`, that share one hour window other
than window 0, are all accepted and whose entries take at most
`BlockSizeLimit` bytes, `flushInputQueue` (no file operation failing) leaves
exactly one file: the 7-byte file header followed by one block whose
`EntriesCount()` is `n`. -/
theorem flushInputQueue_one_window_one_block (env : Env) (queue : List evtInput) (w : Int)
    (hn : 1 ≤ queue.length) (hn100 : queue.length ≤ 100)
    (hwin : ∀ e ∈ queue, windowOf e.eventTS = w) (hw0 : w ≠ 0)
    (hacc : allAccepted env [] queue = true)
    (hsize : (encodedSize queue : Int) ≤ NewStore.Config.BlockSizeLimit) :
    ∃ lo hi,
      (flushInputQueue env NewStore ⟨[], []⟩ queue).fs.dir
        = [(env.format (w * 3600), fileHeader (timeUnix (w * 3600))
            ++ saveBlockBytes env.lz queue.length lo hi (entriesBytes (windowEntries w queue)))] ∧
      (fileHeader (timeUnix (w * 3600))).length = 7 ∧
      EventBlock.EntriesCount
        (saveBlockBytes env.lz queue.length lo hi (entriesBytes (windowEntries w queue)))
        = some queue.length ∧
      (flushInputQueue env NewStore ⟨[], []⟩ queue).panicked = false ∧
      (flushInputQueue env NewStore ⟨[], []⟩ queue).queue = [] ∧
      (flushInputQueue env NewStore ⟨[], []⟩ queue).saved.length = 1 := by
  cases queue with
  | nil => simp at hn
  | cons input rest =>
    have hwi : windowOf input.eventTS ≠ NewStore.currentWindow := by
      rw [hwin input (by simp)]; exact hw0
    simp only [allAccepted, Bool.and_eq_true] at hacc
    simp only [encodedSize, List.length_cons] at hsize hn100
    have hlimit : NewStore.Config.BlockEntriesCountLimit = 65534 := rfl
    obtain ⟨store2, b2, hr2, hw2, hc2, hd2, hturn, hcnt, hbody⟩ :=
      flushTurn_accepts env input rest NewStore ⟨[], []⟩ Builder.init [] rfl
        (Or.inr ⟨rfl, hwi⟩) (fun h => by simp [Builder.init] at h)
        (by rw [if_neg hwi]; exact hacc.1) (by rw [hlimit]; simp [Builder.init])
        (by rw [hlimit]; omega)
        (by simp only [Builder.init, List.length_nil, Nat.zero_add]
            push_cast at hsize ⊢; omega)
    rw [switchFile_nofault env NewStore ⟨[], []⟩ input.eventTS rfl (Or.inl rfl) hwi,
      hwin input (by simp)] at hturn
    rw [if_neg hwi] at hd2
    rw [hwin input (by simp)] at hw2 hbody
    have hdir : dirAppend (if dirHas ([] : List (Name × Bytes)) (env.format (w * 3600)) then []
          else dirCreate [] (env.format (w * 3600))) (env.format (w * 3600))
          (fileHeader (timeUnix (w * 3600)))
        = [(env.format (w * 3600), fileHeader (timeUnix (w * 3600)))] := by
      simp [dirHas, dirCreate, dirAppend]
    simp only [hdir] at hturn
    obtain ⟨lo, hi, store1, c, heq, hr1, hw1⟩ := flushLoop_one_window env w rest store2
      [(env.format (w * 3600), fileHeader (timeUnix (w * 3600)))] b2 [] ([] ++ [input.eventBody])
      hr2 hw2 hd2 (fun e he => hwin e (List.mem_cons_of_mem _ he)) hacc.2
      (by rw [hc2, hlimit, hcnt]; simp only [Builder.init]; omega)
      (by rw [hc2, hlimit]; omega)
      (by rw [hc2, hbody, List.length_append, entryBytes_length]
          simp only [Builder.init, List.length_nil, Nat.zero_add]
          unfold entryHeaderSize at hsize
          push_cast at hsize ⊢; omega)
      (by rw [hbody, List.length_append, entryBytes_length]; omega)
    have hfo : flushOnce env NewStore ⟨[], []⟩ (input :: rest)
        = ⟨true, b2.entriesCount + rest.length, false, store1,
            ⟨dirAppend [(env.format (w * 3600), fileHeader (timeUnix (w * 3600)))]
              (env.format (w * 3600))
              (saveBlockBytes env.lz (b2.entriesCount + rest.length) lo hi
                (b2.blockBody ++ entriesBytes (windowEntries w rest))), []⟩,
            [], [] ++ [c]⟩ := by
      unfold flushOnce flushLoop
      rw [hturn]
      exact heq
    have hrounds := flushRounds_two env rest.length NewStore ⟨[], []⟩ (input :: rest) 0 []
      (by rw [hfo]) (by rw [hfo]) (by rw [hfo])
    have hcount : b2.entriesCount + rest.length = (input :: rest).length := by
      rw [hcnt]; simp only [Builder.init, List.length_cons]; omega
    have hbytes : b2.blockBody ++ entriesBytes (windowEntries w rest)
        = entriesBytes (windowEntries w (input :: rest)) := by
      rw [hbody]
      simp [Builder.init, windowEntries, entriesBytes]
    rw [hfo, hcount, hbytes] at hrounds
    refine ⟨lo, hi, ?_, ?_, ?_, ?_, ?_, ?_⟩
    · unfold flushInputQueue
      rw [show (input :: rest).length + 1 = rest.length + 2 from rfl, hrounds]
      simp [dirAppend]
    · simp [fileHeader]
    · exact saveBlockBytes_EntriesCount _ _ _ _ _ (by simp only [List.length_cons]; omega)
    · unfold flushInputQueue
      rw [show (input :: rest).length + 1 = rest.length + 2 from rfl, hrounds]
    · unfold flushInputQueue
      rw [show (input :: rest).length + 1 = rest.length + 2 from rfl, hrounds]
    · unfold flushInputQueue
      rw [show (input :: rest).length + 1 = rest.length + 2 from rfl, hrounds]
      simp

/-- C18 on the two events of the test `Test_add_multiple`: one file
`201701010800` of 7 + 18 + 48 bytes. -/
theorem flushInputQueue_one_window_one_block_witness :
    (1 ≤ addMultipleQueue.length ∧ addMultipleQueue.length ≤ 100 ∧
      (∀ e ∈ addMultipleQueue, windowOf e.eventTS = 412008) ∧ (412008 : Int) ≠ 0 ∧
      allAccepted testEnv [] addMultipleQueue = true ∧
      (encodedSize addMultipleQueue : Int) ≤ NewStore.Config.BlockSizeLimit) ∧
    ((flushInputQueue testEnv NewStore ⟨[], []⟩ addMultipleQueue).fs.dir.map
      (fun f => (f.1, f.2.length))) = [(ascii "201701010800", 73)] ∧
    ∃ lo hi,
      (flushInputQueue testEnv NewStore ⟨[], []⟩ addMultipleQueue).fs.dir
        = [(testEnv.format (412008 * 3600), fileHeader (timeUnix (412008 * 3600))
            ++ saveBlockBytes testEnv.lz addMultipleQueue.length lo hi
              (entriesBytes (windowEntries 412008 addMultipleQueue)))] ∧
      (fileHeader (timeUnix (412008 * 3600))).length = 7 ∧
      EventBlock.EntriesCount
        (saveBlockBytes testEnv.lz addMultipleQueue.length lo hi
          (entriesBytes (windowEntries 412008 addMultipleQueue)))
        = some addMultipleQueue.length ∧
      (flushInputQueue testEnv NewStore ⟨[], []⟩ addMultipleQueue).panicked = false ∧
      (flushInputQueue testEnv NewStore ⟨[], []⟩ addMultipleQueue).queue = [] ∧
      (flushInputQueue testEnv NewStore ⟨[], []⟩ addMultipleQueue).saved.length = 1 :=
  ⟨⟨by decide, by decide, by decide, by decide, by decide, by decide⟩, by decide,
    flushInputQueue_one_window_one_block testEnv addMultipleQueue 412008 (by decide)
      (by decide) (by decide) (by decide) (by decide) (by decide)⟩

/-- C18 as stated fails for the window that starts at the Unix epoch: one
accepted event of window 0 queued on a new store makes `flushInputQueue`
panic at the nil discriminator and leaves the directory empty. -/
theorem flushInputQueue_epoch_no_file_counterexample :
    (epochQueue.take 1).length = 1 ∧
    (∀ e ∈ epochQueue.take 1, windowOf e.eventTS = 0) ∧
    allAccepted testEnv [] (epochQueue.take 1) = true ∧
    (encodedSize (epochQueue.take 1) : Int) ≤ NewStore.Config.BlockSizeLimit ∧
    (flushInputQueue testEnv NewStore ⟨[], []⟩ (epochQueue.take 1)).fs.dir = [] ∧
    (flushInputQueue testEnv NewStore ⟨[], []⟩ (epochQueue.take 1)).panicked = true := by
  decide

/-! ## How far `List` can exceed `limit` -/

theorem EntriesCount_lt (h : Bytes) (count : Nat) (hc : EventBlock.EntriesCount h = some count) :
    count < 65536 := by
  unfold EventBlock.EntriesCount at hc
  cases hs : sliceFrom h 8 with
  | none => simp [hs] at hc
  | some b =>
    rw [hs] at hc
    change uint16 b = some count at hc
    unfold uint16 at hc
    split at hc
    · simp at hc
    · have := getLE_lt (b.take 2)
      have hl : (b.take 2).length ≤ 2 := by simp
      have hp : 256 ^ (b.take 2).length ≤ 256 ^ 2 := Nat.pow_le_pow_right (by norm_num) hl
      simp only [Option.some.injEq] at hc
      omega

/-- The outcomes of one turn of the scan of `List`. -/
theorem scanTurn_shape (startTime endTime skip limit : Int) (tmpl content : Bytes)
    (baseTime : Int) (pos : Nat) (rc : Int) :
    scanTurn startTime endTime skip limit tmpl content baseTime pos rc = ScanTurn.eof ∨
    scanTurn startTime endTime skip limit tmpl content baseTime pos rc = ScanTurn.error ∨
    scanTurn startTime endTime skip limit tmpl content baseTime pos rc = ScanTurn.panic ∨
    ∃ count pos1 : Nat, count < 65536 ∧ pos + 18 ≤ pos1 ∧ pos + 18 ≤ content.length ∧
      ((rc < skip ∧ scanTurn startTime endTime skip limit tmpl content baseTime pos rc
          = ScanTurn.skipped pos1 (wrapInt (rc + count))) ∨
       (¬ rc < skip ∧ scanTurn startTime endTime skip limit tmpl content baseTime pos rc
          = ScanTurn.skipped pos1 rc) ∨
       (¬ rc < skip ∧ ∃ e, e.count = count ∧ ¬ wrapInt (rc + count) > wrapInt (skip + limit) ∧
          scanTurn startTime endTime skip limit tmpl content baseTime pos rc
            = ScanTurn.emitted e pos1 (wrapInt (rc + count))) ∨
       (¬ rc < skip ∧ ∃ e, e.count = count ∧ wrapInt (rc + count) > wrapInt (skip + limit) ∧
          scanTurn startTime endTime skip limit tmpl content baseTime pos rc
            = ScanTurn.last e)) := by
  unfold scanTurn
  by_cases h0 : content.length - pos = 0
  · simp [h0]
  · by_cases h1 : content.length - pos < blockHeaderSize
    · simp [h0, h1]
    · simp only [if_neg h0, if_neg h1]
      cases hc : EventBlock.EntriesCount ((content.drop pos).take blockHeaderSize) with
      | none => simp
      | some count =>
        cases hlo : EventBlock.MinCTS ((content.drop pos).take blockHeaderSize) with
        | none => simp
        | some lo =>
          cases hhi : EventBlock.MaxCTS ((content.drop pos).take blockHeaderSize) with
          | none => simp
          | some hi =>
            cases hs : EventBlock.CompressedSize ((content.drop pos).take blockHeaderSize) with
            | none => simp
            | some csize =>
              simp only
              have hcount := EntriesCount_lt _ _ hc
              have hlen : pos + 18 ≤ content.length := by
                simp only [blockHeaderSize] at h1; omega
              have hpos1 : pos + 18 ≤ pos + blockHeaderSize + csize := by
                simp only [blockHeaderSize]; omega
              by_cases hrc : rc < skip
              · right; right; right
                refine ⟨count, pos + blockHeaderSize + csize, hcount, hpos1, hlen, Or.inl ⟨hrc, ?_⟩⟩
                simp [hrc]
              · by_cases hskip : (decide (Decompress baseTime lo > endTime)
                    || decide (Decompress baseTime hi < startTime)) = true
                · right; right; right
                  refine ⟨count, pos + blockHeaderSize + csize, hcount, hpos1, hlen,
                    Or.inr (Or.inl ⟨hrc, ?_⟩)⟩
                  have : (decide (rc < skip) || decide (Decompress baseTime lo > endTime)
                      || decide (Decompress baseTime hi < startTime)) = true := by
                    rw [Bool.or_assoc, hskip, Bool.or_true]
                  rw [if_pos this]
                  simp [hrc]
                · have : ¬ (decide (rc < skip) || decide (Decompress baseTime lo > endTime)
                      || decide (Decompress baseTime hi < startTime)) = true := by
                    rw [Bool.or_assoc]
                    simp only [Bool.or_eq_true, decide_eq_true_eq, not_or]
                    exact ⟨hrc, by simpa using hskip⟩
                  rw [if_neg this]
                  by_cases htl : tmpl.length < 20
                  · rw [if_pos htl]; simp
                  · rw [if_neg htl]
                    by_cases hpay : content.length - (pos + blockHeaderSize) < csize
                    · rw [if_pos hpay]; simp
                    · rw [if_neg hpay]
                      have hread : (if decide (rc < skip) = true then wrapInt (rc + count)
                          else rc) = rc := by simp [hrc]
                      rw [hread]
                      right; right; right
                      refine ⟨count, pos + blockHeaderSize + csize, hcount, hpos1, hlen,
                        Or.inr (Or.inr ?_)⟩
                      by_cases hlast : wrapInt (rc + count) > wrapInt (skip + limit)
                      · rw [if_pos hlast]
                        exact Or.inr ⟨hrc, _, by simp [Emitted.count, hc], hlast, rfl⟩
                      · rw [if_neg hlast]
                        exact Or.inl ⟨hrc, _, by simp [Emitted.count, hc], hlast, rfl⟩

theorem emittedEntries_append (a b : List Emitted) :
    emittedEntries (a ++ b) = emittedEntries a + emittedEntries b := by
  induction a with
  | nil => simp [emittedEntries]
  | cons e es ih => simp [emittedEntries, ih, Nat.add_assoc]

theorem emittedEntries_dropLast_le (out : List Emitted) :
    emittedEntries out.dropLast ≤ emittedEntries out := by
  rcases List.eq_nil_or_concat out with h | ⟨l, a, h⟩
  · rw [h]; simp
  · rw [h, List.concat_eq_append, List.dropLast_concat, emittedEntries_append]
    omega

theorem withinLimit_le (skip limit rc : Int) (out : List Emitted) (hlimit : 0 ≤ limit)
    (h : withinLimit skip limit rc out) : (emittedEntries out : Int) ≤ limit := by
  rcases h with h | h
  · rw [h]; exact hlimit
  · omega

theorem countRoom_mono (cap rc : Int) (m n : Nat) (h : countRoom cap rc m) (hnm : n ≤ m) :
    countRoom cap rc n := by
  unfold countRoom at *
  omega

/-- The scan of one file keeps the entries written to the buffer within
`limit`, the block of the early return apart, as long as the count cannot
overflow. -/
theorem scanBlocks_withinLimit (startTime endTime skip limit : Int) (tmpl content : Bytes)
    (baseTime cap : Int) (rest : Nat) (hskip : 0 ≤ skip) (hlimit : 0 ≤ limit)
    (hsum : skip + limit < 2 ^ 63) (hcap : cap < 18 * 2 ^ 63) :
    ∀ (fuel pos : Nat) (rc : Int) (out : List Emitted),
      countRoom cap rc ((content.length - pos) + rest) → withinLimit skip limit rc out →
      (∀ rc1 out1, scanBlocks startTime endTime skip limit tmpl content baseTime fuel pos rc out
          = Scan.goOn rc1 out1 → countRoom cap rc1 rest ∧ withinLimit skip limit rc1 out1) ∧
      (∀ out1, scanBlocks startTime endTime skip limit tmpl content baseTime fuel pos rc out
          = Scan.finished out1 → (emittedEntries out1.dropLast : Int) ≤ limit) := by
  intro fuel
  induction fuel with
  | zero =>
    intro pos rc out _ _
    constructor
    · intro rc1 out1 h; simp [scanBlocks] at h
    · intro out1 h; simp [scanBlocks] at h
  | succ fuel ih =>
    intro pos rc out hroom hwl
    rw [scanBlocks]
    rcases scanTurn_shape startTime endTime skip limit tmpl content baseTime pos rc with
      h | h | h | ⟨count, pos1, hcount, hp1, hlen, hcases⟩
    · rw [h]
      constructor
      · intro rc1 out1 heq
        simp only [Scan.goOn.injEq] at heq
        rw [← heq.1, ← heq.2]
        exact ⟨countRoom_mono cap rc _ _ hroom (by omega), hwl⟩
      · intro out1 heq; simp at heq
    · rw [h]
      exact ⟨fun _ _ heq => by simp at heq, fun _ heq => by simp at heq⟩
    · rw [h]
      exact ⟨fun _ _ heq => by simp at heq, fun _ heq => by simp at heq⟩
    · have h63 : (2 : Int) ^ 63 = 9223372036854775808 := by norm_num
      have hr0 : 0 ≤ rc := hroom.1
      have hr1 : 18 * rc + 65535 * (((content.length - pos) + rest : Nat) : Int) ≤ cap := hroom.2
      have hrem : content.length - pos1 + 18 ≤ content.length - pos := by omega
      have hnowrap : wrapInt (rc + count) = rc + count := by
        apply wrapInt_of_range
        · omega
        · push_cast at hr1; omega
      have hsl : wrapInt (skip + limit) = skip + limit :=
        wrapInt_of_range _ (by omega) hsum
      have hroom1 : countRoom cap (rc + count) ((content.length - pos1) + rest) := by
        refine ⟨by omega, ?_⟩
        push_cast at hr1 ⊢
        omega
      have hroom2 : countRoom cap rc ((content.length - pos1) + rest) := by
        refine ⟨hr0, ?_⟩
        push_cast at hr1 ⊢
        omega
      clear hroom
      rcases hcases with ⟨hrc, h⟩ | ⟨hrc, h⟩ | ⟨hrc, e, hec, hle, h⟩ | ⟨hrc, e, hec, hgt, h⟩
      · rw [h, hnowrap]
        refine ih pos1 (rc + count) out hroom1 (Or.inl ?_)
        rcases hwl with h0 | h1
        · exact h0
        · omega
      · rw [h]
        exact ih pos1 rc out hroom2 hwl
      · rw [h, hnowrap]
        rw [hnowrap, hsl] at hle
        refine ih pos1 (rc + count) (out ++ [e]) hroom1 (Or.inr ?_)
        rw [emittedEntries_append]
        simp only [emittedEntries, Nat.add_zero, hec]
        rcases hwl with h0 | h1
        · rw [h0]; push_cast; omega
        · push_cast; omega
      · rw [h]
        constructor
        · intro rc1 out1 heq; simp at heq
        · intro out1 heq
          simp only [Scan.finished.injEq] at heq
          rw [← heq, List.dropLast_concat]
          exact withinLimit_le skip limit rc out hlimit hwl

/-- The scan of the directory keeps the entries of all returned blocks but
the last within `limit`, as long as the count cannot overflow. -/
theorem listFiles_withinLimit (env : Env) (startTime endTime skip limit cap : Int)
    (hskip : 0 ≤ skip) (hlimit : 0 ≤ limit) (hsum : skip + limit < 2 ^ 63)
    (hcap : cap < 18 * 2 ^ 63) :
    ∀ (dir : List (Name × Bytes)) (rc : Int) (out out1 : List Emitted),
      countRoom cap rc (dirBytes dir) → withinLimit skip limit rc out →
      listFiles env startTime endTime skip limit dir rc out = ListResult.ok out1 →
      (emittedEntries out1.dropLast : Int) ≤ limit := by
  intro dir
  induction dir with
  | nil =>
    intro rc out out1 _ hwl h
    simp only [listFiles, ListResult.ok.injEq] at h
    rw [← h]
    have := withinLimit_le skip limit rc out hlimit hwl
    have := emittedEntries_dropLast_le out
    omega
  | cons f rest ih =>
    intro rc out out1 hroom hwl h
    obtain ⟨filename, content⟩ := f
    have hrest : countRoom cap rc (dirBytes rest) :=
      countRoom_mono cap rc _ _ hroom (by simp [dirBytes])
    rw [listFiles] at h
    cases hp : env.parse filename with
    | none =>
      simp only [hp] at h
      exact ih rc out out1 hrest hwl h
    | some sec =>
      simp only [hp] at h
      by_cases h1 : timeUnix sec + Hour < startTime
      · rw [if_pos h1] at h
        exact ih rc out out1 hrest hwl h
      · rw [if_neg h1] at h
        by_cases h2 : timeUnix sec > endTime
        · rw [if_pos h2] at h
          exact ih rc out out1 hrest hwl h
        · rw [if_neg h2] at h
          by_cases h3 : content.length - 3 < 4
          · rw [if_pos h3] at h; simp at h
          · rw [if_neg h3] at h
            cases hb : uint32 (content.drop 3) with
            | none => simp [hb] at h
            | some base =>
              simp only [hb] at h
              have hscan := scanBlocks_withinLimit startTime endTime skip limit
                (filename ++ zeros8) content (timeUnix base) cap (dirBytes rest) hskip hlimit
                hsum hcap (content.length + 1) fileHeaderSize rc out
                (countRoom_mono cap rc _ _ hroom (by simp only [dirBytes]; omega)) hwl
              cases hs : scanBlocks startTime endTime skip limit (filename ++ zeros8) content
                  (timeUnix base) (content.length + 1) fileHeaderSize rc out with
              | goOn rc1 outa =>
                rw [hs] at h
                obtain ⟨hr1, hw1⟩ := hscan.1 rc1 outa hs
                exact ih rc1 outa out1 hr1 hw1 h
              | finished outa =>
                rw [hs] at h
                simp only [ListResult.ok.injEq] at h
                rw [← h]
                exact hscan.2 outa hs
              | error => rw [hs] at h; simp at h
              | panic => rw [hs] at h; simp at h
              | outOfFuel => rw [hs] at h; simp at h

/-- A turn that writes no block does not look at `limit`. -/
theorem scanTurn_limit (startTime endTime skip limit limit1 : Int) (tmpl content : Bytes)
    (baseTime : Int) (pos : Nat) (rc : Int)
    (h : (scanTurn startTime endTime skip limit tmpl content baseTime pos rc).emits = false) :
    scanTurn startTime endTime skip limit1 tmpl content baseTime pos rc
      = scanTurn startTime endTime skip limit tmpl content baseTime pos rc := by
  unfold scanTurn at h ⊢
  by_cases h0 : content.length - pos = 0
  · simp only [if_pos h0]
  · by_cases h1 : content.length - pos < blockHeaderSize
    · simp only [if_neg h0, if_pos h1]
    · simp only [if_neg h0, if_neg h1] at h ⊢
      cases hc : EventBlock.EntriesCount ((content.drop pos).take blockHeaderSize) with
      | none => simp only
      | some count =>
        cases hlo : EventBlock.MinCTS ((content.drop pos).take blockHeaderSize) with
        | none => simp only
        | some lo =>
          cases hhi : EventBlock.MaxCTS ((content.drop pos).take blockHeaderSize) with
          | none => simp only
          | some hi =>
            cases hs : EventBlock.CompressedSize ((content.drop pos).take blockHeaderSize) with
            | none => simp only
            | some csize =>
              simp only [hc, hlo, hhi, hs] at h ⊢
              by_cases hskip : (decide (rc < skip) || decide (Decompress baseTime lo > endTime)
                  || decide (Decompress baseTime hi < startTime)) = true
              · simp only [if_pos hskip]
              · simp only [if_neg hskip] at h ⊢
                by_cases htl : tmpl.length < 20
                · simp only [if_pos htl]
                · simp only [if_neg htl] at h ⊢
                  by_cases hpay : content.length - (pos + blockHeaderSize) < csize
                  · simp only [if_pos hpay]
                  · simp only [if_neg hpay] at h
                    by_cases hl : wrapInt ((if decide (rc < skip) = true
                        then wrapInt (rc + count) else rc) + count) > wrapInt (skip + limit)
                    · rw [if_pos hl] at h
                      exact absurd h (by simp [ScanTurn.emits])
                    · rw [if_neg hl] at h
                      exact absurd h (by simp [ScanTurn.emits])

theorem scanBlocks_length_le (startTime endTime skip limit : Int) (tmpl content : Bytes)
    (baseTime : Int) :
    ∀ (fuel pos : Nat) (rc : Int) (out : List Emitted),
      (∀ rc1 out1, scanBlocks startTime endTime skip limit tmpl content baseTime fuel pos rc out
          = Scan.goOn rc1 out1 → out.length ≤ out1.length) ∧
      (∀ out1, scanBlocks startTime endTime skip limit tmpl content baseTime fuel pos rc out
          = Scan.finished out1 → out.length < out1.length) := by
  intro fuel
  induction fuel with
  | zero =>
    intro pos rc out
    exact ⟨fun _ _ h => by simp [scanBlocks] at h, fun _ h => by simp [scanBlocks] at h⟩
  | succ fuel ih =>
    intro pos rc out
    rw [scanBlocks]
    cases ht : scanTurn startTime endTime skip limit tmpl content baseTime pos rc with
    | eof =>
      exact ⟨fun _ _ h => by simp only [Scan.goOn.injEq] at h; rw [h.2],
        fun _ h => by simp at h⟩
    | error => exact ⟨fun _ _ h => by simp at h, fun _ h => by simp at h⟩
    | panic => exact ⟨fun _ _ h => by simp at h, fun _ h => by simp at h⟩
    | skipped pos1 rc1 => exact ih pos1 rc1 out
    | emitted e pos1 rc1 =>
      simp only
      have := ih pos1 rc1 (out ++ [e])
      simp only [List.length_append, List.length_singleton] at this
      exact ⟨fun a b h => by have := this.1 a b h; omega,
        fun a h => by have := this.2 a h; omega⟩
    | last e =>
      exact ⟨fun _ _ h => by simp at h,
        fun _ h => by simp only [Scan.finished.injEq] at h; rw [← h]; simp⟩

theorem listFiles_length_le (env : Env) (startTime endTime skip limit : Int) :
    ∀ (dir : List (Name × Bytes)) (rc : Int) (out out1 : List Emitted),
      listFiles env startTime endTime skip limit dir rc out = ListResult.ok out1 →
      out.length ≤ out1.length := by
  intro dir
  induction dir with
  | nil =>
    intro rc out out1 h
    simp only [listFiles, ListResult.ok.injEq] at h
    rw [h]
  | cons f rest ih =>
    intro rc out out1 h
    obtain ⟨filename, content⟩ := f
    rw [listFiles] at h
    cases hp : env.parse filename with
    | none => simp only [hp] at h; exact ih rc out out1 h
    | some sec =>
      simp only [hp] at h
      split at h
      · exact ih rc out out1 h
      · split at h
        · exact ih rc out out1 h
        · split at h
          · simp at h
          · cases hb : uint32 (content.drop 3) with
            | none => simp [hb] at h
            | some base =>
              simp only [hb] at h
              have hlen := scanBlocks_length_le startTime endTime skip limit (filename ++ zeros8)
                content (timeUnix base) (content.length + 1) fileHeaderSize rc out
              cases hs : scanBlocks startTime endTime skip limit (filename ++ zeros8) content
                  (timeUnix base) (content.length + 1) fileHeaderSize rc out with
              | goOn rc1 outa =>
                rw [hs] at h
                have := hlen.1 rc1 outa hs
                have := ih rc1 outa out1 h
                omega
              | finished outa =>
                rw [hs] at h
                simp only [ListResult.ok.injEq] at h
                rw [← h]
                have := hlen.2 outa hs
                omega
              | error => rw [hs] at h; simp at h
              | panic => rw [hs] at h; simp at h
              | outOfFuel => rw [hs] at h; simp at h

/-- A scan of a file that ends with the buffer still empty ends in the same
way for every `limit`. -/
theorem scanBlocks_empty_limit (startTime endTime skip limit limit1 : Int)
    (tmpl content : Bytes) (baseTime : Int) :
    ∀ (fuel pos : Nat) (rc rc1 : Int),
      scanBlocks startTime endTime skip limit tmpl content baseTime fuel pos rc []
        = Scan.goOn rc1 [] →
      scanBlocks startTime endTime skip limit1 tmpl content baseTime fuel pos rc []
        = Scan.goOn rc1 [] := by
  intro fuel
  induction fuel with
  | zero => intro pos rc rc1 h; simp [scanBlocks] at h
  | succ fuel ih =>
    intro pos rc rc1 h
    rw [scanBlocks] at h ⊢
    cases ht : scanTurn startTime endTime skip limit tmpl content baseTime pos rc with
    | eof =>
      rw [scanTurn_limit _ _ _ _ _ _ _ _ _ _ (by rw [ht]; rfl), ht]
      rw [ht] at h
      exact h
    | error => rw [ht] at h; simp at h
    | panic => rw [ht] at h; simp at h
    | skipped pos1 rc2 =>
      rw [scanTurn_limit _ _ _ _ _ _ _ _ _ _ (by rw [ht]; rfl), ht]
      rw [ht] at h
      exact ih pos1 rc2 rc1 h
    | emitted e pos1 rc2 =>
      rw [ht] at h
      have := (scanBlocks_length_le startTime endTime skip limit tmpl content baseTime fuel pos1
        rc2 ([] ++ [e])).1 rc1 [] h
      simp at this
    | last e => rw [ht] at h; simp at h

/-- When `List` returns an empty buffer it does so for every `limit`. -/
theorem listFiles_empty_limit (env : Env) (startTime endTime skip limit limit1 : Int) :
    ∀ (dir : List (Name × Bytes)) (rc : Int),
      listFiles env startTime endTime skip limit dir rc [] = ListResult.ok [] →
      listFiles env startTime endTime skip limit1 dir rc [] = ListResult.ok [] := by
  intro dir
  induction dir with
  | nil => intro rc _; rfl
  | cons f rest ih =>
    intro rc h
    obtain ⟨filename, content⟩ := f
    rw [listFiles] at h ⊢
    cases hp : env.parse filename with
    | none => simp only [hp] at h ⊢; exact ih rc h
    | some sec =>
      simp only [hp] at h ⊢
      by_cases h1 : timeUnix sec + Hour < startTime
      · rw [if_pos h1] at h ⊢; exact ih rc h
      · rw [if_neg h1] at h ⊢
        by_cases h2 : timeUnix sec > endTime
        · rw [if_pos h2] at h ⊢; exact ih rc h
        · rw [if_neg h2] at h ⊢
          by_cases h3 : content.length - 3 < 4
          · rw [if_pos h3] at h; simp at h
          · rw [if_neg h3] at h ⊢
            cases hb : uint32 (content.drop 3) with
            | none => simp [hb] at h
            | some base =>
              simp only [hb] at h ⊢
              have hlen := scanBlocks_length_le startTime endTime skip limit (filename ++ zeros8)
                content (timeUnix base) (content.length + 1) fileHeaderSize rc []
              cases hs : scanBlocks startTime endTime skip limit (filename ++ zeros8) content
                  (timeUnix base) (content.length + 1) fileHeaderSize rc [] with
              | goOn rc1 outa =>
                rw [hs] at h
                have hout : outa = [] := by
                  have := listFiles_length_le env startTime endTime skip limit rest rc1 outa [] h
                  exact List.length_eq_zero.mp (by simpa using this)
                subst hout
                rw [scanBlocks_empty_limit startTime endTime skip limit limit1 _ _ _ _ _ _ _ hs]
                exact ih rc1 h
              | finished outa =>
                rw [hs] at h
                simp only [ListResult.ok.injEq] at h
                have := hlen.2 outa hs
                rw [h] at this
                simp at this
              | error => rw [hs] at h; simp at h
              | panic => rw [hs] at h; simp at h
              | outOfFuel => rw [hs] at h; simp at h

/-! ## The count of a block of `2^16` entries -/

theorem allAccepted_testEnv (queue : List evtInput) :
    ∀ seen, allAccepted testEnv seen queue = true := by
  induction queue with
  | nil => intro seen; rfl
  | cons e q ih =>
    intro seen
    simp only [allAccepted, Bool.and_eq_true]
    exact ⟨rfl, ih _⟩

theorem encodedSize_replicate (n : Nat) (e : evtInput) :
    encodedSize (List.replicate n e) = n * (entryHeaderSize + e.eventBody.length) := by
  induction n with
  | zero => simp [encodedSize]
  | succ n ih =>
    simp only [List.replicate_succ, encodedSize, ih]
    rw [Nat.succ_mul]
    omega

theorem windowEntries_length (w : Int) (queue : List evtInput) :
    (windowEntries w queue).length = queue.length := by
  simp [windowEntries]

/-- The loop of `flushOnce` over the first events of the queue, events of the
store's window that are all accepted and leave the pending block within its
limits: they are appended to the block and the loop goes on with the rest. -/
theorem flushLoop_window_first (env : Env) (w : Int) (post : List evtInput) :
    ∀ (pre : List evtInput) (store : Store) (dir : List (Name × Bytes)) (b : Builder)
      (saved : List SaveCall) (seen : List Bytes),
      store.ready env → store.currentWindow = w → store.currentDiscr = some seen →
      (∀ e ∈ pre, windowOf e.eventTS = w) → allAccepted env seen pre = true →
      b.entriesCount + pre.length ≤ store.Config.BlockEntriesCountLimit →
      store.Config.BlockEntriesCountLimit < 65536 →
      ((b.blockBody.length + encodedSize pre : Nat) : Int) ≤ store.Config.BlockSizeLimit →
      ∃ store1 b1,
        flushLoop env (pre ++ post) store ⟨dir, []⟩ b saved
          = flushLoop env post store1 ⟨dir, []⟩ b1 saved ∧
        store1.ready env ∧ store1.currentWindow = w ∧ store1.Config = store.Config ∧
        b1.entriesCount = b.entriesCount + pre.length ∧
        b1.blockBody = b.blockBody ++ entriesBytes (windowEntries w pre) := by
  intro pre
  induction pre with
  | nil =>
    intro store dir b saved seen hr hw _ _ _ _ _ _
    exact ⟨store, b, rfl, hr, hw, rfl, rfl, by simp [windowEntries, entriesBytes]⟩
  | cons input pre ih =>
    intro store dir b saved seen hr hw hd hwin hacc hcount hlim hsize
    have hwi : windowOf input.eventTS = store.currentWindow := by
      rw [hw]; exact hwin input (by simp)
    simp only [allAccepted, Bool.and_eq_true] at hacc
    simp only [encodedSize, List.length_cons] at hsize hcount
    obtain ⟨store2, b2, hr2, hw2, hc2, hd2, hturn, hcnt, hbody⟩ :=
      flushTurn_accepts env input (pre ++ post) store ⟨dir, []⟩ b saved rfl (Or.inl hr)
        (fun h => window_not_late input.eventTS store.currentWindow hwi (hr.1 ▸ h.1))
        (by rw [if_pos hwi, hd]; exact hacc.1) (by omega) hlim
        (by push_cast at hsize ⊢; omega)
    rw [switchFile_same env store _ _ hwi] at hturn
    rw [if_pos hwi, hd] at hd2
    obtain ⟨store1, b1, heq, hr1, hw1, hc1, hcnt1, hbody1⟩ := ih store2 dir b2 saved
      (seen ++ [input.eventBody]) hr2 (by rw [hw2, hwi, hw]) hd2
      (fun e he => hwin e (List.mem_cons_of_mem _ he)) hacc.2
      (by rw [hc2, hcnt]; omega) (by rw [hc2]; exact hlim)
      (by rw [hc2, hbody, List.length_append, entryBytes_length]
          unfold entryHeaderSize at hsize
          push_cast at hsize ⊢; omega)
    refine ⟨store1, b1, ?_, hr1, hw1, hc1.trans hc2, ?_, ?_⟩
    · rw [List.cons_append, flushLoop, hturn]
      exact heq
    · rw [hcnt1, hcnt]; simp only [List.length_cons]; omega
    · rw [hbody1, hbody]
      have hwe : windowEntries w (input :: pre)
          = (Compress (timeUnix (w * 3600)) input.eventTS, input.eventBody)
            :: windowEntries w pre := rfl
      rw [hwe, entriesBytes, hwi, hw]
      simp only [List.append_assoc]

theorem entriesBytes_emptyEvents_length (n : Nat) :
    (entriesBytes (windowEntries 412008 (List.replicate n emptyEvent))).length = 8 * n := by
  induction n with
  | zero => rfl
  | succ n ih =>
    have h : windowEntries 412008 (List.replicate (n + 1) emptyEvent)
        = (Compress (timeUnix (412008 * 3600)) emptyEvent.eventTS, emptyEvent.eventBody)
          :: windowEntries 412008 (List.replicate n emptyEvent) := rfl
    rw [h, entriesBytes, List.length_append, entryBytes_length, ih]
    simp only [emptyEvent, List.length_nil]
    omega

/-- On `countWrapStore`, `n = 65535` events of its window followed by one more
are all appended to one block, whose count is 0 when it is saved. -/
theorem flushOnce_count_wraps (n : Nat) (hn : n = 65535) :
    ∃ c ∈ (flushOnce testEnv countWrapStore ⟨[], []⟩
        (List.replicate n emptyEvent ++ [emptyEvent])).saved,
      c.entriesCount = 0 ∧
      c.blockBody = entriesBytes (windowEntries 412008
        (List.replicate n emptyEvent ++ [emptyEvent])) ∧
      (windowEntries 412008 (List.replicate n emptyEvent ++ [emptyEvent])).length = 65536 := by
  have hready : countWrapStore.ready testEnv :=
    ⟨rfl, rfl, fun h => Option.noConfusion h⟩
  have hwe : windowOf emptyEvent.eventTS = 412008 := by decide
  have hlimit : countWrapStore.Config.BlockEntriesCountLimit = 65535 := rfl
  have hsizeLimit : countWrapStore.Config.BlockSizeLimit = 1048576 := rfl
  have hbody0 : emptyEvent.eventBody.length = 0 := rfl
  obtain ⟨store1, b1, heq, hr1, hw1, hc1, hcnt1, hbody1⟩ :=
    flushLoop_window_first testEnv 412008 [emptyEvent] (List.replicate n emptyEvent)
      countWrapStore [] Builder.init [] [] hready rfl rfl
      (fun e he => by rw [List.eq_of_mem_replicate he]; exact hwe)
      (allAccepted_testEnv _ _)
      (by rw [List.length_replicate, hlimit]
          show 0 + n ≤ 65535
          omega)
      (by rw [hlimit]; omega)
      (by rw [encodedSize_replicate, hsizeLimit, hbody0]
          show (((0 : Nat) + n * (entryHeaderSize + 0) : Nat) : Int) ≤ 1048576
          unfold entryHeaderSize
          push_cast
          omega)
  rw [List.length_replicate] at hcnt1
  have hcnt1a : b1.entriesCount = n := by
    rw [hcnt1]
    show 0 + n = n
    omega
  have hbody1a : b1.blockBody = entriesBytes (windowEntries 412008 (List.replicate n emptyEvent)) := by
    rw [hbody1]
    rfl
  obtain ⟨store2, fs1, seen0, hf1, hr2, hw2, hc2, hd2, hseen, hfs, hacc⟩ :=
    flushAccept_nofault testEnv emptyEvent [] store1 ⟨[], []⟩ b1 [] rfl (Or.inl hr1)
  have hq : windowEntries 412008 (List.replicate n emptyEvent ++ [emptyEvent])
      = windowEntries 412008 (List.replicate n emptyEvent)
        ++ [(Compress (timeUnix (412008 * 3600)) emptyEvent.eventTS, emptyEvent.eventBody)] := by
    unfold windowEntries
    rw [List.map_append]
    rfl
  have hbody2 : (b1.add store2 emptyEvent).blockBody
      = entriesBytes (windowEntries 412008 (List.replicate n emptyEvent ++ [emptyEvent])) := by
    rw [hq, entriesBytes_append]
    simp only [Builder.add, appendEntry_eq, hbody1a]
    rw [hr2.1, hw2, hwe]
    simp only [entriesBytes, List.append_nil]
  have hcnt2 : (b1.add store2 emptyEvent).entriesCount = 0 := by
    simp only [Builder.add, hcnt1a]
    omega
  have hsz : (entriesBytes (windowEntries 412008
      (List.replicate n emptyEvent ++ [emptyEvent]))).length = 8 * n + 8 := by
    rw [hq, entriesBytes_append, List.length_append, entriesBytes_emptyEvents_length]
    simp only [entriesBytes, List.append_nil, entryBytes_length, hbody0]
  have hturn : flushTurn testEnv emptyEvent [] store1 ⟨[], []⟩ b1 []
      = Turn.next store2 fs1 (b1.add store2 emptyEvent) [] := by
    unfold flushTurn
    rw [if_neg (fun h => window_not_late emptyEvent.eventTS store1.currentWindow
      (by rw [hw1]; exact hwe) (hr1.1 ▸ h.1)), hacc,
      if_neg (show ¬ testEnv.sceneOf seen0 emptyEvent.eventBody = false from
        fun h => Bool.noConfusion h), if_neg]
    rw [hcnt2, hbody2, hsz, hc1, hlimit, hsizeLimit]
    intro h
    rcases h with h | h
    · omega
    · push_cast at h
      omega
  refine ⟨(b1.add store2 emptyEvent).call store2, ?_, hcnt2, hbody2, ?_⟩
  · unfold flushOnce
    rw [heq, flushLoop, hturn]
    simp only
    rw [flushLoop, if_pos (by rw [hbody2, hsz]; omega), flushSave_saved]
    exact List.mem_append_right _ (List.mem_singleton.mpr rfl)
  · rw [windowEntries_length, List.length_append, List.length_replicate, hn]
    rfl

/-- C4 as stated fails when `BlockEntriesCountLimit` is `65535` and `2^16`
events are received in one call: the `uint16` count wraps to 0 with the last
of them, 0 is not above the limit, and the block handed to `saveBlock` when
the queue is empty has the count 0 while its body holds `65536` entries. -/
theorem flushOnce_count_wraps_counterexample :
    countWrapStore.Config.BlockEntriesCountLimit = 65535 ∧
    countWrapQueue.length = 65536 ∧
    ∃ c ∈ (flushOnce testEnv countWrapStore ⟨[], []⟩ countWrapQueue).saved,
      c.entriesCount = 0 ∧
      c.blockBody = entriesBytes (windowEntries 412008 countWrapQueue) ∧
      (windowEntries 412008 countWrapQueue).length = 65536 :=
  ⟨rfl,
    by unfold countWrapQueue
       rw [List.length_append, List.length_replicate]
       rfl,
    flushOnce_count_wraps 65535 rfl⟩

/-! ## `List` under two limits -/

/-- The block a turn writes does not depend on `limit`: the limit is looked at
only after the block has been written. -/
theorem scanTurn_block_limit (startTime endTime skip limit limit1 : Int) (tmpl content : Bytes)
    (baseTime : Int) (pos : Nat) (rc : Int) :
    (scanTurn startTime endTime skip limit tmpl content baseTime pos rc).block
      = (scanTurn startTime endTime skip limit1 tmpl content baseTime pos rc).block := by
  unfold scanTurn
  by_cases h0 : content.length - pos = 0
  · simp only [if_pos h0]
  · by_cases h1 : content.length - pos < blockHeaderSize
    · simp only [if_neg h0, if_pos h1]
    · simp only [if_neg h0, if_neg h1]
      cases hc : EventBlock.EntriesCount ((content.drop pos).take blockHeaderSize) with
      | none => simp only
      | some count =>
        cases hlo : EventBlock.MinCTS ((content.drop pos).take blockHeaderSize) with
        | none => simp only
        | some lo =>
          cases hhi : EventBlock.MaxCTS ((content.drop pos).take blockHeaderSize) with
          | none => simp only
          | some hi =>
            cases hs : EventBlock.CompressedSize ((content.drop pos).take blockHeaderSize) with
            | none => simp only
            | some csize =>
              simp only
              by_cases hskip : (decide (rc < skip) || decide (Decompress baseTime lo > endTime)
                  || decide (Decompress baseTime hi < startTime)) = true
              · simp only [if_pos hskip]
              · simp only [if_neg hskip]
                by_cases htl : tmpl.length < 20
                · simp only [if_pos htl]
                · simp only [if_neg htl]
                  by_cases hpay : content.length - (pos + blockHeaderSize) < csize
                  · simp only [if_pos hpay]
                  · simp only [if_neg hpay]
                    by_cases c : wrapInt ((if decide (rc < skip) = true
                        then wrapInt (rc + count) else rc) + count) > wrapInt (skip + limit)
                    · by_cases c1 : wrapInt ((if decide (rc < skip) = true
                          then wrapInt (rc + count) else rc) + count) > wrapInt (skip + limit1)
                      · rw [if_pos c, if_pos c1]
                      · rw [if_pos c, if_neg c1]; rfl
                    · by_cases c1 : wrapInt ((if decide (rc < skip) = true
                          then wrapInt (rc + count) else rc) + count) > wrapInt (skip + limit1)
                      · rw [if_neg c, if_pos c1]; rfl
                      · rw [if_neg c, if_neg c1]

/-- A turn under a smaller limit ends as under the larger one, or returns
early with the block that the larger limit lets the scan go on after. -/
theorem scanTurn_limit_le (startTime endTime skip limit limit1 : Int) (tmpl content : Bytes)
    (baseTime : Int) (pos : Nat) (rc : Int)
    (hle : wrapInt (skip + limit) ≤ wrapInt (skip + limit1)) :
    scanTurn startTime endTime skip limit tmpl content baseTime pos rc
      = scanTurn startTime endTime skip limit1 tmpl content baseTime pos rc ∨
    ∃ e p r, scanTurn startTime endTime skip limit1 tmpl content baseTime pos rc
        = ScanTurn.emitted e p r ∧
      scanTurn startTime endTime skip limit tmpl content baseTime pos rc = ScanTurn.last e := by
  unfold scanTurn
  by_cases h0 : content.length - pos = 0
  · simp only [if_pos h0]; exact Or.inl trivial
  · by_cases h1 : content.length - pos < blockHeaderSize
    · simp only [if_neg h0, if_pos h1]; exact Or.inl trivial
    · simp only [if_neg h0, if_neg h1]
      cases hc : EventBlock.EntriesCount ((content.drop pos).take blockHeaderSize) with
      | none => exact Or.inl rfl
      | some count =>
        cases hlo : EventBlock.MinCTS ((content.drop pos).take blockHeaderSize) with
        | none => exact Or.inl rfl
        | some lo =>
          cases hhi : EventBlock.MaxCTS ((content.drop pos).take blockHeaderSize) with
          | none => exact Or.inl rfl
          | some hi =>
            cases hs : EventBlock.CompressedSize ((content.drop pos).take blockHeaderSize) with
            | none => exact Or.inl rfl
            | some csize =>
              simp only
              by_cases hskip : (decide (rc < skip) || decide (Decompress baseTime lo > endTime)
                  || decide (Decompress baseTime hi < startTime)) = true
              · simp only [if_pos hskip]; exact Or.inl trivial
              · simp only [if_neg hskip]
                by_cases htl : tmpl.length < 20
                · simp only [if_pos htl]; exact Or.inl trivial
                · simp only [if_neg htl]
                  by_cases hpay : content.length - (pos + blockHeaderSize) < csize
                  · simp only [if_pos hpay]; exact Or.inl trivial
                  · simp only [if_neg hpay]
                    by_cases c : wrapInt ((if decide (rc < skip) = true
                        then wrapInt (rc + count) else rc) + count) > wrapInt (skip + limit)
                    · by_cases c1 : wrapInt ((if decide (rc < skip) = true
                          then wrapInt (rc + count) else rc) + count) > wrapInt (skip + limit1)
                      · rw [if_pos c, if_pos c1]; exact Or.inl rfl
                      · rw [if_pos c, if_neg c1]; exact Or.inr ⟨_, _, _, rfl, rfl⟩
                    · by_cases c1 : wrapInt ((if decide (rc < skip) = true
                          then wrapInt (rc + count) else rc) + count) > wrapInt (skip + limit1)
                      · exact absurd (lt_of_le_of_lt hle c1) c
                      · rw [if_neg c, if_neg c1]; exact Or.inl rfl

theorem scanBlocks_extends (startTime endTime skip limit : Int) (tmpl content : Bytes)
    (baseTime : Int) :
    ∀ (fuel pos : Nat) (rc : Int) (out : List Emitted),
      (∀ rc1 out1, scanBlocks startTime endTime skip limit tmpl content baseTime fuel pos rc out
          = Scan.goOn rc1 out1 → out <+: out1) ∧
      (∀ out1, scanBlocks startTime endTime skip limit tmpl content baseTime fuel pos rc out
          = Scan.finished out1 → out <+: out1) := by
  intro fuel
  induction fuel with
  | zero =>
    intro pos rc out
    exact ⟨fun _ _ h => by simp [scanBlocks] at h, fun _ h => by simp [scanBlocks] at h⟩
  | succ fuel ih =>
    intro pos rc out
    rw [scanBlocks]
    cases ht : scanTurn startTime endTime skip limit tmpl content baseTime pos rc with
    | eof =>
      exact ⟨fun _ _ h => by simp only [Scan.goOn.injEq] at h; rw [h.2],
        fun _ h => by simp at h⟩
    | error => exact ⟨fun _ _ h => by simp at h, fun _ h => by simp at h⟩
    | panic => exact ⟨fun _ _ h => by simp at h, fun _ h => by simp at h⟩
    | skipped pos1 rc1 => exact ih pos1 rc1 out
    | emitted e pos1 rc1 =>
      simp only
      have := ih pos1 rc1 (out ++ [e])
      exact ⟨fun a b h => (List.prefix_append out [e]).trans (this.1 a b h),
        fun a h => (List.prefix_append out [e]).trans (this.2 a h)⟩
    | last e =>
      exact ⟨fun _ _ h => by simp at h,
        fun _ h => by simp only [Scan.finished.injEq] at h; rw [← h]; exact List.prefix_append _ _⟩

theorem listFiles_extends (env : Env) (startTime endTime skip limit : Int) :
    ∀ (dir : List (Name × Bytes)) (rc : Int) (out out1 : List Emitted),
      listFiles env startTime endTime skip limit dir rc out = ListResult.ok out1 →
      out <+: out1 := by
  intro dir
  induction dir with
  | nil =>
    intro rc out out1 h
    simp only [listFiles, ListResult.ok.injEq] at h
    rw [h]
  | cons f rest ih =>
    intro rc out out1 h
    obtain ⟨filename, content⟩ := f
    rw [listFiles] at h
    cases hp : env.parse filename with
    | none => simp only [hp] at h; exact ih rc out out1 h
    | some sec =>
      simp only [hp] at h
      by_cases h1 : timeUnix sec + Hour < startTime
      · rw [if_pos h1] at h; exact ih rc out out1 h
      · rw [if_neg h1] at h
        by_cases h2 : timeUnix sec > endTime
        · rw [if_pos h2] at h; exact ih rc out out1 h
        · rw [if_neg h2] at h
          by_cases h3 : content.length - 3 < 4
          · rw [if_pos h3] at h; simp at h
          · rw [if_neg h3] at h
            cases hb : uint32 (content.drop 3) with
            | none => simp [hb] at h
            | some base =>
              simp only [hb] at h
              have hpre := scanBlocks_extends startTime endTime skip limit (filename ++ zeros8)
                content (timeUnix base) (content.length + 1) fileHeaderSize rc out
              cases hs : scanBlocks startTime endTime skip limit (filename ++ zeros8) content
                  (timeUnix base) (content.length + 1) fileHeaderSize rc out with
              | goOn rc1 outa =>
                rw [hs] at h
                exact (hpre.1 rc1 outa hs).trans (ih rc1 outa out1 h)
              | finished outa =>
                rw [hs] at h
                simp only [ListResult.ok.injEq] at h
                rw [← h]
                exact hpre.2 outa hs
              | error => rw [hs] at h; simp at h
              | panic => rw [hs] at h; simp at h
              | outOfFuel => rw [hs] at h; simp at h

/-- The scan of one file under a smaller limit ends as under the larger one,
or returns early with a longer buffer that is a prefix of what the larger
limit gives. -/
theorem scanBlocks_limit_le (startTime endTime skip limit limit1 : Int) (tmpl content : Bytes)
    (baseTime : Int) (hle : wrapInt (skip + limit) ≤ wrapInt (skip + limit1)) :
    ∀ (fuel pos : Nat) (rc : Int) (out : List Emitted),
      (∀ rc1 out1, scanBlocks startTime endTime skip limit1 tmpl content baseTime fuel pos rc out
          = Scan.goOn rc1 out1 →
        scanBlocks startTime endTime skip limit tmpl content baseTime fuel pos rc out
            = Scan.goOn rc1 out1 ∨
          ∃ out2, scanBlocks startTime endTime skip limit tmpl content baseTime fuel pos rc out
              = Scan.finished out2 ∧ out2 <+: out1 ∧ out.length < out2.length) ∧
      (∀ out1, scanBlocks startTime endTime skip limit1 tmpl content baseTime fuel pos rc out
          = Scan.finished out1 →
        ∃ out2, scanBlocks startTime endTime skip limit tmpl content baseTime fuel pos rc out
            = Scan.finished out2 ∧ out2 <+: out1 ∧ out.length < out2.length) := by
  intro fuel
  induction fuel with
  | zero =>
    intro pos rc out
    exact ⟨fun _ _ h => by simp [scanBlocks] at h, fun _ h => by simp [scanBlocks] at h⟩
  | succ fuel ih =>
    intro pos rc out
    rw [scanBlocks, scanBlocks]
    rcases scanTurn_limit_le startTime endTime skip limit limit1 tmpl content baseTime pos rc hle
      with hsame | ⟨e, p, r, h1, h0⟩
    · rw [hsame]
      cases ht : scanTurn startTime endTime skip limit1 tmpl content baseTime pos rc with
      | eof => exact ⟨fun _ _ h => Or.inl h, fun _ h => by simp at h⟩
      | error => exact ⟨fun _ _ h => by simp at h, fun _ h => by simp at h⟩
      | panic => exact ⟨fun _ _ h => by simp at h, fun _ h => by simp at h⟩
      | skipped pos1 rc1 => exact ih pos1 rc1 out
      | emitted e pos1 rc1 =>
        simp only
        have := ih pos1 rc1 (out ++ [e])
        simp only [List.length_append, List.length_singleton] at this
        constructor
        · intro a b h
          rcases this.1 a b h with h' | ⟨out2, h2, hp, hl⟩
          · exact Or.inl h'
          · exact Or.inr ⟨out2, h2, hp, by omega⟩
        · intro a h
          obtain ⟨out2, h2, hp, hl⟩ := this.2 a h
          exact ⟨out2, h2, hp, by omega⟩
      | last e =>
        refine ⟨fun _ _ h => by simp at h, fun a h => ?_⟩
        simp only [Scan.finished.injEq] at h
        exact ⟨out ++ [e], rfl, by rw [h], by simp⟩
    · rw [h1, h0]
      simp only
      have hpre := scanBlocks_extends startTime endTime skip limit1 tmpl content baseTime fuel p r
        (out ++ [e])
      exact ⟨fun a b h => Or.inr ⟨out ++ [e], rfl, hpre.1 a b h, by simp⟩,
        fun a h => ⟨out ++ [e], rfl, hpre.2 a h, by simp⟩⟩

/-- When `List` returns a buffer under a limit, under a smaller limit it
returns a prefix of that buffer, and not the buffer it started from when the
larger limit added a block to it. -/
theorem listFiles_limit_le (env : Env) (startTime endTime skip limit limit1 : Int)
    (hle : wrapInt (skip + limit) ≤ wrapInt (skip + limit1)) :
    ∀ (dir : List (Name × Bytes)) (rc : Int) (out out1 : List Emitted),
      listFiles env startTime endTime skip limit1 dir rc out = ListResult.ok out1 →
      ∃ out2, listFiles env startTime endTime skip limit dir rc out = ListResult.ok out2 ∧
        out2 <+: out1 ∧ (out.length < out1.length → out.length < out2.length) := by
  intro dir
  induction dir with
  | nil =>
    intro rc out out1 h
    simp only [listFiles, ListResult.ok.injEq] at h
    exact ⟨out, rfl, by rw [h], by rw [h]; exact fun h => h⟩
  | cons f rest ih =>
    intro rc out out1 h
    obtain ⟨filename, content⟩ := f
    rw [listFiles] at h ⊢
    cases hp : env.parse filename with
    | none => simp only [hp] at h ⊢; exact ih rc out out1 h
    | some sec =>
      simp only [hp] at h ⊢
      by_cases h1 : timeUnix sec + Hour < startTime
      · rw [if_pos h1] at h ⊢; exact ih rc out out1 h
      · rw [if_neg h1] at h ⊢
        by_cases h2 : timeUnix sec > endTime
        · rw [if_pos h2] at h ⊢; exact ih rc out out1 h
        · rw [if_neg h2] at h ⊢
          by_cases h3 : content.length - 3 < 4
          · rw [if_pos h3] at h; simp at h
          · rw [if_neg h3] at h ⊢
            cases hb : uint32 (content.drop 3) with
            | none => simp [hb] at h
            | some base =>
              simp only [hb] at h ⊢
              have hsim := scanBlocks_limit_le startTime endTime skip limit limit1
                (filename ++ zeros8) content (timeUnix base) hle (content.length + 1)
                fileHeaderSize rc out
              have hpre := scanBlocks_extends startTime endTime skip limit1 (filename ++ zeros8)
                content (timeUnix base) (content.length + 1) fileHeaderSize rc out
              cases hs : scanBlocks startTime endTime skip limit1 (filename ++ zeros8) content
                  (timeUnix base) (content.length + 1) fileHeaderSize rc out with
              | goOn rc1 outa =>
                rw [hs] at h
                simp only at h
                have hpa := (hpre.1 rc1 outa hs).length_le
                rcases hsim.1 rc1 outa hs with h' | ⟨out2, h2', hp2, hl2⟩
                · rw [h']
                  simp only
                  obtain ⟨out2, hout2, hp2, hl2⟩ := ih rc1 outa out1 h
                  refine ⟨out2, hout2, hp2, fun hlt => ?_⟩
                  have := (listFiles_extends env startTime endTime skip limit rest rc1 outa out2
                    hout2).length_le
                  by_cases hq : outa.length < out1.length
                  · have := hl2 hq; omega
                  · have := (listFiles_extends env startTime endTime skip limit1 rest rc1 outa
                      out1 h).length_le
                    omega
                · rw [h2']
                  exact ⟨out2, rfl, hp2.trans (listFiles_extends env startTime endTime skip limit1
                    rest rc1 outa out1 h), fun _ => hl2⟩
              | finished outa =>
                rw [hs] at h
                simp only [ListResult.ok.injEq] at h
                obtain ⟨out2, h2', hp2, hl2⟩ := hsim.2 outa hs
                rw [h2']
                exact ⟨out2, rfl, h ▸ hp2, fun _ => hl2⟩
              | error => rw [hs] at h; simp at h
              | panic => rw [hs] at h; simp at h
              | outOfFuel => rw [hs] at h; simp at h

/-- C21 (amended): for every directory of fewer than `2^51` bytes (so that the
count of entries read cannot overflow), every time range and
`skip, limit >= 0` with `skip + limit < 2^63`: `List` does not run out of
fuel; when it returns a buffer, the sum of `EntriesCount()` over all its
blocks except the last is at most `limit`; the block a turn of the scan
writes is the same for every limit; whenever `List` returns a buffer for a
limit `limit1 >= limit`, it returns for `limit` a prefix of that buffer, and
a non-empty one when that buffer is not empty (`limit = 0` included); and
when it returns an empty buffer it does so for every limit. -/
theorem list_exceeds_limit_by_last_block (env : Env) (dir : List (Name × Bytes))
    (startTime endTime skip limit : Int) (hskip : 0 ≤ skip) (hlimit : 0 ≤ limit)
    (hsum : skip + limit < 2 ^ 63) (hdir : dirBytes dir < 2 ^ 51) :
    Store.list env dir startTime endTime skip limit ≠ ListResult.outOfFuel ∧
    (∀ out, Store.list env dir startTime endTime skip limit = ListResult.ok out →
      (emittedEntries out.dropLast : Int) ≤ limit) ∧
    (∀ (limit1 : Int) (tmpl content : Bytes) (baseTime : Int) (pos : Nat) (rc : Int),
      (scanTurn startTime endTime skip limit tmpl content baseTime pos rc).block
        = (scanTurn startTime endTime skip limit1 tmpl content baseTime pos rc).block) ∧
    (∀ limit1 out1, limit ≤ limit1 → skip + limit1 < 2 ^ 63 →
      Store.list env dir startTime endTime skip limit1 = ListResult.ok out1 →
      ∃ out, Store.list env dir startTime endTime skip limit = ListResult.ok out ∧
        out <+: out1 ∧ (out1 ≠ [] → out ≠ [])) ∧
    (Store.list env dir startTime endTime skip limit = ListResult.ok [] →
      ∀ limit1, Store.list env dir startTime endTime skip limit1 = ListResult.ok []) := by
  refine ⟨listFiles_total env startTime endTime skip limit dir 0 [], ?_, ?_, ?_, ?_⟩
  · intro out h
    have hd : ((dirBytes dir : Nat) : Int) < 2 ^ 51 := by exact_mod_cast hdir
    refine listFiles_withinLimit env startTime endTime skip limit (65535 * (dirBytes dir : Int))
      hskip hlimit hsum ?_ dir 0 [] out ⟨le_refl _, by omega⟩ (Or.inl rfl) h
    have h63 : (2 : Int) ^ 63 = 9223372036854775808 := by norm_num
    have h51 : (2 : Int) ^ 51 = 2251799813685248 := by norm_num
    omega
  · intro limit1 tmpl content baseTime pos rc
    exact scanTurn_block_limit startTime endTime skip limit limit1 tmpl content baseTime pos rc
  · intro limit1 out1 hle hsum1 h
    have hw : wrapInt (skip + limit) ≤ wrapInt (skip + limit1) := by
      rw [wrapInt_of_range _ (by omega) hsum, wrapInt_of_range _ (by omega) hsum1]
      omega
    obtain ⟨out, hout, hpre, hlen⟩ :=
      listFiles_limit_le env startTime endTime skip limit limit1 hw dir 0 [] out1 h
    refine ⟨out, hout, hpre, fun hne => ?_⟩
    have h1 : ([] : List Emitted).length < out1.length :=
      List.length_pos.mpr hne
    exact List.length_pos.mp (hlen h1)
  · intro h limit1
    exact listFiles_empty_limit env startTime endTime skip limit limit1 dir 0 h

/-- C21 (amended) on the directory of `Test_list_skip_and_limit`, two blocks
of one entry each, with `limit = 0`: the first block is returned, a prefix of
the two blocks returned with `limit = 1`, of which the first is within that
limit. -/
theorem list_exceeds_limit_by_last_block_witness :
    ((0 : Int) ≤ 0 ∧ (0 : Int) ≤ 0 ∧ (0 : Int) + 0 < 2 ^ 63 ∧ dirBytes skipLimitDir < 2 ^ 51) ∧
    (Store.list testEnv skipLimitDir today (today + 24 * Hour) 0 1
        = ListResult.ok (allRecords skipLimitFiles) ∧
      (allRecords skipLimitFiles).map Emitted.count = [1, 1] ∧
      Store.list testEnv skipLimitDir today (today + 24 * Hour) 0 0
        = ListResult.ok ((allRecords skipLimitFiles).take 1)) ∧
    Store.list testEnv skipLimitDir today (today + 24 * Hour) 0 0 ≠ ListResult.outOfFuel ∧
    (∀ out, Store.list testEnv skipLimitDir today (today + 24 * Hour) 0 0 = ListResult.ok out →
      (emittedEntries out.dropLast : Int) ≤ 0) ∧
    (∀ (limit1 : Int) (tmpl content : Bytes) (baseTime : Int) (pos : Nat) (rc : Int),
      (scanTurn today (today + 24 * Hour) 0 0 tmpl content baseTime pos rc).block
        = (scanTurn today (today + 24 * Hour) 0 limit1 tmpl content baseTime pos rc).block) ∧
    (∀ limit1 out1, 0 ≤ limit1 → 0 + limit1 < 2 ^ 63 →
      Store.list testEnv skipLimitDir today (today + 24 * Hour) 0 limit1 = ListResult.ok out1 →
      ∃ out, Store.list testEnv skipLimitDir today (today + 24 * Hour) 0 0 = ListResult.ok out ∧
        out <+: out1 ∧ (out1 ≠ [] → out ≠ [])) ∧
    (Store.list testEnv skipLimitDir today (today + 24 * Hour) 0 0 = ListResult.ok [] →
      ∀ limit1, Store.list testEnv skipLimitDir today (today + 24 * Hour) 0 limit1
        = ListResult.ok []) :=
  ⟨⟨by decide, by decide, by decide, by decide⟩,
    ⟨by decide, by decide, by decide⟩,
    list_exceeds_limit_by_last_block testEnv skipLimitDir today (today + 24 * Hour) 0 0
      (by decide) (by decide) (by decide) (by decide)⟩

/-- C21 as stated fails for a directory in which a selected block is followed
by a torn header: with `limit = 0` the block is returned, so it is selected,
yet with `limit = 10` the scan goes on to the 3 bytes that follow, the read
of the header fails, and `List` returns the error and no block. -/
theorem list_selected_block_lost_counterexample :
    Store.list testEnv tornAfterBlockDir today (today + Hour) 0 0
      = ListResult.ok [hello2Block] ∧
    Store.list testEnv tornAfterBlockDir today (today + Hour) 0 10 = ListResult.err := by
  decide

/-- C11 as stated fails for a file whose block lies beyond the hour of the
file: the block, compressed to 5000 seconds after 08:00, overlaps
`[08:00 + 4000 s, 08:00 + 6000 s]` and no entry precedes it, yet `List` passes
over the whole file, whose name is more than one hour before the start of the
range, and returns nothing. -/
theorem list_skip_limit_late_block_counterexample :
    (∀ b ∈ lateFile.blocks, b.overlaps (timeUnix lateFile.sec)
      (timeUnix (1483228800 + 4000)) (timeUnix (1483228800 + 6000)) = true) ∧
    (skipLimit 0 10 0 (allRecords [lateFile])).length = 1 ∧
    Store.list testEnv [(lateFile.name, lateFile.content)]
      (timeUnix (1483228800 + 4000)) (timeUnix (1483228800 + 6000)) 0 10
      = ListResult.ok [] := by
  decide

/-! ## The capacity of the listing in `clean` -/

/-- For a `KeepFilesCount` that is not negative, `clean` does the same
whatever the capacity of the slice `ReadDir` returns. -/
theorem cleanCap_eq_clean (cap : Nat) (store : Store) (fs : Fs)
    (hk : 0 ≤ store.Config.KeepFilesCount) (hcap : fs.dir.length ≤ cap) :
    cleanCap cap store fs = clean store fs := by
  unfold cleanCap clean
  rcases ht : fs.tick with ⟨t, fs1⟩
  have hd : fs1.dir = fs.dir := tick_eq_dir fs fs1 t ht
  cases t with
  | true => rfl
  | false =>
    simp only
    by_cases h : (fs1.dir.length : Int) > store.Config.KeepFilesCount
    · rw [if_pos h, if_pos h, if_neg (by rw [hd]; omega), if_neg (by omega)]
    · rw [if_neg h, if_neg h]

/-- With `KeepFilesCount = -1`, two files and a listing of capacity 4, the
slice expression does not panic and both files are removed; with no spare
capacity it panics and nothing is removed. -/
theorem cleanCap_negative_keep :
    (cleanCap 4 { NewStore with Config := { defaultConfig with KeepFilesCount := -1 } }
      ⟨[(ascii "201701010800", []), (ascii "201701010900", [])], []⟩).dir = [] ∧
    (cleanCap 2 { NewStore with Config := { defaultConfig with KeepFilesCount := -1 } }
      ⟨[(ascii "201701010800", []), (ascii "201701010900", [])], []⟩).dir
      = [(ascii "201701010800", []), (ascii "201701010900", [])] := by
  decide

end Evtstore
